import Mathlib

/-!
Verification of the compiler front-end (lexer, recursive-descent parser,
semantic analyzer) by a shallow embedding of its modules.

The source uses Chinese identifiers; Lean identifiers cannot contain CJK
characters, so every definition keeps the English name that the source
itself gives in its comments (e.g. `TokenType.整数  -- INTEGER` becomes
`TokenType.INTEGER`), and each definition's doc comment names the Python
definition it embeds.
-/

set_option maxHeartbeats 4000000
set_option maxRecDepth 4000

namespace Compiler

/-- Embeds `TokenType` (src/lexer/token.py).  Constructor names follow the
English glosses in the source comments (整数 = INTEGER, and so on). -/
inductive TokenType where
  | INTEGER | FLOAT | STRING | BOOLEAN
  | IDENTIFIER
  | FUNCTION | RETURN | IF | ELSE | WHILE | FOR | TRUE | FALSE | NULL
  | PLUS | MINUS | MULTIPLY | DIVIDE | MODULO
  | EQUAL | NOT_EQUAL | LESS_THAN | GREATER_THAN | LESS_EQUAL | GREATER_EQUAL
  | AND | OR | NOT
  | ASSIGN
  | LEFT_PAREN | RIGHT_PAREN | LEFT_BRACE | RIGHT_BRACE | LEFT_BRACKET | RIGHT_BRACKET
  | SEMICOLON | COMMA | DOT
  | NEWLINE | EOF
  | ERROR
deriving DecidableEq, Repr, Fintype

/-- The `值` field of a Python `Token` is dynamically typed (`Any`): an int,
a float, a str, a bool, or `None`.  Float payloads are kept as their source
text because no embedded operation ever inspects a float numerically. -/
inductive TokenValue where
  | intVal (n : Int)
  | floatVal (raw : String)
  | strVal (s : String)
  | boolVal (b : Bool)
  | noneVal
deriving DecidableEq, Repr

/-- Embeds `Token` (src/lexer/token.py): `类型`/`值`/`行号`/`列号`. -/
structure Token where
  type : TokenType
  value : TokenValue
  line : Nat := 1
  column : Nat := 1
deriving DecidableEq, Repr

/-- Embeds the `KEYWORDS` dict (src/lexer/token.py). -/
def KEYWORDS (s : String) : Option TokenType :=
  if s = "func" then some .FUNCTION
  else if s = "return" then some .RETURN
  else if s = "if" then some .IF
  else if s = "else" then some .ELSE
  else if s = "while" then some .WHILE
  else if s = "for" then some .FOR
  else if s = "true" then some .TRUE
  else if s = "false" then some .FALSE
  else if s = "null" then some .NULL
  else none

/-- Embeds `基本类型枚举` (src/semantic/types.py): Int, Float, String, Bool,
Void (空值), Unknown (未知). -/
inductive PrimKind where
  | int | float | string | bool | void | unknown
deriving DecidableEq, Repr, Fintype

/-- Embeds the `类型` hierarchy (src/semantic/types.py): `基本类型` wraps a
`PrimKind`, `函数类型` has a parameter-type list and a return type.  The
Python classes compare structurally (`__eq__`), matching derived equality. -/
inductive Ty where
  | prim (kind : PrimKind)
  | func (params : List Ty) (ret : Ty)

mutual

/-- Structural decidable equality for `Ty` (the automatic deriving does not
handle the nested `List Ty`). -/
def Ty.decEq : (a b : Ty) → Decidable (a = b)
  | .prim a, .prim b =>
      if h : a = b then isTrue (by rw [h])
      else isFalse (fun hh => by cases hh; exact h rfl)
  | .prim _, .func _ _ => isFalse (fun h => by cases h)
  | .func _ _, .prim _ => isFalse (fun h => by cases h)
  | .func ps r, .func qs s =>
      match Ty.decEqList ps qs, Ty.decEq r s with
      | isTrue h1, isTrue h2 => isTrue (by rw [h1, h2])
      | isFalse h1, _ => isFalse (fun hh => by cases hh; exact h1 rfl)
      | _, isFalse h2 => isFalse (fun hh => by cases hh; exact h2 rfl)

/-- Decidable equality for lists of `Ty`. -/
def Ty.decEqList : (a b : List Ty) → Decidable (a = b)
  | [], [] => isTrue rfl
  | [], _ :: _ => isFalse (fun h => by cases h)
  | _ :: _, [] => isFalse (fun h => by cases h)
  | a :: as_, b :: bs =>
      match Ty.decEq a b, Ty.decEqList as_ bs with
      | isTrue h1, isTrue h2 => isTrue (by rw [h1, h2])
      | isFalse h1, _ => isFalse (fun hh => by cases hh; exact h1 rfl)
      | _, isFalse h2 => isFalse (fun hh => by cases hh; exact h2 rfl)

end

instance : DecidableEq Ty := Ty.decEq

/-- Embeds `基本类型.is_numeric`: true for Int and Float. -/
def PrimKind.is_numeric (k : PrimKind) : Bool :=
  k = .int ∨ k = .float

mutual

/-- Embeds `is_compatible_with` (src/semantic/types.py): on primitives, both
numeric or equal kinds; on function types, equal arity, pairwise-compatible
parameters and compatible returns; mixed prim/function is incompatible. -/
def Ty.is_compatible_with : Ty → Ty → Bool
  | .prim a, .prim b => (a.is_numeric && b.is_numeric) || (a = b)
  | .prim _, .func _ _ => false
  | .func _ _, .prim _ => false
  | .func ps r, .func qs s =>
      (ps.length = qs.length) && Ty.zip_compatible ps qs && r.is_compatible_with s

/-- The `zip` loop inside `函数类型.is_compatible_with`: pairwise
compatibility over `zip`, which truncates at the shorter list (the arity
check is done separately, as in the source). -/
def Ty.zip_compatible : List Ty → List Ty → Bool
  | [], _ => true
  | _ :: _, [] => true
  | a :: as_, b :: bs => a.is_compatible_with b && Ty.zip_compatible as_ bs

end

/-- Embeds `is_assignable_from` (src/semantic/types.py).  `基本类型`
overrides it (Float target accepts Int, otherwise identical kinds);
`函数类型` does not override, so it falls back to the base class's
`is_compatible_with`. -/
def Ty.is_assignable_from : Ty → Ty → Bool
  | .prim t, .prim v => ((t = .float) && (v = .int)) || (t = v)
  | .prim _, .func _ _ => false
  | .func ps r, other => (Ty.func ps r).is_compatible_with other

/-- Embeds `类型系统.infer_literal_type` (src/semantic/types.py): an
`if`/`elif` chain on the token type, then `value is None`, then Unknown. -/
def infer_literal_type (token_type : TokenType) (value : TokenValue) : Ty :=
  if token_type = .INTEGER then .prim .int
  else if token_type = .FLOAT then .prim .float
  else if token_type = .STRING then .prim .string
  else if token_type = .BOOLEAN then .prim .bool
  else if value = .noneVal then .prim .void
  else .prim .unknown

/-- Embeds `类型系统._算术运算类型规则`: Unknown propagates; two numerics
give Float if either is Float else Int; two Strings give String; anything
else (including any function type) has no result. -/
def arithmetic_rule (l r : Ty) : Option Ty :=
  match l, r with
  | .prim a, .prim b =>
      if a = .unknown ∨ b = .unknown then some (.prim .unknown)
      else if a.is_numeric ∧ b.is_numeric then
        (if a = .float ∨ b = .float then some (.prim .float) else some (.prim .int))
      else if a = .string ∧ b = .string then some (.prim .string)
      else none
  | _, _ => none

/-- Embeds `类型系统._比较运算类型规则`. -/
def comparison_rule (l r : Ty) : Option Ty :=
  match l, r with
  | .prim a, .prim b =>
      if a = .unknown ∨ b = .unknown then some (.prim .bool)
      else if a.is_numeric ∧ b.is_numeric then some (.prim .bool)
      else if a = b then some (.prim .bool)
      else none
  | _, _ => none

/-- Embeds `类型系统._逻辑运算类型规则`. -/
def logical_rule (l r : Ty) : Option Ty :=
  match l, r with
  | .prim a, .prim b =>
      if a = .unknown ∨ b = .unknown then some (.prim .bool)
      else if a = .bool ∧ b = .bool then some (.prim .bool)
      else none
  | _, _ => none

/-- Embeds `类型系统._一元减法类型规则`. -/
def unary_minus_rule (t : Ty) : Option Ty :=
  match t with
  | .prim a =>
      if a = .unknown then some (.prim .unknown)
      else if a.is_numeric then some (.prim a)
      else none
  | _ => none

/-- Embeds `类型系统._一元非类型规则`. -/
def unary_not_rule (t : Ty) : Option Ty :=
  match t with
  | .prim a =>
      if a = .unknown then some (.prim .bool)
      else if a = .bool then some (.prim .bool)
      else none
  | _ => none

/-- Embeds `类型系统.check_binary_operation`: dispatches through the
`二元运算符类型规则` dict (all five arithmetic operators share one rule,
all six comparisons share one, both logical operators share one). -/
def check_binary_operation (l : Ty) (op : TokenType) (r : Ty) : Option Ty :=
  if op = .PLUS ∨ op = .MINUS ∨ op = .MULTIPLY ∨ op = .DIVIDE ∨ op = .MODULO then
    arithmetic_rule l r
  else if op = .EQUAL ∨ op = .NOT_EQUAL ∨ op = .LESS_THAN ∨ op = .GREATER_THAN ∨
          op = .LESS_EQUAL ∨ op = .GREATER_EQUAL then
    comparison_rule l r
  else if op = .AND ∨ op = .OR then
    logical_rule l r
  else none

/-- Embeds `类型系统.check_unary_operation`. -/
def check_unary_operation (op : TokenType) (t : Ty) : Option Ty :=
  if op = .MINUS then unary_minus_rule t
  else if op = .NOT then unary_not_rule t
  else none

/-- Embeds `类型系统.check_assignment`. -/
def check_assignment (target value : Ty) : Bool :=
  target.is_assignable_from value

/-- Embeds the `符号` hierarchy (src/semantic/symbols.py): `变量符号`,
`函数符号`, `参数符号`. -/
inductive Symbol where
  | varSym (name : String) (ty : Ty) (line column : Nat) (initialized : Bool)
  | funcSym (name : String) (ty : Ty) (params : List String) (line column : Nat)
      (defined : Bool)
  | paramSym (name : String) (ty : Ty) (position line column : Nat)
deriving DecidableEq

/-- The `名称` field shared by all symbol classes. -/
def Symbol.name : Symbol → String
  | .varSym n _ _ _ _ => n
  | .funcSym n _ _ _ _ _ => n
  | .paramSym n _ _ _ _ => n

/-- The `类型` field shared by all symbol classes. -/
def Symbol.ty : Symbol → Ty
  | .varSym _ t _ _ _ => t
  | .funcSym _ t _ _ _ _ => t
  | .paramSym _ t _ _ _ => t

/-- Models the in-place mutation `symbol.类型 = t` on a symbol object. -/
def Symbol.setTy (t : Ty) : Symbol → Symbol
  | .varSym n _ l c i => .varSym n t l c i
  | .funcSym n _ ps l c d => .funcSym n t ps l c d
  | .paramSym n _ p l c => .paramSym n t p l c

/-- Embeds `变量符号.mark_initialized`; a no-op on other symbol kinds
(mirroring that the analyzer guards the call with `isinstance`). -/
def Symbol.mark_initialized : Symbol → Symbol
  | .varSym n t l c _ => .varSym n t l c true
  | s => s

/-- Embeds `符号表` (src/semantic/symbols.py): one scope's name together
with its `符号映射` dict.  The dict is modeled as an association list in
insertion order with first-match lookup; `define` keeps keys unique, which
makes the two representations agree. -/
structure SymbolTable where
  name : String
  symbols : List (String × Symbol)
deriving DecidableEq

/-- Embeds `符号表.define`: reject (returning the table unchanged) when the
name is already a key, otherwise insert. -/
def SymbolTable.define (st : SymbolTable) (s : Symbol) : Bool × SymbolTable :=
  if (st.symbols.lookup s.name).isSome then (false, st)
  else (true, { st with symbols := st.symbols ++ [(s.name, s)] })

/-- Embeds `符号表.lookup`. -/
def SymbolTable.lookup (st : SymbolTable) (n : String) : Option Symbol :=
  st.symbols.lookup n

/-- Embeds `作用域管理器` (src/semantic/symbols.py).  The Python list
`作用域栈` grows at the end and is searched reversed; `scopes` here is that
stack listed from innermost (top) to outermost, so pushing is `cons` and an
innermost-outwards search is a left-to-right scan.  The `全局作用域` field
is an alias of the bottom-most scope and is modeled by `scopes.getLast?`. -/
structure ScopeManager where
  scopes : List SymbolTable
deriving DecidableEq

/-- Embeds `作用域管理器.enter_scope`. -/
def ScopeManager.enter_scope (m : ScopeManager) (name : String) : ScopeManager :=
  { scopes := ⟨name, []⟩ :: m.scopes }

/-- Embeds `作用域管理器.exit_scope`: pops and returns the top scope, or
`none` when the stack is empty. -/
def ScopeManager.exit_scope (m : ScopeManager) : Option SymbolTable × ScopeManager :=
  match m.scopes with
  | [] => (none, m)
  | s :: rest => (some s, ⟨rest⟩)

/-- Embeds `作用域管理器.current_scope`. -/
def ScopeManager.current_scope (m : ScopeManager) : Option SymbolTable :=
  m.scopes.head?

/-- Embeds `作用域管理器.define_symbol`: defines in the current (top)
scope, returning `false` when there is no scope or the name is taken. -/
def ScopeManager.define_symbol (m : ScopeManager) (s : Symbol) : Bool × ScopeManager :=
  match m.scopes with
  | [] => (false, m)
  | top :: rest =>
      let (ok, top') := top.define s
      (ok, ⟨top' :: rest⟩)

/-- Embeds `作用域管理器.lookup_symbol`: innermost-to-outermost search. -/
def ScopeManager.lookup_symbol (m : ScopeManager) (n : String) : Option Symbol :=
  m.scopes.findSome? (·.lookup n)

/-- Embeds `作用域管理器.lookup_symbol_current_scope`. -/
def ScopeManager.lookup_symbol_current_scope (m : ScopeManager) (n : String) :
    Option Symbol :=
  match m.scopes with
  | [] => none
  | top :: _ => top.lookup n

/-- Helper for `update_symbol`: rewrite the binding of `n` in the innermost
scope of the stack that contains it. -/
def ScopeManager.update_scopes (n : String) (f : Symbol → Symbol) :
    List SymbolTable → List SymbolTable
  | [] => []
  | st :: rest =>
      if (st.lookup n).isSome then
        let upd := fun (p : String × Symbol) => if p.1 = n then (p.1, f p.2) else p
        { st with symbols := st.symbols.map upd } :: rest
      else st :: ScopeManager.update_scopes n f rest

/-- Models the analyzer's in-place mutation of a symbol object obtained from
`lookup_symbol`: rewrites the binding of `n` in the innermost scope that
contains it. -/
def ScopeManager.update_symbol (m : ScopeManager) (n : String) (f : Symbol → Symbol) :
    ScopeManager :=
  ⟨ScopeManager.update_scopes n f m.scopes⟩

/-- Embeds `LexerError` (src/lexer/lexer.py): message with line/column. -/
structure LexError where
  message : String
  line : Nat
  column : Nat
deriving DecidableEq

/-- Result of a lexer operation.  `err` embeds a raised `LexerError`; `out`
marks fuel exhaustion of the embedding's explicit recursion bound and is
proved unreachable for the bound `tokenize` supplies. -/
inductive LexRes (α : Type) where
  | ok (a : α)
  | err (e : LexError)
  | out
deriving DecidableEq

/-- Embeds the `Lexer` scanning state (src/lexer/lexer.py): `source`,
`position`, `line`, `column`.  The cached `current_char` field is derived:
it always equals `source[position]` when in range and `None` past the end
(the one direct write, in `read_number`'s backtrack, restores exactly that
invariant). -/
structure Lexer where
  source : List Char
  position : Nat
  line : Nat
  column : Nat
deriving DecidableEq

/-- Embeds `Lexer.__init__` on a source string. -/
def Lexer.init (s : String) : Lexer :=
  ⟨s.data, 0, 1, 1⟩

/-- The derived `current_char` field. -/
def Lexer.current_char (l : Lexer) : Option Char :=
  l.source.get? l.position

/-- Embeds `Lexer.advance`: bump line/column, then move one character. -/
def Lexer.advance (l : Lexer) : Lexer :=
  if l.current_char = some '\n' then
    { l with line := l.line + 1, column := 1, position := l.position + 1 }
  else
    { l with column := l.column + 1, position := l.position + 1 }

/-- Embeds `Lexer.peek` (only ever called with the default offset 1). -/
def Lexer.peek (l : Lexer) : Option Char :=
  l.source.get? (l.position + 1)

/-- Python's `str.isspace` on the single characters this lexer can see.
The embedding models ASCII sources. -/
def pyIsSpace (c : Char) : Bool :=
  c = ' ' ∨ c = '\t' ∨ c = '\n' ∨ c = '\r' ∨ c = '\x0b' ∨ c = '\x0c'

/-- Python's `str.isdigit` (ASCII model). -/
def pyIsDigit (c : Char) : Bool := c.isDigit

/-- Python's `str.isalpha` (ASCII model). -/
def pyIsAlpha (c : Char) : Bool := c.isAlpha

/-- Python's `str.isalnum` (ASCII model). -/
def pyIsAlnum (c : Char) : Bool := c.isAlphanum

/-- Fuel that always suffices for any of the scanning loops below: one
step per remaining character plus one.  Each loop consumes at least one
character per recursive call, so with this bound `none`/`out` (fuel
exhaustion, the embedding's recursion artifact) is unreachable — proved
below. -/
def scan_fuel (l : Lexer) : Nat :=
  l.source.length - l.position + 1

/-- The loop of `Lexer.skip_whitespace`. -/
def skip_whitespace_go : Nat → Lexer → Option Lexer
  | 0, _ => none
  | fuel+1, l =>
    match l.current_char with
    | some c =>
        if pyIsSpace c ∧ c ≠ '\n' then skip_whitespace_go fuel l.advance else some l
    | none => some l

/-- Embeds `Lexer.skip_whitespace`: skip whitespace other than newline. -/
def Lexer.skip_whitespace (l : Lexer) : Option Lexer :=
  skip_whitespace_go (scan_fuel l) l

/-- The read-to-end-of-line loop of `Lexer.skip_line_comment`. -/
def skip_to_eol_go : Nat → Lexer → Option Lexer
  | 0, _ => none
  | fuel+1, l =>
    match l.current_char with
    | some c => if c ≠ '\n' then skip_to_eol_go fuel l.advance else some l
    | none => some l

/-- Embeds `Lexer.skip_line_comment`: skip the two slashes, then read to
end of line. -/
def Lexer.skip_line_comment (l : Lexer) : Option Lexer :=
  skip_to_eol_go (scan_fuel l.advance.advance) l.advance.advance

/-- Python's `int(...)` on a digit string. -/
def str_to_int (s : String) : Int :=
  Int.ofNat (s.data.foldl (fun n c => n * 10 + (c.toNat - 48)) 0)

/-- The scanning loop of `Lexer.read_number`: consume digits and at most
one dot (a second dot breaks the loop). -/
def read_number_go : Nat → Lexer → String → Bool → Option (String × Bool × Lexer)
  | 0, _, _, _ => none
  | fuel+1, l, acc, has_dot =>
    match l.current_char with
    | some c =>
        if pyIsDigit c ∨ c = '.' then
          if c = '.' ∧ has_dot then some (acc, has_dot, l)
          else read_number_go fuel l.advance (acc.push c) (has_dot || (c = '.'))
        else some (acc, has_dot, l)
    | none => some (acc, has_dot, l)

/-- Embeds `Lexer.read_number`: scan, then if the scanned text ends in a
dangling dot, back up one character (re-exposing the dot) and emit an
Integer; otherwise emit Float or Integer by presence of a dot. -/
def Lexer.read_number (l : Lexer) : Option (Token × Lexer) :=
  (read_number_go (scan_fuel l) l "" false).map fun r =>
    let (s, has_dot, l1) := r
    -- `number_str.endswith('.')` / `number_str[:-1]`, expressed on the
    -- character list so they reduce definitionally
    if s.data.getLast? = some '.' then
      let l2 : Lexer := { l1 with position := l1.position - 1, column := l1.column - 1 }
      (⟨.INTEGER, .intVal (str_to_int ⟨s.data.dropLast⟩), l.line, l.column⟩, l2)
    else if has_dot then
      (⟨.FLOAT, .floatVal s, l.line, l.column⟩, l1)
    else
      (⟨.INTEGER, .intVal (str_to_int s), l.line, l.column⟩, l1)

/-- The escape table inside `Lexer.read_string`; unknown escapes pass the
character through unchanged. -/
def escape_char (c : Char) : Char :=
  if c = 'n' then '\n'
  else if c = 't' then '\t'
  else if c = 'r' then '\r'
  else if c = '\\' then '\\'
  else if c = '"' then '"'
  else if c = '\'' then '\''
  else c

/-- The scanning loop of `Lexer.read_string` plus its post-loop check:
reaching end of input (directly or right after a backslash) raises the
unterminated-string error; the closing quote is skipped on success. -/
def read_string_go : Nat → Lexer → Char → String → LexRes (String × Lexer)
  | 0, _, _, _ => .out
  | fuel+1, l, quote, acc =>
    match l.current_char with
    | none => .err ⟨"字符串未闭合", l.line, l.column⟩
    | some c =>
        if c = quote then .ok (acc, l.advance)
        else if c = '\\' then
          let l2 := l.advance
          match l2.current_char with
          | none => .err ⟨"字符串未闭合", l2.line, l2.column⟩
          | some e => read_string_go fuel l2.advance quote (acc.push (escape_char e))
        else read_string_go fuel l.advance quote (acc.push c)

/-- Embeds `Lexer.read_string`: record the quote character, skip it, and
scan to the matching quote.  Call sites guarantee the current character is
a quote, so the `getD` default is never consulted. -/
def Lexer.read_string (l : Lexer) : LexRes (Token × Lexer) :=
  match read_string_go (scan_fuel l.advance) l.advance (l.current_char.getD '"') "" with
  | .ok (s, l2) => .ok (⟨.STRING, .strVal s, l.line, l.column⟩, l2)
  | .err e => .err e
  | .out => .out

/-- The scanning loop of `Lexer.read_identifier`. -/
def read_ident_go : Nat → Lexer → String → Option (String × Lexer)
  | 0, _, _ => none
  | fuel+1, l, acc =>
    match l.current_char with
    | some c =>
        if pyIsAlnum c ∨ c = '_' then read_ident_go fuel l.advance (acc.push c)
        else some (acc, l)
    | none => some (acc, l)

/-- Embeds `Lexer.read_identifier`: scan the run, look the text up in the
keyword table, and fold `true`/`false`/`null` into Boolean-valued tokens
(`null` becomes a BOOLEAN token whose value is the none-marker). -/
def Lexer.read_identifier (l : Lexer) : Option (Token × Lexer) :=
  (read_ident_go (scan_fuel l) l "").map fun r =>
    let (s, l1) := r
    match KEYWORDS s with
    | some .TRUE => (⟨.BOOLEAN, .boolVal true, l.line, l.column⟩, l1)
    | some .FALSE => (⟨.BOOLEAN, .boolVal false, l.line, l.column⟩, l1)
    | some .NULL => (⟨.BOOLEAN, .noneVal, l.line, l.column⟩, l1)
    | some t => (⟨t, .strVal s, l.line, l.column⟩, l1)
    | none => (⟨.IDENTIFIER, .strVal s, l.line, l.column⟩, l1)

/-- The `single_char_tokens` dict inside `Lexer.next_token`. -/
def single_char_token (c : Char) : Option TokenType :=
  if c = '+' then some .PLUS
  else if c = '-' then some .MINUS
  else if c = '*' then some .MULTIPLY
  else if c = '/' then some .DIVIDE
  else if c = '%' then some .MODULO
  else if c = '=' then some .ASSIGN
  else if c = '<' then some .LESS_THAN
  else if c = '>' then some .GREATER_THAN
  else if c = '!' then some .NOT
  else if c = '(' then some .LEFT_PAREN
  else if c = ')' then some .RIGHT_PAREN
  else if c = '\x7b' then some .LEFT_BRACE
  else if c = '\x7d' then some .RIGHT_BRACE
  else if c = '[' then some .LEFT_BRACKET
  else if c = ']' then some .RIGHT_BRACKET
  else if c = ';' then some .SEMICOLON
  else if c = ',' then some .COMMA
  else if c = '.' then some .DOT
  else none

/-- Embeds `Lexer.next_token`.  The Python `while` re-enters via `continue`
only after `skip_whitespace` or `skip_line_comment`; those re-entries are
the fuel-counted recursive calls.  Branch order follows the source:
whitespace, newline, digit, quote, identifier, comment, the six two-char
operators, single-char tokens, then the Error token for anything else. -/
def next_token : Nat → Lexer → LexRes (Token × Lexer)
  | 0, _ => .out
  | fuel+1, l =>
    match l.current_char with
    | none => .ok (⟨.EOF, .noneVal, l.line, l.column⟩, l)
    | some c =>
      if pyIsSpace c ∧ c ≠ '\n' then
        match l.skip_whitespace with
        | some l1 => next_token fuel l1
        | none => .out
      else if c = '\n' then .ok (⟨.NEWLINE, .strVal "\n", l.line, l.column⟩, l.advance)
      else if pyIsDigit c then
        match l.read_number with
        | some r => .ok r
        | none => .out
      else if c = '"' ∨ c = '\'' then l.read_string
      else if pyIsAlpha c ∨ c = '_' then
        match l.read_identifier with
        | some r => .ok r
        | none => .out
      else if c = '/' ∧ l.peek = some '/' then
        match l.skip_line_comment with
        | some l1 => next_token fuel l1
        | none => .out
      else if c = '=' ∧ l.peek = some '=' then
        .ok (⟨.EQUAL, .strVal "==", l.line, l.column⟩, l.advance.advance)
      else if c = '!' ∧ l.peek = some '=' then
        .ok (⟨.NOT_EQUAL, .strVal "!=", l.line, l.column⟩, l.advance.advance)
      else if c = '<' ∧ l.peek = some '=' then
        .ok (⟨.LESS_EQUAL, .strVal "<=", l.line, l.column⟩, l.advance.advance)
      else if c = '>' ∧ l.peek = some '=' then
        .ok (⟨.GREATER_EQUAL, .strVal ">=", l.line, l.column⟩, l.advance.advance)
      else if c = '&' ∧ l.peek = some '&' then
        .ok (⟨.AND, .strVal "&&", l.line, l.column⟩, l.advance.advance)
      else if c = '|' ∧ l.peek = some '|' then
        .ok (⟨.OR, .strVal "||", l.line, l.column⟩, l.advance.advance)
      else
        match single_char_token c with
        | some tt => .ok (⟨tt, .strVal c.toString, l.line, l.column⟩, l.advance)
        | none => .ok (⟨.ERROR, .strVal c.toString, l.line, l.column⟩, l.advance)

/-- Fuel that always suffices for one `next_token` call (proved below). -/
def next_token_fuel (l : Lexer) : Nat :=
  l.source.length - l.position + 2

/-- The collection loop of `Lexer.tokenize`: gather tokens until (and
including) the EOF token. -/
def tokenize_loop : Nat → Lexer → LexRes (List Token)
  | 0, _ => .out
  | fuel+1, l =>
    match next_token (next_token_fuel l) l with
    | .err e => .err e
    | .out => .out
    | .ok (t, l1) =>
      if t.type = .EOF then .ok [t]
      else
        match tokenize_loop fuel l1 with
        | .ok ts => .ok (t :: ts)
        | .err e => .err e
        | .out => .out

/-- Embeds `Lexer.tokenize` on a source string (the fuel, one more than the
maximum possible number of tokens, is proved sufficient below). -/
def tokenize (s : String) : LexRes (List Token) :=
  tokenize_loop (s.data.length + 2) (Lexer.init s)

mutual

/-- Embeds the expression AST nodes (src/ast/expressions.py):
`二元运算表达式` (binary), `一元运算表达式` (unary), `字面量表达式`
(literal, storing the token's value and type), `标识符表达式` (ident),
`函数调用表达式` (call), `赋值表达式` (assign).  Each node's base-class
line/column is the stored token's (binary/unary) or the stored pair. -/
inductive Expr where
  | binary (left : Expr) (op : Token) (right : Expr)
  | unary (op : Token) (operand : Expr)
  | literal (value : TokenValue) (type : TokenType) (line column : Nat)
  | ident (name : String) (line column : Nat)
  | call (callee : Expr) (args : List Expr) (line column : Nat)
  | assign (target : Expr) (value : Expr) (line column : Nat)

/-- Embeds the statement AST nodes (src/ast/statements.py):
`表达式语句`, `变量声明语句`, `函数声明语句`, `返回语句`, `如果语句`,
`当语句`, `代码块语句`. -/
inductive Stmt where
  | exprStmt (e : Expr)
  | varDecl (name : String) (initializer : Option Expr) (line column : Nat)
  | funcDecl (name : String) (params : List String) (body : Stmt) (line column : Nat)
  | returnStmt (value : Option Expr) (line column : Nat)
  | ifStmt (cond : Expr) (thenBranch : Stmt) (elseBranch : Option Stmt) (line column : Nat)
  | whileStmt (cond : Expr) (body : Stmt) (line column : Nat)
  | block (stmts : List Stmt) (line column : Nat)

end

/-- Embeds `程序` (src/ast/program.py). -/
structure Program where
  stmts : List Stmt

/-- The identifier/keyword text a token carries (`token.值` is always a
`str` for IDENTIFIER tokens, the only places this is used). -/
def value_text : TokenValue → String
  | .strVal s => s
  | _ => ""

/-- Embeds `ParserError` (src/parser/parser.py): the message plus the
offending token's line/column. -/
structure ParseError where
  message : String
  line : Nat
  column : Nat
deriving DecidableEq

/-- Embeds the `Parser` state (src/parser/parser.py): the token list and
the `current` index (`length` is derived). -/
structure Parser where
  tokens : List Token
  current : Nat
deriving DecidableEq

/-- Result of a parsing operation.  `err` embeds a raised `ParserError`
together with the parser state at the raise site (Python exceptions do not
roll back `self.current`); `out` marks exhaustion of the embedding's fuel
bound and is proved unreachable for the fuel `parse` supplies. -/
inductive PRes (α : Type) where
  | ok (a : α) (p : Parser)
  | err (e : ParseError) (p : Parser)
  | out

/-- Sequencing for `PRes`: propagate a raised error or fuel exhaustion. -/
def PRes.bind {α β : Type} : PRes α → (α → Parser → PRes β) → PRes β
  | .ok a p, f => f a p
  | .err e p, _ => .err e p
  | .out, _ => .out

/-- The fallback token for `tokens[-1]` on an empty token list, where the
Python code would raise `IndexError`; every claim below supplies a
non-empty (EOF-terminated) token list, so this default is never consulted
there. -/
def default_token : Token := ⟨.EOF, .noneVal, 0, 0⟩

/-- Embeds `Parser.peek` (the parser only ever calls it with the default
offset 0): the current token, or the last token past the end. -/
def Parser.peek (p : Parser) : Token :=
  if p.tokens.length ≤ p.current then p.tokens.getLastD default_token
  else p.tokens.getD p.current default_token

/-- Embeds `Parser.advance`: consume and return the current token; past
the end, return the last token without moving. -/
def Parser.advance (p : Parser) : Token × Parser :=
  if p.current < p.tokens.length then
    (p.tokens.getD p.current default_token, { p with current := p.current + 1 })
  else (p.tokens.getLastD default_token, p)

/-- Embeds `Parser.at_end`. -/
def Parser.at_end (p : Parser) : Bool :=
  p.peek.type = .EOF

/-- Embeds `Parser.consume`: take the expected token or raise a
`ParserError` positioned at the current token. -/
def Parser.consume (p : Parser) (tt : TokenType) (msg : String) : PRes Token :=
  if p.peek.type = tt then
    let (tk, p1) := p.advance
    .ok tk p1
  else .err ⟨msg, p.peek.line, p.peek.column⟩ p

/-- Embeds `Parser.skip_newlines` (fuel-counted loop). -/
def skip_newlines : Nat → Parser → PRes Unit
  | 0, _ => .out
  | fuel+1, p =>
    if p.peek.type = .NEWLINE then skip_newlines fuel (p.advance).2
    else .ok () p

/-- The `while` loop of `Parser.synchronize`: stop once past a semicolon,
at a statement-start keyword, or at end of input. -/
def synchronize_loop : Nat → Parser → PRes Unit
  | 0, _ => .out
  | fuel+1, p =>
    if p.at_end then .ok () p
    else if (p.tokens.getD (p.current - 1) default_token).type = .SEMICOLON then .ok () p
    else if p.peek.type ∈ [TokenType.FUNCTION, .IF, .WHILE, .RETURN] then .ok () p
    else synchronize_loop fuel (p.advance).2

/-- Embeds `Parser.synchronize`: skip one token, then scan forward. -/
def synchronize (fuel : Nat) (p : Parser) : PRes Unit :=
  synchronize_loop fuel (p.advance).2

/-- The six levels `parse_logical_or` .. `parse_multiplication`, each an
instantiation of `parse_binary_left` in the source. -/
inductive BinLevel where
  | logical_or | logical_and | equality | comparison | addition | multiplication
deriving DecidableEq

/-- The operator set each level swallows (order as in the source). -/
def BinLevel.ops : BinLevel → List TokenType
  | .logical_or => [.OR]
  | .logical_and => [.AND]
  | .equality => [.EQUAL, .NOT_EQUAL]
  | .comparison => [.GREATER_THAN, .GREATER_EQUAL, .LESS_THAN, .LESS_EQUAL]
  | .addition => [.PLUS, .MINUS]
  | .multiplication => [.MULTIPLY, .DIVIDE, .MODULO]

/-- The next-higher precedence level; `none` means `parse_unary`. -/
def BinLevel.next? : BinLevel → Option BinLevel
  | .logical_or => some .logical_and
  | .logical_and => some .equality
  | .equality => some .comparison
  | .comparison => some .addition
  | .addition => some .multiplication
  | .multiplication => none

mutual

/-- The statement loop of `Parser.parse`: gather statements (skipping
recovered-away `None`s and blank newlines) until end of input. -/
def parse_program_loop : Nat → Parser → PRes (List Stmt)
  | 0, _ => .out
  | fuel+1, p =>
    if p.at_end then .ok [] p
    else
      (parse_statement fuel p).bind fun stmtOpt p1 =>
      (skip_newlines fuel p1).bind fun _ p2 =>
      (parse_program_loop fuel p2).bind fun rest p3 =>
      .ok (match stmtOpt with | some s => s :: rest | none => rest) p3

/-- Embeds `Parser.parse_statement`: dispatch on the current token kind;
a `ParserError` raised anywhere inside is caught here, `synchronize` runs
from the raise-site state, and the statement is discarded (`none`). -/
def parse_statement : Nat → Parser → PRes (Option Stmt)
  | 0, _ => .out
  | fuel+1, p =>
    match
      (if p.peek.type = .FUNCTION then parse_function_declaration fuel p
       else if p.peek.type = .IF then parse_if_statement fuel p
       else if p.peek.type = .WHILE then parse_while_statement fuel p
       else if p.peek.type = .RETURN then parse_return_statement fuel p
       else if p.peek.type = .LEFT_BRACE then parse_block_statement fuel p
       else parse_expression_statement fuel p) with
    | .ok s p1 => .ok (some s) p1
    | .err _e q => (synchronize fuel q).bind fun _ q1 => .ok none q1
    | .out => .out

/-- Embeds `Parser.parse_function_declaration`. -/
def parse_function_declaration : Nat → Parser → PRes Stmt
  | 0, _ => .out
  | fuel+1, p =>
    (p.consume .FUNCTION "期望 'func'").bind fun funcTok p1 =>
    (p1.consume .IDENTIFIER "期望函数名").bind fun nameTok p2 =>
    (p2.consume .LEFT_PAREN "期望 '('").bind fun _ p3 =>
    (if p3.peek.type = .RIGHT_PAREN then .ok [] p3
     else
       (p3.consume .IDENTIFIER "期望参数名").bind fun firstTok p4 =>
       parse_params_loop fuel [value_text firstTok.value] p4).bind fun params p5 =>
    (p5.consume .RIGHT_PAREN "期望 ')'").bind fun _ p6 =>
    (parse_block_statement fuel p6).bind fun body p7 =>
    .ok (.funcDecl (value_text nameTok.value) params body funcTok.line funcTok.column) p7

/-- The parameter-list loop of `parse_function_declaration`. -/
def parse_params_loop : Nat → List String → Parser → PRes (List String)
  | 0, _, _ => .out
  | fuel+1, acc, p =>
    if p.peek.type = .COMMA then
      ((p.advance).2.consume .IDENTIFIER "期望参数名").bind fun tk p2 =>
      parse_params_loop fuel (acc ++ [value_text tk.value]) p2
    else .ok acc p

/-- Embeds `Parser.parse_if_statement` (a recovered-to-`None` branch
raises `期望语句`, as in the source). -/
def parse_if_statement : Nat → Parser → PRes Stmt
  | 0, _ => .out
  | fuel+1, p =>
    (p.consume .IF "期望 'if'").bind fun ifTok p1 =>
    (p1.consume .LEFT_PAREN "期望 '('").bind fun _ p2 =>
    (parse_expression fuel p2).bind fun cond p3 =>
    (p3.consume .RIGHT_PAREN "期望 ')'").bind fun _ p4 =>
    (parse_statement fuel p4).bind fun thenOpt p5 =>
    match thenOpt with
    | none => .err ⟨"期望语句", p5.peek.line, p5.peek.column⟩ p5
    | some thenB =>
      if p5.peek.type = .ELSE then
        (parse_statement fuel (p5.advance).2).bind fun elseOpt p7 =>
        .ok (.ifStmt cond thenB elseOpt ifTok.line ifTok.column) p7
      else .ok (.ifStmt cond thenB none ifTok.line ifTok.column) p5

/-- Embeds `Parser.parse_while_statement`. -/
def parse_while_statement : Nat → Parser → PRes Stmt
  | 0, _ => .out
  | fuel+1, p =>
    (p.consume .WHILE "期望 'while'").bind fun whileTok p1 =>
    (p1.consume .LEFT_PAREN "期望 '('").bind fun _ p2 =>
    (parse_expression fuel p2).bind fun cond p3 =>
    (p3.consume .RIGHT_PAREN "期望 ')'").bind fun _ p4 =>
    (parse_statement fuel p4).bind fun bodyOpt p5 =>
    match bodyOpt with
    | none => .err ⟨"期望语句", p5.peek.line, p5.peek.column⟩ p5
    | some body => .ok (.whileStmt cond body whileTok.line whileTok.column) p5

/-- Embeds `Parser.parse_return_statement`. -/
def parse_return_statement : Nat → Parser → PRes Stmt
  | 0, _ => .out
  | fuel+1, p =>
    (p.consume .RETURN "期望 'return'").bind fun retTok p1 =>
    (if p1.peek.type ∈ [TokenType.SEMICOLON, .NEWLINE, .EOF] then .ok none p1
     else (parse_expression fuel p1).bind fun e p2 => .ok (some e) p2).bind fun val p3 =>
    (p3.consume .SEMICOLON "期望 ';'").bind fun _ p4 =>
    .ok (.returnStmt val retTok.line retTok.column) p4

/-- Embeds `Parser.parse_block_statement`. -/
def parse_block_statement : Nat → Parser → PRes Stmt
  | 0, _ => .out
  | fuel+1, p =>
    (p.consume .LEFT_BRACE "期望 '\x7b'").bind fun lb p1 =>
    (skip_newlines fuel p1).bind fun _ p2 =>
    (parse_block_loop fuel p2).bind fun stmts p3 =>
    (p3.consume .RIGHT_BRACE "期望 '\x7d'").bind fun _ p4 =>
    .ok (.block stmts lb.line lb.column) p4

/-- The statement loop of `parse_block_statement`. -/
def parse_block_loop : Nat → Parser → PRes (List Stmt)
  | 0, _ => .out
  | fuel+1, p =>
    if p.peek.type = .RIGHT_BRACE ∨ p.at_end then .ok [] p
    else
      (parse_statement fuel p).bind fun stmtOpt p1 =>
      (skip_newlines fuel p1).bind fun _ p2 =>
      (parse_block_loop fuel p2).bind fun rest p3 =>
      .ok (match stmtOpt with | some s => s :: rest | none => rest) p3

/-- Embeds `Parser.parse_expression_statement`. -/
def parse_expression_statement : Nat → Parser → PRes Stmt
  | 0, _ => .out
  | fuel+1, p =>
    (parse_expression fuel p).bind fun e p1 =>
    (p1.consume .SEMICOLON "期望 ';'").bind fun _ p2 =>
    .ok (.exprStmt e) p2

/-- Embeds `Parser.parse_expression` (delegates to assignment). -/
def parse_expression : Nat → Parser → PRes Expr
  | 0, _ => .out
  | fuel+1, p => parse_assignment fuel p

/-- Embeds `Parser.parse_assignment`: parse one level below, then resolve
`=` right-associatively by recursing into itself. -/
def parse_assignment : Nat → Parser → PRes Expr
  | 0, _ => .out
  | fuel+1, p =>
    (parse_bin fuel .logical_or p).bind fun e p1 =>
    if p1.peek.type = .ASSIGN then
      (parse_assignment fuel (p1.advance).2).bind fun v p3 =>
      .ok (.assign e v (p1.advance).1.line (p1.advance).1.column) p3
    else .ok e p1

/-- Embeds `Parser.parse_binary_left` at level `lvl` (the entry part:
parse one level higher, then loop). -/
def parse_bin : Nat → BinLevel → Parser → PRes Expr
  | 0, _, _ => .out
  | fuel+1, lvl, p =>
    (match lvl.next? with
     | some nxt => parse_bin fuel nxt p
     | none => parse_unary fuel p).bind fun e p1 =>
    parse_bin_loop fuel lvl e p1

/-- The left-associative operator loop of `parse_binary_left`. -/
def parse_bin_loop : Nat → BinLevel → Expr → Parser → PRes Expr
  | 0, _, _, _ => .out
  | fuel+1, lvl, e, p =>
    if p.peek.type ∈ lvl.ops then
      (match lvl.next? with
       | some nxt => parse_bin fuel nxt (p.advance).2
       | none => parse_unary fuel (p.advance).2).bind fun r p2 =>
      parse_bin_loop fuel lvl (.binary e (p.advance).1 r) p2
    else .ok e p

/-- Embeds `Parser.parse_unary`. -/
def parse_unary : Nat → Parser → PRes Expr
  | 0, _ => .out
  | fuel+1, p =>
    if p.peek.type ∈ [TokenType.NOT, .MINUS] then
      (parse_unary fuel (p.advance).2).bind fun r p2 =>
      .ok (.unary (p.advance).1 r) p2
    else parse_call fuel p

/-- Embeds `Parser.parse_call` (the entry part: primary, then the call
suffix loop). -/
def parse_call : Nat → Parser → PRes Expr
  | 0, _ => .out
  | fuel+1, p =>
    (parse_primary fuel p).bind fun e p1 =>
    parse_call_loop fuel e p1

/-- The `while True` call-suffix loop of `parse_call`. -/
def parse_call_loop : Nat → Expr → Parser → PRes Expr
  | 0, _, _ => .out
  | fuel+1, e, p =>
    if p.peek.type = .LEFT_PAREN then
      (finish_call fuel e p).bind fun e1 p1 =>
      parse_call_loop fuel e1 p1
    else .ok e p

/-- Embeds `Parser.finish_call`. -/
def finish_call : Nat → Expr → Parser → PRes Expr
  | 0, _, _ => .out
  | fuel+1, callee, p =>
    (p.consume .LEFT_PAREN "期望 '('").bind fun paren p1 =>
    (if p1.peek.type = .RIGHT_PAREN then .ok [] p1
     else
       (parse_expression fuel p1).bind fun a p2 =>
       parse_args_loop fuel [a] p2).bind fun args p3 =>
    (p3.consume .RIGHT_PAREN "期望 ')'").bind fun _ p4 =>
    .ok (.call callee args paren.line paren.column) p4

/-- The argument-list loop of `finish_call`. -/
def parse_args_loop : Nat → List Expr → Parser → PRes (List Expr)
  | 0, _, _ => .out
  | fuel+1, acc, p =>
    if p.peek.type = .COMMA then
      (parse_expression fuel (p.advance).2).bind fun a p2 =>
      parse_args_loop fuel (acc ++ [a]) p2
    else .ok acc p

/-- Embeds `Parser.parse_primary`: literals (`true`/`false`/`null` kinds
never actually occur in lexer output, which folds them into BOOLEAN
tokens), identifiers, parenthesized expressions, otherwise the raised
`期望表达式` error. -/
def parse_primary : Nat → Parser → PRes Expr
  | 0, _ => .out
  | fuel+1, p =>
    if p.peek.type ∈ [TokenType.TRUE, .FALSE, .NULL] then
      .ok (.literal (p.advance).1.value (p.advance).1.type
        (p.advance).1.line (p.advance).1.column) (p.advance).2
    else if p.peek.type ∈ [TokenType.INTEGER, .FLOAT, .STRING, .BOOLEAN] then
      .ok (.literal (p.advance).1.value (p.advance).1.type
        (p.advance).1.line (p.advance).1.column) (p.advance).2
    else if p.peek.type = .IDENTIFIER then
      .ok (.ident (value_text (p.advance).1.value)
        (p.advance).1.line (p.advance).1.column) (p.advance).2
    else if p.peek.type = .LEFT_PAREN then
      (parse_expression fuel (p.advance).2).bind fun e p2 =>
      (p2.consume .RIGHT_PAREN "期望 ')'").bind fun _ p3 =>
      .ok e p3
    else .err ⟨"期望表达式", p.peek.line, p.peek.column⟩ p

end

/-- The `try` body of `Parser.parse_statement` (the dispatch on the
current token kind), named for the proofs below;
`parse_statement (fuel+1) p` runs exactly this and catches its raise. -/
def parse_statement_dispatch (fuel : Nat) (p : Parser) : PRes Stmt :=
  if p.peek.type = .FUNCTION then parse_function_declaration fuel p
  else if p.peek.type = .IF then parse_if_statement fuel p
  else if p.peek.type = .WHILE then parse_while_statement fuel p
  else if p.peek.type = .RETURN then parse_return_statement fuel p
  else if p.peek.type = .LEFT_BRACE then parse_block_statement fuel p
  else parse_expression_statement fuel p

/-- Embeds `Parser.parse`: skip leading newlines, run the statement loop,
wrap in a `Program`. -/
def parse (fuel : Nat) (p : Parser) : PRes Program :=
  (skip_newlines fuel p).bind fun _ p1 =>
  (parse_program_loop fuel p1).bind fun stmts p2 =>
  .ok ⟨stmts⟩ p2

/-- Fuel that always suffices for `parse` on an EOF-terminated token list
(proved below): a generous linear bound in the token count. -/
def parse_fuel (tokens : List Token) : Nat :=
  40 * (tokens.length + 1) + 40

/-- Embeds `parse_source` (src/parser/parser.py): tokenize, then parse
from index 0 with sufficient fuel. -/
def parse_source (s : String) : LexRes (PRes Program) :=
  match tokenize s with
  | .ok toks => .ok (parse (parse_fuel toks) ⟨toks, 0⟩)
  | .err e => .err e
  | .out => .out

/-- Embeds `变量符号.mark_initialized` / `函数符号.mark_defined` as used by
the analyzer on function symbols. -/
def Symbol.mark_defined : Symbol → Symbol
  | .funcSym n t ps l c _ => .funcSym n t ps l c true
  | s => s

/-- `isinstance(symbol, (变量符号, 参数符号))`. -/
def Symbol.is_var_or_param : Symbol → Bool
  | .varSym _ _ _ _ _ => true
  | .paramSym _ _ _ _ _ => true
  | .funcSym _ _ _ _ _ _ => false

/-- The analyzer's diagnostic messages.  The source formats each as a
Chinese string; the embedding keeps them as a structured kind (with the
same payloads) so theorems can name a diagnostic without reproducing exact
formatting, which the spec explicitly excludes from the contract. -/
inductive SemMsg where
  | function_already_defined (name : String)
  | duplicate_parameter (name : String)
  | return_type_mismatch (expected actual : Ty)
  | variable_already_defined (name : String)
  | not_a_variable (name : String)
  | incompatible_assignment (value target : Ty)
  | unsupported_assign_target
  | invalid_binary_operation (l : Ty) (op : TokenValue) (r : Ty)
  | invalid_unary_operation (op : TokenValue) (t : Ty)
  | parameter_count_mismatch (expected actual : Nat)
  | not_a_function (t : Ty)
  | undefined_identifier (name : String)
  | used_before_initialization (name : String)
  | if_condition_not_bool (t : Ty)
  | while_condition_not_bool (t : Ty)
deriving DecidableEq

/-- Embeds `语义错误` (message plus position). -/
structure SemanticError where
  msg : SemMsg
  line : Nat
  column : Nat
deriving DecidableEq

/-- Embeds `分析结果`: a type and an is-assignable-target flag. -/
structure AnalysisResult where
  ty : Ty
  assignable : Bool := false

/-- Embeds the `语义分析器` mutable state: the scope manager, the
accumulated error list, and the current function's inferred return type.
(The `在赋值左侧` flag is set in `__init__` and never read, so it is
omitted.) -/
structure Analyzer where
  scope_manager : ScopeManager
  errors : List SemanticError
  current_return_type : Option Ty

/-- Embeds `create_builtin_symbols` (src/semantic/symbols.py):
`print(string)->void`, `len(string)->int`, `str(int)->string`, all with
default positions 0:0 and `是否已定义 = True`. -/
def create_builtin_symbols : List Symbol :=
  [ .funcSym "print" (.func [.prim .string] (.prim .void)) ["message"] 0 0 true,
    .funcSym "len" (.func [.prim .string] (.prim .int)) ["s"] 0 0 true,
    .funcSym "str" (.func [.prim .int] (.prim .string)) ["value"] 0 0 true ]

/-- Embeds `语义分析器.__init__`: enter the global scope and define the
builtin symbols. -/
def Analyzer.init : Analyzer :=
  let m0 := ScopeManager.enter_scope ⟨[]⟩ "全局作用域"
  let m1 := create_builtin_symbols.foldl (fun m s => (m.define_symbol s).2) m0
  ⟨m1, [], none⟩

/-- Embeds `语义分析器.error`: append one diagnostic. -/
def Analyzer.add_error (a : Analyzer) (m : SemMsg) (line column : Nat) : Analyzer :=
  { a with errors := a.errors ++ [⟨m, line, column⟩] }

/-- The parameter-definition loop of `visit_函数声明语句`: define each
parameter as a `参数符号` with Unknown type and its position index,
reporting duplicates. -/
def define_params (line column : Nat) : List String → Nat → Analyzer → Analyzer
  | [], _, a => a
  | pn :: rest, i, a =>
      let psym := Symbol.paramSym pn (.prim .unknown) i line column
      let (ok, m1) := a.scope_manager.define_symbol psym
      let a1 := { a with scope_manager := m1 }
      let a2 := if ok then a1 else a1.add_error (.duplicate_parameter pn) line column
      define_params line column rest (i+1) a2

/-- The boolean-condition check shared by `visit_如果语句` and
`visit_当语句`: a primitive condition type other than Bool or Unknown gets
one diagnostic; Unknown and function types pass silently. -/
def Analyzer.check_bool_condition (a : Analyzer) (t : Ty) (m : SemMsg)
    (line col : Nat) : Analyzer :=
  match t with
  | .prim k => if k ≠ .bool ∧ k ≠ .unknown then a.add_error m line col else a
  | _ => a

mutual

/-- Embeds the expression cases of the `语义分析器` visitor
(visit_二元运算表达式, visit_一元运算表达式, visit_字面量表达式,
visit_标识符表达式, visit_函数调用表达式, visit_赋值表达式).  Python
mutation of symbol objects found by lookup is modeled with
`ScopeManager.update_symbol` on the innermost binding of the name. -/
def visitExpr : Expr → Analyzer → AnalysisResult × Analyzer
  | .literal v tt _l _c, a => (⟨infer_literal_type tt v, false⟩, a)
  | .ident name line col, a =>
      match a.scope_manager.lookup_symbol name with
      | none => (⟨.prim .unknown, true⟩, a.add_error (.undefined_identifier name) line col)
      | some sym =>
        let a1 :=
          match sym with
          | .varSym _ _ _ _ false => a.add_error (.used_before_initialization name) line col
          | _ => a
        (⟨sym.ty, sym.is_var_or_param⟩, a1)
  | .binary l op r, a =>
      let (lr, a1) := visitExpr l a
      let (rr, a2) := visitExpr r a1
      (match check_binary_operation lr.ty op.type rr.ty with
       | some t => (⟨t, false⟩, a2)
       | none =>
           (⟨.prim .unknown, false⟩,
            a2.add_error (.invalid_binary_operation lr.ty op.value rr.ty) op.line op.column))
  | .unary op operand, a =>
      let (orr, a1) := visitExpr operand a
      (match check_unary_operation op.type orr.ty with
       | some t => (⟨t, false⟩, a1)
       | none =>
           (⟨.prim .unknown, false⟩,
            a1.add_error (.invalid_unary_operation op.value orr.ty) op.line op.column))
  | .call f args line col, a =>
      let (fr, a1) := visitExpr f a
      let (ars, a2) := visitArgs args a1
      (match fr.ty with
       | .func ps ret =>
           if ars.length ≠ ps.length then
             (⟨.prim .unknown, false⟩,
              a2.add_error (.parameter_count_mismatch ps.length ars.length) line col)
           else (⟨ret, false⟩, a2)
       | t => (⟨.prim .unknown, false⟩, a2.add_error (.not_a_function t) line col))
  | .assign target value line col, a =>
      let (vr, a1) := visitExpr value a
      (match target with
       | .ident name _ _ =>
         (match a1.scope_manager.lookup_symbol name with
          | none =>
              let sym := Symbol.varSym name vr.ty line col true
              (⟨vr.ty, false⟩,
               { a1 with scope_manager := (a1.scope_manager.define_symbol sym).2 })
          | some existing =>
            (match existing with
             | .funcSym _ _ _ _ _ _ =>
                 (⟨.prim .unknown, false⟩, a1.add_error (.not_a_variable name) line col)
             | _ =>
                 let a2 :=
                   if existing.ty ≠ .prim .unknown ∧ ¬ check_assignment existing.ty vr.ty then
                     a1.add_error (.incompatible_assignment vr.ty existing.ty) line col
                   else a1
                 let newTy := if existing.ty = .prim .unknown then vr.ty else existing.ty
                 let upd := fun s =>
                   Symbol.mark_initialized
                     (if existing.ty = .prim .unknown then s.setTy vr.ty else s)
                 let a3 :=
                   { a2 with scope_manager := a2.scope_manager.update_symbol name upd }
                 (⟨newTy, false⟩, a3)))
       | _ => (⟨.prim .unknown, false⟩, a1.add_error .unsupported_assign_target line col))

/-- The argument loop of `visit_函数调用表达式`. -/
def visitArgs : List Expr → Analyzer → List AnalysisResult × Analyzer
  | [], a => ([], a)
  | e :: es, a =>
      let (r, a1) := visitExpr e a
      let (rs, a2) := visitArgs es a1
      (r :: rs, a2)

/-- Embeds the statement cases of the `语义分析器` visitor. -/
def visitStmt : Stmt → Analyzer → AnalysisResult × Analyzer
  | .exprStmt e, a => visitExpr e a
  | .varDecl name initializer line col, a =>
      (match a.scope_manager.lookup_symbol_current_scope name with
       | some _ =>
           (⟨.prim .unknown, false⟩, a.add_error (.variable_already_defined name) line col)
       | none =>
         let step : Ty × Bool × Analyzer :=
           match initializer with
           | some e =>
               let (r, a1) := visitExpr e a
               (r.ty, true, a1)
           | none => (.prim .unknown, false, a)
         let sym := Symbol.varSym name step.1 line col step.2.1
         (⟨step.1, false⟩,
          { step.2.2 with scope_manager := (step.2.2.scope_manager.define_symbol sym).2 }))
  | .funcDecl name params body line col, a =>
      (match a.scope_manager.lookup_symbol_current_scope name with
       | some _ =>
           (⟨.prim .unknown, false⟩, a.add_error (.function_already_defined name) line col)
       | none =>
         let ptys := params.map (fun _ => Ty.prim .unknown)
         let fsym := Symbol.funcSym name (.func ptys (.prim .unknown)) params line col false
         let a1 := { a with scope_manager := (a.scope_manager.define_symbol fsym).2 }
         let a2 := { a1 with scope_manager := a1.scope_manager.enter_scope ("函数_" ++ name) }
         let a3 := define_params line col params 0 a2
         let saved := a3.current_return_type
         let a4 := { a3 with current_return_type := none }
         let (_, a5) := visitStmt body a4
         let retTy :=
           match a5.current_return_type with
           | some t => t
           | none => Ty.prim .void
         let a6 := { a5 with current_return_type := saved }
         let a7 := { a6 with scope_manager := (a6.scope_manager.exit_scope).2 }
         -- the source mutates the function-type object held by the symbol
         -- (finalizing the return type) and then marks the symbol defined;
         -- after the pop, that symbol's innermost binding is the one the
         -- mutations hit
         let finalize := fun s => Symbol.mark_defined (Symbol.setTy (.func ptys retTy) s)
         let a8 :=
           { a7 with scope_manager := a7.scope_manager.update_symbol name finalize }
         (⟨.func ptys retTy, false⟩, a8))
  | .returnStmt value line col, a =>
      let step : Ty × Analyzer :=
        match value with
        | some e =>
            let (r, a1) := visitExpr e a
            (r.ty, a1)
        | none => (.prim .void, a)
      let retTy := step.1
      let a1 := step.2
      (match a1.current_return_type with
       | none => (⟨retTy, false⟩, { a1 with current_return_type := some retTy })
       | some cur =>
           if ¬ cur.is_compatible_with retTy ∧ retTy ≠ .prim .unknown ∧
              cur ≠ .prim .unknown then
             (⟨retTy, false⟩, a1.add_error (.return_type_mismatch cur retTy) line col)
           else (⟨retTy, false⟩, a1))
  | .ifStmt cond thenBranch elseBranch line col, a =>
      let (cr, a1) := visitExpr cond a
      let a2 := a1.check_bool_condition cr.ty (.if_condition_not_bool cr.ty) line col
      let (_, a3) := visitStmt thenBranch a2
      (match elseBranch with
       | some e =>
           let (_, a4) := visitStmt e a3
           (⟨.prim .void, false⟩, a4)
       | none => (⟨.prim .void, false⟩, a3))
  | .whileStmt cond body line col, a =>
      let (cr, a1) := visitExpr cond a
      let a2 := a1.check_bool_condition cr.ty (.while_condition_not_bool cr.ty) line col
      let (_, a3) := visitStmt body a2
      (⟨.prim .void, false⟩, a3)
  | .block stmts _l _c, a =>
      let a1 := { a with scope_manager := a.scope_manager.enter_scope "代码块" }
      let a2 := visitStmts stmts a1
      (⟨.prim .void, false⟩, { a2 with scope_manager := (a2.scope_manager.exit_scope).2 })

/-- The statement loop of `visit_程序` / `visit_代码块语句`. -/
def visitStmts : List Stmt → Analyzer → Analyzer
  | [], a => a
  | s :: ss, a =>
      let (_, a1) := visitStmt s a
      visitStmts ss a1

end

/-- Embeds `visit_程序`. -/
def visitProgram (prog : Program) (a : Analyzer) : AnalysisResult × Analyzer :=
  (⟨.prim .void, false⟩, visitStmts prog.stmts a)

/-- Embeds `语义分析器.analyze`: clear the error list, visit the program,
return the accumulated errors (with the final analyzer state). -/
def analyze (prog : Program) (a : Analyzer) : List SemanticError × Analyzer :=
  let a0 := { a with errors := [] }
  let (_, a1) := visitProgram prog a0
  (a1.errors, a1)

/-- The parser state a `PRes` outcome carries (`none` for fuel
exhaustion). -/
def PRes.state? {α : Type} : PRes α → Option Parser
  | .ok _ q => some q
  | .err _ q => some q
  | .out => none

/-- A parsing outcome whose carried state has the same token list and a
cursor no further left than `p`'s — what every parser method guarantees,
whether it returns or raises. -/
def Mono {α : Type} (r : PRes α) (p : Parser) : Prop :=
  ∀ q, r.state? = some q → q.tokens = p.tokens ∧ p.current ≤ q.current

/-- The outcome is a return or a raise — not fuel exhaustion. -/
def Done {α : Type} (r : PRes α) : Prop :=
  (∃ a q, r = .ok a q) ∨ (∃ e q, r = .err e q)

/-- Every successful outcome advanced the cursor strictly. -/
def StrictOk {α : Type} (r : PRes α) (p : Parser) : Prop :=
  ∀ a q, r = .ok a q → p.current < q.current

/-- An EOF-terminated token list (every list `tokenize` returns is one). -/
def EOFtoks (toks : List Token) : Prop :=
  toks ≠ [] ∧ (toks.getLastD default_token).type = .EOF

/-- Where `synchronize` may stop: past a semicolon, at a statement-start
keyword, or at end of input. -/
def sync_stop (r : Parser) : Prop :=
  r.at_end = true ∨
  (r.tokens.getD (r.current - 1) default_token).type = .SEMICOLON ∨
  (r.peek).type ∈ [TokenType.FUNCTION, .IF, .WHILE, .RETURN]

/-- Distance of a precedence level from `parse_multiplication`, used in
the fuel bounds below. -/
def BinLevel.rank : BinLevel → Nat
  | .multiplication => 0
  | .addition => 1
  | .comparison => 2
  | .equality => 3
  | .logical_and => 4
  | .logical_or => 5

/-- A concrete EOF-terminated token stream (for `1 + ; x ;`) whose first
statement is malformed, exercising the recovery path. -/
def C4_sample_tokens : List Token :=
  [⟨.INTEGER, .intVal 1, 1, 1⟩, ⟨.PLUS, .noneVal, 1, 3⟩,
   ⟨.SEMICOLON, .noneVal, 1, 5⟩, ⟨.IDENTIFIER, .strVal "x", 1, 7⟩,
   ⟨.SEMICOLON, .noneVal, 1, 8⟩, ⟨.EOF, .noneVal, 1, 9⟩]

mutual

/-- See `closedFrom` (spec-side predicate for C6): the escape case, where
the backslash has consumed the following character. -/
def closedFromEsc : List Char → Char → Bool
  | [], _ => false
  | _ :: r, q => closedFrom r q

/-- Spec-side predicate for C6, following the spec's words: scanning the
characters after an opening quote, is the string literal closed by a
matching (unescaped) quote before end of input?  A backslash consumes the
following character, exactly as `read_string` treats escapes. -/
def closedFrom : List Char → Char → Bool
  | [], _ => false
  | c :: rest, q =>
      if c = q then true
      else if c = '\\' then closedFromEsc rest q
      else closedFrom rest q

end

/-! ## Theorems -/

/-- Key of a lookup miss: `List.lookup` is `none` iff no pair carries the
key. -/
theorem lookup_eq_none_iff {β : Type} (l : List (String × β)) (k : String) :
    l.lookup k = none ↔ ∀ p ∈ l, p.1 ≠ k := by
  induction l with
  | nil => simp [List.lookup]
  | cons hd tl ih =>
      obtain ⟨a, b⟩ := hd
      by_cases h : k = a
      · subst h
        simp only [List.lookup, beq_self_eq_true]
        constructor
        · intro hl
          exact absurd hl (by simp)
        · intro hall
          exact absurd rfl (hall (k, b) (List.mem_cons_self _ _))
      · have hba : (k == a) = false := by
          simp [h]
        simp only [List.lookup, hba, List.mem_cons]
        constructor
        · intro hl p hp
          cases hp with
          | inl hp => subst hp; exact fun hh => h hh.symm
          | inr hp => exact (ih.mp hl) p hp
        · intro hall
          exact ih.mpr (fun p hp => hall p (Or.inr hp))

/-- C1 counterexample: the lexer tokenizes the keyword `null` as a
BOOLEAN-kind token whose value is the none-marker, and `infer_literal_type`
maps that token to Bool, not Void (the BOOLEAN branch of the `elif` chain
fires before the none-marker branch). -/
theorem C1_null_literal_counterexample :
    ((Lexer.init "null").read_identifier).map Prod.fst =
      some ⟨TokenType.BOOLEAN, TokenValue.noneVal, 1, 1⟩ ∧
    infer_literal_type TokenType.BOOLEAN TokenValue.noneVal = Ty.prim .bool ∧
    Ty.prim PrimKind.bool ≠ Ty.prim PrimKind.void := by
  refine ⟨by decide, by decide, by decide⟩

/-- C1 amended: Integer/Float/String/Boolean tokens map to
Int/Float/String/Bool irrespective of their value — so the `null` token
(BOOLEAN kind, none-marker value) maps to Bool — and only a token of some
other kind with the none-marker value maps to Void; other kinds with a
non-none value map to Unknown. -/
theorem C1_literal_inference_amended :
    (∀ v, infer_literal_type .INTEGER v = Ty.prim .int) ∧
    (∀ v, infer_literal_type .FLOAT v = Ty.prim .float) ∧
    (∀ v, infer_literal_type .STRING v = Ty.prim .string) ∧
    (∀ v, infer_literal_type .BOOLEAN v = Ty.prim .bool) ∧
    (∀ tt, tt ∉ [TokenType.INTEGER, .FLOAT, .STRING, .BOOLEAN] →
      infer_literal_type tt .noneVal = Ty.prim .void) ∧
    (∀ tt v, tt ∉ [TokenType.INTEGER, .FLOAT, .STRING, .BOOLEAN] → v ≠ .noneVal →
      infer_literal_type tt v = Ty.prim .unknown) := by
  refine ⟨fun v => rfl, fun v => rfl, fun v => rfl, fun v => rfl, by decide, ?_⟩
  intro tt v htt hv
  cases tt <;> simp_all [infer_literal_type]

/-- C1 witness: the amended theorem applied at the EOF token (none value)
and at an IDENTIFIER token with a text value. -/
theorem C1_literal_inference_witness :
    infer_literal_type .EOF .noneVal = Ty.prim .void ∧
    infer_literal_type .IDENTIFIER (.strVal "x") = Ty.prim .unknown :=
  ⟨C1_literal_inference_amended.2.2.2.2.1 .EOF (by decide),
   C1_literal_inference_amended.2.2.2.2.2 .IDENTIFIER (.strVal "x") (by decide)
     (by decide)⟩

/-- C2 counterexample: on two String operands the shared arithmetic rule
returns String for `-` as well (the rule function cannot see which of the
five arithmetic operators invoked it), instead of failing as claimed. -/
theorem C2_string_minus_counterexample :
    check_binary_operation (Ty.prim .string) .MINUS (Ty.prim .string) =
      some (Ty.prim .string) ∧
    check_binary_operation (Ty.prim .string) .MINUS (Ty.prim .string) ≠ none := by
  refine ⟨by decide, by decide⟩

/-- C2 amended: two String operands yield String under every arithmetic
operator (`+`, `-`, `*`, `/`, `%`), because all five dispatch to the one
shared arithmetic rule whose String case does not depend on the
operator. -/
theorem C2_string_arithmetic_amended (op : TokenType)
    (h : op ∈ [TokenType.PLUS, .MINUS, .MULTIPLY, .DIVIDE, .MODULO]) :
    check_binary_operation (Ty.prim .string) op (Ty.prim .string) =
      some (Ty.prim .string) := by
  fin_cases h <;> decide

/-- C2 witness: the amended theorem applied at `%`. -/
theorem C2_string_arithmetic_witness :
    check_binary_operation (Ty.prim .string) .MODULO (Ty.prim .string) =
      some (Ty.prim .string) :=
  C2_string_arithmetic_amended .MODULO (by decide)

/-- C3 counterexample: an Int target does not accept an Unknown value —
`is_assignable_from` has no Unknown special case, refuting the claim that
assignability holds whenever either side is Unknown. -/
theorem C3_unknown_not_assignable_counterexample :
    check_assignment (Ty.prim .int) (Ty.prim .unknown) = false := by
  decide

/-- C3 amended: on primitive types `is_assignable` holds exactly for
identical kinds or a Float target with an Int value; Unknown gets no
special treatment here (an Unknown/non-Unknown pair is not assignable —
the analyzer separately skips this check when the declared type is
Unknown). -/
theorem C3_assignability_amended :
    ∀ t v : PrimKind,
      check_assignment (Ty.prim t) (Ty.prim v) = true ↔
        (t = v ∨ (t = .float ∧ v = .int)) := by
  decide

/-- C8: parsing `"1 + 2 * 3;"` yields exactly one expression statement
whose expression is `1 + (2 * 3)` — multiplication binds tighter. -/
theorem C8_multiplication_binds_tighter :
    ∃ st, parse_source "1 + 2 * 3;" =
      .ok (.ok ⟨[Stmt.exprStmt (Expr.binary
          (.literal (.intVal 1) .INTEGER 1 1)
          ⟨.PLUS, .strVal "+", 1, 3⟩
          (.binary (.literal (.intVal 2) .INTEGER 1 5)
            ⟨.MULTIPLY, .strVal "*", 1, 7⟩
            (.literal (.intVal 3) .INTEGER 1 9)))]⟩ st) :=
  ⟨⟨[⟨.INTEGER, .intVal 1, 1, 1⟩, ⟨.PLUS, .strVal "+", 1, 3⟩,
     ⟨.INTEGER, .intVal 2, 1, 5⟩, ⟨.MULTIPLY, .strVal "*", 1, 7⟩,
     ⟨.INTEGER, .intVal 3, 1, 9⟩, ⟨.SEMICOLON, .strVal ";", 1, 10⟩,
     ⟨.EOF, .noneVal, 1, 11⟩], 6⟩, by rfl⟩

/-- C9: a second `define` of the same name in one scope returns false and
leaves the scope unchanged; `define` preserves key uniqueness, so a scope
never holds two symbols of one name; and `define_symbol` succeeds whenever
the name is free in the current scope, regardless of outer scopes
(shadowing). -/
theorem C9_define_rejects_duplicates (st : SymbolTable) (s : Symbol)
    (m : ScopeManager) (top : SymbolTable) (rest : List SymbolTable)
    (hdup : (st.lookup s.name).isSome)
    (hm : m.scopes = top :: rest) (hfree : top.lookup s.name = none) :
    st.define s = (false, st) ∧
    (∀ st2 : SymbolTable, ∀ s2 : Symbol, (st2.symbols.map Prod.fst).Nodup →
      (((st2.define s2).2).symbols.map Prod.fst).Nodup) ∧
    (m.define_symbol s).1 = true ∧
    (m.define_symbol s).2.scopes = (top.define s).2 :: rest := by
  refine ⟨?_, ?_, ?_, ?_⟩
  · simp [SymbolTable.define, SymbolTable.lookup] at hdup ⊢
    simp [hdup]
  · intro st2 s2 hnd
    by_cases h : (st2.symbols.lookup s2.name).isSome
    · simp [SymbolTable.define, h, hnd]
    · simp only [SymbolTable.define, h, if_false, Bool.false_eq_true]
      simp only [List.map_append, List.map_cons, List.map_nil]
      rw [List.nodup_append]
      refine ⟨hnd, List.nodup_singleton _, ?_⟩
      intro x hx hx2
      simp at hx2
      subst hx2
      rw [Option.not_isSome_iff_eq_none] at h
      obtain ⟨p, hp, hpk⟩ := List.mem_map.mp hx
      exact (lookup_eq_none_iff _ _ |>.mp h) p hp hpk
  · have h1 : top.symbols.lookup s.name = none := hfree
    simp [ScopeManager.define_symbol, hm, SymbolTable.define, h1]
  · simp [ScopeManager.define_symbol, hm]

/-- C9 witness: a one-scope manager with `x` bound; redefinition of `x` is
rejected unchanged, and defining `x` over a fresh top scope succeeds. -/
theorem C9_define_witness :
    let xsym := Symbol.varSym "x" (.prim .int) 1 1 true
    let st : SymbolTable := ⟨"s", [("x", xsym)]⟩
    let m : ScopeManager := ⟨[⟨"inner", []⟩, st]⟩
    st.define xsym = (false, st) ∧
    (m.define_symbol xsym).1 = true ∧
    (m.define_symbol xsym).2.scopes = ((⟨"inner", []⟩ : SymbolTable).define xsym).2 :: [st] := by
  intro xsym st m
  have h := C9_define_rejects_duplicates st xsym m ⟨"inner", []⟩ [st]
    (by decide) rfl (by decide)
  exact ⟨h.1, h.2.2.1, h.2.2.2⟩

/-- The argument loop returns one result per argument. -/
theorem visitArgs_length (args : List Expr) (a : Analyzer) :
    (visitArgs args a).1.length = args.length := by
  induction args generalizing a with
  | nil => simp [visitArgs]
  | cons e es ih =>
      simp only [visitArgs]
      rcases he : visitExpr e a with ⟨r, a1⟩
      rcases hes : visitArgs es a1 with ⟨rs, a2⟩
      simp [he, hes, ih a1 ▸ congrArg List.length (congrArg Prod.fst hes)]

/-- C5: for a call whose callee analyzes to a FunctionType, the analyzer
checks only arity: on a count mismatch it appends exactly one
parameter-count diagnostic and the call's type is Unknown; on matching
counts it appends no diagnostic at all (whatever the argument types were)
and the call's type is the function's return type. -/
theorem C5_call_checks_arity_only (f : Expr) (args : List Expr)
    (line col : Nat) (a a1 a2 : Analyzer) (r1 : AnalysisResult)
    (ars : List AnalysisResult) (ps : List Ty) (ret : Ty)
    (hf : visitExpr f a = (r1, a1))
    (hty : r1.ty = .func ps ret)
    (hargs : visitArgs args a1 = (ars, a2)) :
    visitExpr (.call f args line col) a =
      (if args.length = ps.length then (⟨ret, false⟩, a2)
       else (⟨.prim .unknown, false⟩,
         { a2 with errors := a2.errors ++
             [⟨.parameter_count_mismatch ps.length args.length, line, col⟩] })) := by
  have hlen : ars.length = args.length := by
    have := visitArgs_length args a1
    rw [hargs] at this
    exact this
  simp only [visitExpr, hf, hargs, hty, hlen, Analyzer.add_error]
  by_cases h : args.length = ps.length
  · simp [h]
  · simp [h]

/-- C5 witness: calling the builtin one-parameter `len` with zero
arguments from the freshly initialized analyzer yields exactly the
parameter-count diagnostic and Unknown. -/
theorem C5_call_checks_arity_witness :
    visitExpr (.call (.ident "len" 1 1) [] 1 1) Analyzer.init =
      (⟨.prim .unknown, false⟩,
       { Analyzer.init with errors := Analyzer.init.errors ++
           [⟨.parameter_count_mismatch 1 0, 1, 1⟩] }) := by
  have h := C5_call_checks_arity_only (.ident "len" 1 1) [] 1 1
    Analyzer.init Analyzer.init Analyzer.init
    ⟨.func [.prim .string] (.prim .int), false⟩ [] [.prim .string] (.prim .int)
    (by rfl) rfl (by rfl)
  simpa using h

/-- `define_symbol` never changes the number of scopes. -/
theorem define_symbol_depth (m : ScopeManager) (s : Symbol) :
    ((m.define_symbol s).2).scopes.length = m.scopes.length := by
  cases hm : m.scopes with
  | nil => simp [ScopeManager.define_symbol, hm]
  | cons top rest => simp [ScopeManager.define_symbol, hm]

/-- `update_scopes` never changes the number of scopes. -/
theorem update_scopes_length (n : String) (f : Symbol → Symbol) :
    ∀ l : List SymbolTable, (ScopeManager.update_scopes n f l).length = l.length := by
  intro l
  induction l with
  | nil => simp [ScopeManager.update_scopes]
  | cons st rest ih =>
      simp only [ScopeManager.update_scopes]
      by_cases h : (st.lookup n).isSome
      · simp [h]
      · simp [h, ih]

/-- `update_symbol` never changes the number of scopes. -/
theorem update_symbol_depth (m : ScopeManager) (n : String) (f : Symbol → Symbol) :
    (m.update_symbol n f).scopes.length = m.scopes.length :=
  update_scopes_length n f m.scopes

/-- `exit_scope` removes exactly one scope (and is a no-op on an empty
stack). -/
theorem exit_scope_depth (m : ScopeManager) :
    ((m.exit_scope).2).scopes.length = m.scopes.length - 1 := by
  cases hm : m.scopes with
  | nil => simp [ScopeManager.exit_scope, hm]
  | cons top rest => simp [ScopeManager.exit_scope, hm]

/-- `add_error` does not touch the scope stack. -/
theorem add_error_scope_manager (a : Analyzer) (m : SemMsg) (line col : Nat) :
    (a.add_error m line col).scope_manager = a.scope_manager := rfl

/-- The parameter-definition loop never changes the number of scopes. -/
theorem define_params_depth (line col : Nat) :
    ∀ (ps : List String) (i : Nat) (a : Analyzer),
      (define_params line col ps i a).scope_manager.scopes.length =
        a.scope_manager.scopes.length := by
  intro ps
  induction ps with
  | nil => intro i a; simp [define_params]
  | cons pn rest ih =>
      intro i a
      simp only [define_params]
      by_cases h : (a.scope_manager.define_symbol
          (Symbol.paramSym pn (.prim .unknown) i line col)).1
      · simp only [h, if_true]
        rw [ih]
        exact define_symbol_depth _ _
      · simp only [h]
        rw [ih]
        simp [add_error_scope_manager]
        exact define_symbol_depth _ _

/-- The conditional-diagnostic-then-update step of `visit_赋值表达式`
keeps the scope depth. -/
theorem assign_update_depth (a1 : Analyzer) (cond : Prop) [Decidable cond]
    (m : SemMsg) (l c : Nat) (name : String) (f : Symbol → Symbol) :
    (((if cond then a1.add_error m l c else a1).scope_manager.update_symbol
        name f).scopes).length = a1.scope_manager.scopes.length := by
  split <;> simp [add_error_scope_manager, update_symbol_depth]

/-- The condition check does not touch the scope stack. -/
theorem check_bool_condition_scope (a : Analyzer) (t : Ty) (m : SemMsg)
    (line col : Nat) :
    (a.check_bool_condition t m line col).scope_manager = a.scope_manager := by
  cases t with
  | prim k =>
      simp only [Analyzer.check_bool_condition]
      split <;> rfl
  | func ps r => rfl

mutual

/-- Visiting any expression leaves the scope-stack depth unchanged. -/
theorem visitExpr_depth (e : Expr) (a : Analyzer) :
    ((visitExpr e a).2).scope_manager.scopes.length =
      a.scope_manager.scopes.length := by
  cases e with
  | literal v tt l c => simp [visitExpr]
  | ident name l c =>
      simp only [visitExpr]
      cases a.scope_manager.lookup_symbol name with
      | none => simp [add_error_scope_manager]
      | some sym =>
          cases sym with
          | varSym n t l2 c2 ini =>
              cases ini <;> simp [add_error_scope_manager]
          | funcSym n t ps l2 c2 d => simp
          | paramSym n t p l2 c2 => simp
  | binary l op r =>
      simp only [visitExpr]
      rcases hl : visitExpr l a with ⟨lr, a1⟩
      rcases hr : visitExpr r a1 with ⟨rr, a2⟩
      have d1 := visitExpr_depth l a
      have d2 := visitExpr_depth r a1
      rw [hl] at d1
      rw [hr] at d2
      cases check_binary_operation lr.ty op.type rr.ty with
      | none => simp [add_error_scope_manager, d2, d1]
      | some t => simp [d2, d1]
  | unary op operand =>
      simp only [visitExpr]
      rcases ho : visitExpr operand a with ⟨orr, a1⟩
      have d1 := visitExpr_depth operand a
      rw [ho] at d1
      cases check_unary_operation op.type orr.ty with
      | none => simp [add_error_scope_manager, d1]
      | some t => simp [d1]
  | call f args l c =>
      simp only [visitExpr]
      rcases hf : visitExpr f a with ⟨fr, a1⟩
      rcases ha : visitArgs args a1 with ⟨ars, a2⟩
      have d1 := visitExpr_depth f a
      have d2 := visitArgs_depth args a1
      rw [hf] at d1
      rw [ha] at d2
      cases fr.ty with
      | prim k => simp [add_error_scope_manager, d2, d1]
      | func ps ret =>
          by_cases h : ars.length = ps.length
          · simp [h, d2, d1]
          · simp [h, add_error_scope_manager, d2, d1]
  | assign target value l c =>
      simp only [visitExpr]
      rcases hv : visitExpr value a with ⟨vr, a1⟩
      have d1 := visitExpr_depth value a
      rw [hv] at d1
      cases target with
      | ident name l2 c2 =>
          rcases hlk : a1.scope_manager.lookup_symbol name with _ | existing
          · simp [hlk, define_symbol_depth, d1]
          · cases existing with
            | funcSym n t ps l3 c3 d => simp [hlk, add_error_scope_manager, d1]
            | varSym n t l3 c3 ini =>
                simp [hlk, assign_update_depth, d1]
            | paramSym n t p l3 c3 =>
                simp [hlk, assign_update_depth, d1]
      | binary x y z => simp [add_error_scope_manager, d1]
      | unary x y => simp [add_error_scope_manager, d1]
      | literal x y z w => simp [add_error_scope_manager, d1]
      | call x y z w => simp [add_error_scope_manager, d1]
      | assign x y z w => simp [add_error_scope_manager, d1]

/-- Visiting an argument list leaves the scope-stack depth unchanged. -/
theorem visitArgs_depth (args : List Expr) (a : Analyzer) :
    ((visitArgs args a).2).scope_manager.scopes.length =
      a.scope_manager.scopes.length := by
  cases args with
  | nil => simp [visitArgs]
  | cons e es =>
      simp only [visitArgs]
      rcases he : visitExpr e a with ⟨r, a1⟩
      rcases hes : visitArgs es a1 with ⟨rs, a2⟩
      have d1 := visitExpr_depth e a
      have d2 := visitArgs_depth es a1
      rw [he] at d1
      rw [hes] at d2
      simp [d2, d1]

/-- Visiting any statement leaves the scope-stack depth unchanged: every
scope pushed by a function declaration or block is popped exactly once
before the visit returns. -/
theorem visitStmt_depth (s : Stmt) (a : Analyzer) :
    ((visitStmt s a).2).scope_manager.scopes.length =
      a.scope_manager.scopes.length := by
  cases s with
  | exprStmt e => simp only [visitStmt]; exact visitExpr_depth e a
  | varDecl name initializer l c =>
      simp only [visitStmt]
      cases a.scope_manager.lookup_symbol_current_scope name with
      | some s0 => simp [add_error_scope_manager]
      | none =>
          cases initializer with
          | none => simp [define_symbol_depth]
          | some e =>
              rcases he : visitExpr e a with ⟨r, a1⟩
              have d1 := visitExpr_depth e a
              rw [he] at d1
              simp [he, define_symbol_depth, d1]
  | funcDecl name params body l c =>
      simp only [visitStmt]
      cases a.scope_manager.lookup_symbol_current_scope name with
      | some s0 => simp [add_error_scope_manager]
      | none =>
          simp only []
          rcases hb : visitStmt body
            { (define_params l c params 0
                { a with scope_manager :=
                    ((a.scope_manager.define_symbol
                        (Symbol.funcSym name
                          (.func (params.map fun _ => Ty.prim .unknown) (.prim .unknown))
                          params l c false)).2.enter_scope ("函数_" ++ name)) })
              with current_return_type := none } with ⟨r5, a5⟩
          have d5 := visitStmt_depth body
            { (define_params l c params 0
                { a with scope_manager :=
                    ((a.scope_manager.define_symbol
                        (Symbol.funcSym name
                          (.func (params.map fun _ => Ty.prim .unknown) (.prim .unknown))
                          params l c false)).2.enter_scope ("函数_" ++ name)) })
              with current_return_type := none }
          rw [hb] at d5
          simp only [hb]
          rw [update_symbol_depth, exit_scope_depth, d5]
          rw [define_params_depth]
          simp only [ScopeManager.enter_scope, List.length_cons]
          rw [define_symbol_depth]
          omega
  | returnStmt value l c =>
      simp only [visitStmt]
      cases value with
      | none =>
          rcases hcrt : a.current_return_type with _ | cur
          · simp [hcrt]
          · simp only [hcrt]
            split <;> simp [add_error_scope_manager]
      | some e =>
          rcases he : visitExpr e a with ⟨r, a1⟩
          have d1 := visitExpr_depth e a
          rw [he] at d1
          simp only [he]
          rcases hcrt : a1.current_return_type with _ | cur
          · simp [hcrt, d1]
          · simp only [hcrt]
            split <;> simp [add_error_scope_manager, d1]
  | ifStmt cond thenBranch elseBranch l c =>
      simp only [visitStmt]
      rcases hc : visitExpr cond a with ⟨cr, a1⟩
      have d1 := visitExpr_depth cond a
      rw [hc] at d1
      have dchk := check_bool_condition_scope a1 cr.ty (.if_condition_not_bool cr.ty) l c
      rcases ht : visitStmt thenBranch
        (a1.check_bool_condition cr.ty (.if_condition_not_bool cr.ty) l c) with ⟨rt, a3⟩
      have d2 := visitStmt_depth thenBranch
        (a1.check_bool_condition cr.ty (.if_condition_not_bool cr.ty) l c)
      rw [ht] at d2
      cases elseBranch with
      | none => simp [ht, d2, dchk, d1]
      | some eb =>
          rcases hel : visitStmt eb a3 with ⟨re, a4⟩
          have d3 := visitStmt_depth eb a3
          rw [hel] at d3
          simp [ht, hel, d3, d2, dchk, d1]
  | whileStmt cond body l c =>
      simp only [visitStmt]
      rcases hc : visitExpr cond a with ⟨cr, a1⟩
      have d1 := visitExpr_depth cond a
      rw [hc] at d1
      have dchk := check_bool_condition_scope a1 cr.ty (.while_condition_not_bool cr.ty) l c
      rcases hb : visitStmt body
        (a1.check_bool_condition cr.ty (.while_condition_not_bool cr.ty) l c) with ⟨rb, a3⟩
      have d2 := visitStmt_depth body
        (a1.check_bool_condition cr.ty (.while_condition_not_bool cr.ty) l c)
      rw [hb] at d2
      simp [hb, d2, dchk, d1]
  | block stmts l c =>
      simp only [visitStmt]
      have d := visitStmts_depth stmts
        { a with scope_manager := a.scope_manager.enter_scope "代码块" }
      rw [exit_scope_depth, d]
      simp [ScopeManager.enter_scope]

/-- Visiting a statement list leaves the scope-stack depth unchanged. -/
theorem visitStmts_depth (ss : List Stmt) (a : Analyzer) :
    (visitStmts ss a).scope_manager.scopes.length =
      a.scope_manager.scopes.length := by
  cases ss with
  | nil => simp [visitStmts]
  | cons s rest =>
      simp only [visitStmts]
      rcases hs : visitStmt s a with ⟨r, a1⟩
      have d1 := visitStmt_depth s a
      rw [hs] at d1
      rw [visitStmts_depth rest a1, d1]

end

/-- C10: visiting any statement restores the scope-stack depth (every
scope pushed during a function declaration or block visit is popped
exactly once before that visit returns), and therefore `analyze` run from
the freshly initialized analyzer ends with exactly the single global
scope on the stack — the global scope is never popped. -/
theorem C10_scope_stack_restored :
    (∀ (stmt : Stmt) (a : Analyzer),
      ((visitStmt stmt a).2).scope_manager.scopes.length =
        a.scope_manager.scopes.length) ∧
    (∀ prog : Program, ∃ g : SymbolTable,
      ((analyze prog Analyzer.init).2).scope_manager.scopes = [g]) := by
  refine ⟨visitStmt_depth, fun prog => ?_⟩
  have h := visitStmts_depth prog.stmts { Analyzer.init with errors := [] }
  have hinit :
      ({ Analyzer.init with errors := [] } : Analyzer).scope_manager.scopes.length = 1 := by
    rfl
  have hred : (analyze prog Analyzer.init).2 =
      visitStmts prog.stmts { Analyzer.init with errors := [] } := rfl
  rw [hred]
  exact List.length_eq_one.mp (h.trans hinit)

/-- `advance` keeps the source and moves one position right. -/
theorem advance_source (l : Lexer) : (l.advance).source = l.source := by
  simp only [Lexer.advance]
  split <;> rfl

/-- `advance` keeps the source and moves one position right. -/
theorem advance_position (l : Lexer) : (l.advance).position = l.position + 1 := by
  simp only [Lexer.advance]
  split <;> rfl

/-- The whitespace loop keeps the source and never moves left. -/
theorem skip_whitespace_go_spec :
    ∀ (fuel : Nat) (l l2 : Lexer), skip_whitespace_go fuel l = some l2 →
      l2.source = l.source ∧ l.position ≤ l2.position := by
  intro fuel
  induction fuel with
  | zero => intro l l2 h; simp [skip_whitespace_go] at h
  | succ f ih =>
      intro l l2 h
      simp only [skip_whitespace_go] at h
      rcases hc : l.current_char with _ | c
      · simp only [hc] at h
        cases h
        exact ⟨rfl, le_refl _⟩
      · simp only [hc] at h
        by_cases hsp : pyIsSpace c ∧ c ≠ '\n'
        · rw [if_pos hsp] at h
          obtain ⟨hsrc, hpos⟩ := ih l.advance l2 h
          rw [advance_source] at hsrc
          rw [advance_position] at hpos
          exact ⟨hsrc, by omega⟩
        · rw [if_neg hsp] at h
          cases h
          exact ⟨rfl, le_refl _⟩

/-- With one unit of fuel per remaining character the whitespace loop
completes. -/
theorem skip_whitespace_go_isSome :
    ∀ (fuel : Nat) (l : Lexer), l.source.length - l.position + 1 ≤ fuel →
      (skip_whitespace_go fuel l).isSome := by
  intro fuel
  induction fuel with
  | zero => intro l h; omega
  | succ f ih =>
      intro l h
      simp only [skip_whitespace_go]
      rcases hc : l.current_char with _ | c
      · simp [hc]
      · simp only [hc]
        have hlt : l.position < l.source.length := (List.get?_eq_some.mp hc).1
        by_cases hsp : pyIsSpace c ∧ c ≠ '\n'
        · rw [if_pos hsp]
          apply ih
          rw [advance_source, advance_position]
          omega
        · rw [if_neg hsp]
          simp

/-- `skip_whitespace` always completes (its canonical fuel is enough),
keeping the source and never moving left. -/
theorem skip_whitespace_spec (l : Lexer) :
    ∃ l2, l.skip_whitespace = some l2 ∧ l2.source = l.source ∧
      l.position ≤ l2.position := by
  have h := skip_whitespace_go_isSome (scan_fuel l) l (by simp [scan_fuel])
  rcases ho : skip_whitespace_go (scan_fuel l) l with _ | l2
  · rw [ho] at h; simp at h
  · exact ⟨l2, ho, skip_whitespace_go_spec _ _ _ ho⟩

/-- If entered on a skippable character, `skip_whitespace` moves strictly
right. -/
theorem skip_whitespace_progress (l l2 : Lexer) (c : Char)
    (hc : l.current_char = some c) (hsp : pyIsSpace c ∧ c ≠ '\n')
    (h : l.skip_whitespace = some l2) :
    l2.source = l.source ∧ l.position < l2.position := by
  have h1 : scan_fuel l = (scan_fuel l - 1) + 1 := by simp [scan_fuel]
  unfold Lexer.skip_whitespace at h
  rw [h1] at h
  simp only [skip_whitespace_go, hc, if_pos hsp] at h
  obtain ⟨hsrc, hpos⟩ := skip_whitespace_go_spec _ _ _ h
  rw [advance_source] at hsrc
  rw [advance_position] at hpos
  exact ⟨hsrc, by omega⟩

/-- The comment loop keeps the source and never moves left. -/
theorem skip_to_eol_go_spec :
    ∀ (fuel : Nat) (l l2 : Lexer), skip_to_eol_go fuel l = some l2 →
      l2.source = l.source ∧ l.position ≤ l2.position := by
  intro fuel
  induction fuel with
  | zero => intro l l2 h; simp [skip_to_eol_go] at h
  | succ f ih =>
      intro l l2 h
      simp only [skip_to_eol_go] at h
      rcases hc : l.current_char with _ | c
      · simp only [hc] at h
        cases h
        exact ⟨rfl, le_refl _⟩
      · simp only [hc] at h
        by_cases hnl : c ≠ '\n'
        · rw [if_pos hnl] at h
          obtain ⟨hsrc, hpos⟩ := ih l.advance l2 h
          rw [advance_source] at hsrc
          rw [advance_position] at hpos
          exact ⟨hsrc, by omega⟩
        · rw [if_neg hnl] at h
          cases h
          exact ⟨rfl, le_refl _⟩

/-- With one unit of fuel per remaining character the comment loop
completes. -/
theorem skip_to_eol_go_isSome :
    ∀ (fuel : Nat) (l : Lexer), l.source.length - l.position + 1 ≤ fuel →
      (skip_to_eol_go fuel l).isSome := by
  intro fuel
  induction fuel with
  | zero => intro l h; omega
  | succ f ih =>
      intro l h
      simp only [skip_to_eol_go]
      rcases hc : l.current_char with _ | c
      · simp [hc]
      · simp only [hc]
        have hlt : l.position < l.source.length := (List.get?_eq_some.mp hc).1
        by_cases hnl : c ≠ '\n'
        · rw [if_pos hnl]
          apply ih
          rw [advance_source, advance_position]
          omega
        · rw [if_neg hnl]
          simp

/-- `skip_line_comment` always completes, keeping the source, and moves
strictly right (past the two slashes). -/
theorem skip_line_comment_spec (l : Lexer) :
    ∃ l2, l.skip_line_comment = some l2 ∧ l2.source = l.source ∧
      l.position < l2.position := by
  have h := skip_to_eol_go_isSome (scan_fuel l.advance.advance) l.advance.advance
    (by simp [scan_fuel])
  rcases ho : skip_to_eol_go (scan_fuel l.advance.advance) l.advance.advance with _ | l2
  · rw [ho] at h; simp at h
  · obtain ⟨hsrc, hpos⟩ := skip_to_eol_go_spec _ _ _ ho
    rw [advance_source, advance_source] at hsrc
    rw [advance_position, advance_position] at hpos
    exact ⟨l2, ho, hsrc, by omega⟩

/-- The number loop's result extends the accumulator and moves the cursor
by exactly the characters appended. -/
theorem read_number_go_spec :
    ∀ (fuel : Nat) (l : Lexer) (acc : String) (d : Bool) (s : String)
      (d' : Bool) (l1 : Lexer),
      read_number_go fuel l acc d = some (s, d', l1) →
      l1.source = l.source ∧
        ∃ t : List Char, s.data = acc.data ++ t ∧
          l1.position = l.position + t.length := by
  intro fuel
  induction fuel with
  | zero => intro l acc d s d' l1 h; simp [read_number_go] at h
  | succ f ih =>
      intro l acc d s d' l1 h
      simp only [read_number_go] at h
      rcases hc : l.current_char with _ | c
      · simp only [hc] at h
        cases h
        exact ⟨rfl, [], by simp, by simp⟩
      · simp only [hc] at h
        by_cases h1 : pyIsDigit c ∨ c = '.'
        · rw [if_pos h1] at h
          by_cases h2 : c = '.' ∧ d
          · rw [if_pos h2] at h
            cases h
            exact ⟨rfl, [], by simp, by simp⟩
          · rw [if_neg h2] at h
            obtain ⟨hsrc, t', ht', hp'⟩ := ih _ _ _ _ _ _ h
            rw [advance_source] at hsrc
            rw [advance_position] at hp'
            refine ⟨hsrc, c :: t', ?_, ?_⟩
            · rw [ht', String.data_push]
              simp
            · simp only [List.length_cons]
              omega
        · rw [if_neg h1] at h
          cases h
          exact ⟨rfl, [], by simp, by simp⟩

/-- With one unit of fuel per remaining character the number loop
completes. -/
theorem read_number_go_isSome :
    ∀ (fuel : Nat) (l : Lexer) (acc : String) (d : Bool),
      l.source.length - l.position + 1 ≤ fuel →
      (read_number_go fuel l acc d).isSome := by
  intro fuel
  induction fuel with
  | zero => intro l acc d h; omega
  | succ f ih =>
      intro l acc d h
      simp only [read_number_go]
      rcases hc : l.current_char with _ | c
      · simp [hc]
      · simp only [hc]
        have hlt : l.position < l.source.length := (List.get?_eq_some.mp hc).1
        by_cases h1 : pyIsDigit c ∨ c = '.'
        · rw [if_pos h1]
          by_cases h2 : c = '.' ∧ d
          · rw [if_pos h2]; simp
          · rw [if_neg h2]
            apply ih
            rw [advance_source, advance_position]
            omega
        · rw [if_neg h1]; simp

/-- `read_number`, entered on a digit, always produces a token and leaves
the cursor strictly to the right (also after the dangling-dot backtrack,
which gives back one of at least two consumed characters). -/
theorem read_number_spec (l : Lexer) (c : Char)
    (hc : l.current_char = some c) (hd : pyIsDigit c) :
    ∃ tk l2, l.read_number = some (tk, l2) ∧ l2.source = l.source ∧
      l.position < l2.position := by
  have hlt : l.position < l.source.length := (List.get?_eq_some.mp hc).1
  have hfe : scan_fuel l = (scan_fuel l - 1) + 1 := by simp [scan_fuel]
  have hgo : (read_number_go (scan_fuel l) l "" false).isSome :=
    read_number_go_isSome _ _ _ _ (by simp [scan_fuel])
  rcases ho : read_number_go (scan_fuel l) l "" false with _ | ⟨s, d', l1⟩
  · rw [ho] at hgo; simp at hgo
  · have ho2 := ho
    rw [hfe] at ho2
    simp only [read_number_go, hc] at ho2
    have h1 : pyIsDigit c ∨ c = '.' := Or.inl hd
    rw [if_pos h1] at ho2
    have hcd : ¬ (c = '.' ∧ (false : Bool)) := by simp
    rw [if_neg hcd] at ho2
    obtain ⟨hsrc, t', ht', hp'⟩ := read_number_go_spec _ _ _ _ _ _ _ ho2
    rw [advance_source] at hsrc
    rw [advance_position] at hp'
    have hsdata : s.data = c :: t' := by
      rw [ht', String.data_push]
      simp
    unfold Lexer.read_number
    rw [ho]
    simp only [Option.map]
    by_cases hlast : s.data.getLast? = some '.'
    · have hlen2 : 2 ≤ s.data.length := by
        rcases t' with _ | ⟨x, t''⟩
        · exfalso
          rw [hsdata] at hlast
          simp at hlast
          rw [hlast] at hd
          simp [pyIsDigit, Char.isDigit] at hd
        · rw [hsdata]
          simp
      rw [if_pos hlast]
      refine ⟨_, _, rfl, by simp [hsrc], ?_⟩
      have hlen3 : 2 ≤ t'.length + 1 := by
        rw [hsdata] at hlen2
        simpa using hlen2
      simp only []
      omega
    · rw [if_neg hlast]
      by_cases hdot : d' = true
      · rw [if_pos hdot]
        refine ⟨_, _, rfl, hsrc, ?_⟩
        rw [hp']
        omega
      · rw [if_neg hdot]
        refine ⟨_, _, rfl, hsrc, ?_⟩
        rw [hp']
        omega

/-- The identifier loop's result extends the accumulator and moves the
cursor by exactly the characters appended. -/
theorem read_ident_go_spec :
    ∀ (fuel : Nat) (l : Lexer) (acc s : String) (l1 : Lexer),
      read_ident_go fuel l acc = some (s, l1) →
      l1.source = l.source ∧
        ∃ t : List Char, s.data = acc.data ++ t ∧
          l1.position = l.position + t.length := by
  intro fuel
  induction fuel with
  | zero => intro l acc s l1 h; simp [read_ident_go] at h
  | succ f ih =>
      intro l acc s l1 h
      simp only [read_ident_go] at h
      rcases hc : l.current_char with _ | c
      · simp only [hc] at h
        cases h
        exact ⟨rfl, [], by simp, by simp⟩
      · simp only [hc] at h
        by_cases h1 : pyIsAlnum c ∨ c = '_'
        · rw [if_pos h1] at h
          obtain ⟨hsrc, t', ht', hp'⟩ := ih _ _ _ _ h
          rw [advance_source] at hsrc
          rw [advance_position] at hp'
          refine ⟨hsrc, c :: t', ?_, ?_⟩
          · rw [ht', String.data_push]
            simp
          · simp only [List.length_cons]
            omega
        · rw [if_neg h1] at h
          cases h
          exact ⟨rfl, [], by simp, by simp⟩

/-- With one unit of fuel per remaining character the identifier loop
completes. -/
theorem read_ident_go_isSome :
    ∀ (fuel : Nat) (l : Lexer) (acc : String),
      l.source.length - l.position + 1 ≤ fuel →
      (read_ident_go fuel l acc).isSome := by
  intro fuel
  induction fuel with
  | zero => intro l acc h; omega
  | succ f ih =>
      intro l acc h
      simp only [read_ident_go]
      rcases hc : l.current_char with _ | c
      · simp [hc]
      · simp only [hc]
        have hlt : l.position < l.source.length := (List.get?_eq_some.mp hc).1
        by_cases h1 : pyIsAlnum c ∨ c = '_'
        · rw [if_pos h1]
          apply ih
          rw [advance_source, advance_position]
          omega
        · rw [if_neg h1]; simp

/-- `read_identifier`, entered on a letter or underscore, always produces
a token and leaves the cursor strictly to the right. -/
theorem read_identifier_spec (l : Lexer) (c : Char)
    (hc : l.current_char = some c) (ha : pyIsAlpha c ∨ c = '_') :
    ∃ tk l2, l.read_identifier = some (tk, l2) ∧ l2.source = l.source ∧
      l.position < l2.position := by
  have hlt : l.position < l.source.length := (List.get?_eq_some.mp hc).1
  have hfe : scan_fuel l = (scan_fuel l - 1) + 1 := by simp [scan_fuel]
  have hgo : (read_ident_go (scan_fuel l) l "").isSome :=
    read_ident_go_isSome _ _ _ (by simp [scan_fuel])
  rcases ho : read_ident_go (scan_fuel l) l "" with _ | ⟨s, l1⟩
  · rw [ho] at hgo; simp at hgo
  · have ho2 := ho
    rw [hfe] at ho2
    simp only [read_ident_go, hc] at ho2
    have h1 : pyIsAlnum c ∨ c = '_' := by
      rcases ha with ha | ha
      · left
        simp only [pyIsAlnum, Char.isAlphanum]
        simp only [pyIsAlpha] at ha
        simp [ha]
      · right; exact ha
    rw [if_pos h1] at ho2
    obtain ⟨hsrc, t', ht', hp'⟩ := read_ident_go_spec _ _ _ _ _ ho2
    rw [advance_source] at hsrc
    rw [advance_position] at hp'
    unfold Lexer.read_identifier
    rw [ho]
    simp only [Option.map]
    cases hk : KEYWORDS s with
    | none => exact ⟨_, _, rfl, hsrc, by omega⟩
    | some t =>
        cases t <;> exact ⟨_, _, rfl, hsrc, by omega⟩

/-- A successful string scan keeps the source and moves the cursor
strictly right (it consumes at least the closing quote). -/
theorem read_string_go_ok :
    ∀ (fuel : Nat) (l : Lexer) (q : Char) (acc s : String) (l2 : Lexer),
      read_string_go fuel l q acc = .ok (s, l2) →
      l2.source = l.source ∧ l.position < l2.position := by
  intro fuel
  induction fuel with
  | zero => intro l q acc s l2 h; simp [read_string_go] at h
  | succ f ih =>
      intro l q acc s l2 h
      simp only [read_string_go] at h
      rcases hc : l.current_char with _ | c
      · simp only [hc] at h
        simp at h
      · simp only [hc] at h
        by_cases h1 : c = q
        · rw [if_pos h1] at h
          cases h
          rw [advance_source, advance_position]
          exact ⟨rfl, by omega⟩
        · rw [if_neg h1] at h
          by_cases h2 : c = '\\'
          · rw [if_pos h2] at h
            rcases hc2 : (l.advance).current_char with _ | e
            · simp only [hc2] at h
              simp at h
            · simp only [hc2] at h
              obtain ⟨hsrc, hpos⟩ := ih _ _ _ _ _ h
              rw [advance_source, advance_source] at hsrc
              rw [advance_position, advance_position] at hpos
              exact ⟨hsrc, by omega⟩
          · rw [if_neg h2] at h
            obtain ⟨hsrc, hpos⟩ := ih _ _ _ _ _ h
            rw [advance_source] at hsrc
            rw [advance_position] at hpos
            exact ⟨hsrc, by omega⟩

/-- With one unit of fuel per remaining character the string scan never
runs out of fuel (it closes, or raises the unterminated error). -/
theorem read_string_go_not_out :
    ∀ (fuel : Nat) (l : Lexer) (q : Char) (acc : String),
      l.source.length - l.position + 1 ≤ fuel →
      read_string_go fuel l q acc ≠ .out := by
  intro fuel
  induction fuel with
  | zero => intro l q acc h; omega
  | succ f ih =>
      intro l q acc h
      simp only [read_string_go]
      rcases hc : l.current_char with _ | c
      · simp [hc]
      · simp only [hc]
        have hlt : l.position < l.source.length := (List.get?_eq_some.mp hc).1
        by_cases h1 : c = q
        · rw [if_pos h1]; simp
        · rw [if_neg h1]
          by_cases h2 : c = '\\'
          · rw [if_pos h2]
            rcases hc2 : (l.advance).current_char with _ | e
            · simp [hc2]
            · simp only [hc2]
              apply ih
              have hlt2 : (l.advance).position < (l.advance).source.length :=
                (List.get?_eq_some.mp hc2).1
              rw [advance_source, advance_position] at hlt2
              rw [advance_source, advance_source,
                advance_position, advance_position]
              omega
          · rw [if_neg h2]
            apply ih
            rw [advance_source, advance_position]
            omega

/-- Every error the string scan raises is the unterminated-string error. -/
theorem read_string_go_msg :
    ∀ (fuel : Nat) (l : Lexer) (q : Char) (acc : String) (e : LexError),
      read_string_go fuel l q acc = .err e → e.message = "字符串未闭合" := by
  intro fuel
  induction fuel with
  | zero => intro l q acc e h; simp [read_string_go] at h
  | succ f ih =>
      intro l q acc e h
      simp only [read_string_go] at h
      rcases hc : l.current_char with _ | c
      · simp only [hc] at h
        cases h
        rfl
      · simp only [hc] at h
        by_cases h1 : c = q
        · rw [if_pos h1] at h
          cases h
        · rw [if_neg h1] at h
          by_cases h2 : c = '\\'
          · rw [if_pos h2] at h
            rcases hc2 : (l.advance).current_char with _ | e2
            · simp only [hc2] at h
              cases h
              rfl
            · simp only [hc2] at h
              exact ih _ _ _ _ h
          · rw [if_neg h2] at h
            exact ih _ _ _ _ h

/-- A successful `read_string` keeps the source and moves strictly
right. -/
theorem read_string_ok_spec (l : Lexer) (t : Token) (l2 : Lexer)
    (h : l.read_string = .ok (t, l2)) :
    l2.source = l.source ∧ l.position < l2.position := by
  unfold Lexer.read_string at h
  rcases ho : read_string_go (scan_fuel l.advance) l.advance
      (l.current_char.getD '"') "" with ⟨s, l3⟩ | e | _
  all_goals rw [ho] at h
  · cases h
    obtain ⟨hsrc, hpos⟩ := read_string_go_ok _ _ _ _ _ _ ho
    rw [advance_source] at hsrc
    rw [advance_position] at hpos
    exact ⟨hsrc, by omega⟩
  · simp at h
  · simp at h

/-- `read_string` never exhausts its canonical fuel. -/
theorem read_string_not_out (l : Lexer) : l.read_string ≠ .out := by
  unfold Lexer.read_string
  rcases ho : read_string_go (scan_fuel l.advance) l.advance
      (l.current_char.getD '"') "" with ⟨s, l3⟩ | e | _
  · simp
  · simp
  · exfalso
    refine read_string_go_not_out _ _ _ _ ?_ ho
    rw [advance_source, advance_position]
    simp [scan_fuel, advance_source, advance_position]

/-- Every error `read_string` raises is the unterminated-string error. -/
theorem read_string_msg (l : Lexer) (e : LexError)
    (h : l.read_string = .err e) : e.message = "字符串未闭合" := by
  unfold Lexer.read_string at h
  rcases ho : read_string_go (scan_fuel l.advance) l.advance
      (l.current_char.getD '"') "" with ⟨s, l3⟩ | e2 | _
  all_goals rw [ho] at h
  · simp at h
  · cases h
    exact read_string_go_msg _ _ _ _ _ ho
  · simp at h

/-- A successful `next_token` keeps the source; a non-EOF token means the
cursor was inside the source and moved strictly right. -/
theorem next_token_progress :
    ∀ (fuel : Nat) (l : Lexer) (t : Token) (l1 : Lexer),
      next_token fuel l = .ok (t, l1) →
      l1.source = l.source ∧
        (t.type ≠ .EOF →
          l.position < l1.position ∧ l.position < l.source.length) := by
  intro fuel
  induction fuel with
  | zero => intro l t l1 h; simp [next_token] at h
  | succ f ih =>
      intro l t l1 h
      simp only [next_token] at h
      rcases hc : l.current_char with _ | c
      · simp only [hc] at h
        cases h
        exact ⟨rfl, fun hne => absurd rfl hne⟩
      · simp only [hc] at h
        have hlt : l.position < l.source.length := (List.get?_eq_some.mp hc).1
        by_cases hsp : pyIsSpace c ∧ c ≠ '\n'
        · rw [if_pos hsp] at h
          rcases hsw : l.skip_whitespace with _ | l2
          · rw [hsw] at h; simp at h
          · rw [hsw] at h
            obtain ⟨hsrc2, hpos2⟩ := skip_whitespace_progress l l2 c hc hsp hsw
            obtain ⟨hsrc1, hpos1⟩ := ih l2 t l1 h
            refine ⟨by rw [hsrc1, hsrc2], fun hne => ⟨?_, hlt⟩⟩
            have := (hpos1 hne).1
            omega
        · rw [if_neg hsp] at h
          by_cases hnl : c = '\n'
          · rw [if_pos hnl] at h
            cases h
            rw [advance_position]
            exact ⟨advance_source l, fun _ => ⟨by omega, hlt⟩⟩
          · rw [if_neg hnl] at h
            by_cases hdg : pyIsDigit c
            · rw [if_pos hdg] at h
              obtain ⟨tk, l2, hrn, hsrc, hpos⟩ := read_number_spec l c hc hdg
              rw [hrn] at h
              cases h
              exact ⟨hsrc, fun _ => ⟨hpos, hlt⟩⟩
            · rw [if_neg hdg] at h
              by_cases hq : c = '"' ∨ c = '\''
              · rw [if_pos hq] at h
                obtain ⟨hsrc, hpos⟩ := read_string_ok_spec l t l1 h
                exact ⟨hsrc, fun _ => ⟨hpos, hlt⟩⟩
              · rw [if_neg hq] at h
                by_cases hal : pyIsAlpha c ∨ c = '_'
                · rw [if_pos hal] at h
                  obtain ⟨tk, l2, hri, hsrc, hpos⟩ := read_identifier_spec l c hc hal
                  rw [hri] at h
                  cases h
                  exact ⟨hsrc, fun _ => ⟨hpos, hlt⟩⟩
                · rw [if_neg hal] at h
                  by_cases hcm : c = '/' ∧ l.peek = some '/'
                  · rw [if_pos hcm] at h
                    obtain ⟨l2, hsl, hsrc2, hpos2⟩ := skip_line_comment_spec l
                    rw [hsl] at h
                    obtain ⟨hsrc1, hpos1⟩ := ih l2 t l1 h
                    refine ⟨by rw [hsrc1, hsrc2], fun hne => ⟨?_, hlt⟩⟩
                    have := (hpos1 hne).1
                    omega
                  · rw [if_neg hcm] at h
                    -- two-character operators, single-character tokens and
                    -- the Error token all advance one or two characters
                    by_cases h2 : c = '=' ∧ l.peek = some '='
                    · rw [if_pos h2] at h
                      cases h
                      rw [advance_source, advance_source,
                        advance_position, advance_position]
                      exact ⟨rfl, fun _ => ⟨by omega, hlt⟩⟩
                    · rw [if_neg h2] at h
                      by_cases h3 : c = '!' ∧ l.peek = some '='
                      · rw [if_pos h3] at h
                        cases h
                        rw [advance_source, advance_source,
                          advance_position, advance_position]
                        exact ⟨rfl, fun _ => ⟨by omega, hlt⟩⟩
                      · rw [if_neg h3] at h
                        by_cases h4 : c = '<' ∧ l.peek = some '='
                        · rw [if_pos h4] at h
                          cases h
                          rw [advance_source, advance_source,
                            advance_position, advance_position]
                          exact ⟨rfl, fun _ => ⟨by omega, hlt⟩⟩
                        · rw [if_neg h4] at h
                          by_cases h5 : c = '>' ∧ l.peek = some '='
                          · rw [if_pos h5] at h
                            cases h
                            rw [advance_source, advance_source,
                              advance_position, advance_position]
                            exact ⟨rfl, fun _ => ⟨by omega, hlt⟩⟩
                          · rw [if_neg h5] at h
                            by_cases h6 : c = '&' ∧ l.peek = some '&'
                            · rw [if_pos h6] at h
                              cases h
                              rw [advance_source, advance_source,
                                advance_position, advance_position]
                              exact ⟨rfl, fun _ => ⟨by omega, hlt⟩⟩
                            · rw [if_neg h6] at h
                              by_cases h7 : c = '|' ∧ l.peek = some '|'
                              · rw [if_pos h7] at h
                                cases h
                                rw [advance_source, advance_source,
                                  advance_position, advance_position]
                                exact ⟨rfl, fun _ => ⟨by omega, hlt⟩⟩
                              · rw [if_neg h7] at h
                                rcases hsc : single_char_token c with _ | tt
                                all_goals rw [hsc] at h
                                all_goals cases h
                                all_goals rw [advance_source, advance_position]
                                all_goals exact ⟨rfl, fun _ => ⟨by omega, hlt⟩⟩

/-- One `next_token` call never exhausts the fuel `tokenize` gives it. -/
theorem next_token_not_out :
    ∀ (fuel : Nat) (l : Lexer), l.source.length - l.position + 2 ≤ fuel →
      next_token fuel l ≠ .out := by
  intro fuel
  induction fuel with
  | zero => intro l h; omega
  | succ f ih =>
      intro l hb
      simp only [next_token]
      rcases hc : l.current_char with _ | c
      · simp [hc]
      · simp only [hc]
        have hlt : l.position < l.source.length := (List.get?_eq_some.mp hc).1
        by_cases hsp : pyIsSpace c ∧ c ≠ '\n'
        · rw [if_pos hsp]
          obtain ⟨l2, hsw, hsrc, hpos⟩ := skip_whitespace_spec l
          have hstrict := skip_whitespace_progress l l2 c hc hsp hsw
          rw [hsw]
          apply ih
          rw [hsrc]
          omega
        · rw [if_neg hsp]
          by_cases hnl : c = '\n'
          · rw [if_pos hnl]; simp
          · rw [if_neg hnl]
            by_cases hdg : pyIsDigit c
            · rw [if_pos hdg]
              obtain ⟨tk, l2, hrn, _, _⟩ := read_number_spec l c hc hdg
              rw [hrn]
              simp
            · rw [if_neg hdg]
              by_cases hq : c = '"' ∨ c = '\''
              · rw [if_pos hq]
                exact read_string_not_out l
              · rw [if_neg hq]
                by_cases hal : pyIsAlpha c ∨ c = '_'
                · rw [if_pos hal]
                  obtain ⟨tk, l2, hri, _, _⟩ := read_identifier_spec l c hc hal
                  rw [hri]
                  simp
                · rw [if_neg hal]
                  by_cases hcm : c = '/' ∧ l.peek = some '/'
                  · rw [if_pos hcm]
                    obtain ⟨l2, hsl, hsrc2, hpos2⟩ := skip_line_comment_spec l
                    rw [hsl]
                    apply ih
                    rw [hsrc2]
                    omega
                  · rw [if_neg hcm]
                    by_cases h2 : c = '=' ∧ l.peek = some '='
                    · rw [if_pos h2]; simp
                    · rw [if_neg h2]
                      by_cases h3 : c = '!' ∧ l.peek = some '='
                      · rw [if_pos h3]; simp
                      · rw [if_neg h3]
                        by_cases h4 : c = '<' ∧ l.peek = some '='
                        · rw [if_pos h4]; simp
                        · rw [if_neg h4]
                          by_cases h5 : c = '>' ∧ l.peek = some '='
                          · rw [if_pos h5]; simp
                          · rw [if_neg h5]
                            by_cases h6 : c = '&' ∧ l.peek = some '&'
                            · rw [if_pos h6]; simp
                            · rw [if_neg h6]
                              by_cases h7 : c = '|' ∧ l.peek = some '|'
                              · rw [if_pos h7]; simp
                              · rw [if_neg h7]
                                split <;> simp

/-- The token-collection loop never exhausts the fuel `tokenize` gives
it. -/
theorem tokenize_loop_not_out :
    ∀ (fuel : Nat) (l : Lexer), l.source.length - l.position + 2 ≤ fuel →
      tokenize_loop fuel l ≠ .out := by
  intro fuel
  induction fuel with
  | zero => intro l h; omega
  | succ f ih =>
      intro l hb
      simp only [tokenize_loop]
      have hnt : next_token (next_token_fuel l) l ≠ .out :=
        next_token_not_out _ _ (by simp [next_token_fuel])
      rcases ho : next_token (next_token_fuel l) l with ⟨t, l1⟩ | e | _
      · by_cases ht : t.type = .EOF
        · simp [ht]
        · simp only [if_neg ht]
          obtain ⟨hsrc, hpos⟩ := next_token_progress _ _ _ _ ho
          obtain ⟨hlt1, hlt2⟩ := hpos ht
          have := ih l1 (by rw [hsrc]; omega)
          rcases hr : tokenize_loop f l1 with ts | e | _
          · simp
          · simp
          · exact absurd hr this
      · simp
      · exact absurd ho hnt

/-- Whatever the loop returns ends with (and contains) the EOF token. -/
theorem tokenize_loop_last :
    ∀ (fuel : Nat) (l : Lexer) (toks : List Token),
      tokenize_loop fuel l = .ok toks →
      toks ≠ [] ∧ (toks.getLast?).map Token.type = some .EOF := by
  intro fuel
  induction fuel with
  | zero => intro l toks h; simp [tokenize_loop] at h
  | succ f ih =>
      intro l toks h
      simp only [tokenize_loop] at h
      rcases ho : next_token (next_token_fuel l) l with ⟨t, l1⟩ | e | _
      all_goals simp only [ho] at h
      · by_cases ht : t.type = .EOF
        · rw [if_pos ht] at h
          cases h
          simp [ht]
        · rw [if_neg ht] at h
          rcases hr : tokenize_loop f l1 with ts | e | _
          all_goals simp only [hr] at h
          · cases h
            obtain ⟨hne, hlast⟩ := ih l1 ts hr
            rcases ts with _ | ⟨t2, ts2⟩
            · exact absurd rfl hne
            · exact ⟨by simp, by rw [List.getLast?_cons_cons]; exact hlast⟩
          · simp at h
          · simp at h
      · simp at h
      · simp at h

/-- C7: `tokenize` terminates on every source string (its fuel bound is
sufficient, so the fuel-exhaustion outcome never occurs); whenever it
returns a token list, that list is non-empty and its last token is EOF;
and on the empty source it returns exactly one EOF token at 1:1. -/
theorem C7_tokenize_terminates_last_eof :
    (∀ s : String, tokenize s ≠ .out) ∧
    (∀ (s : String) (toks : List Token), tokenize s = .ok toks →
      toks ≠ [] ∧ (toks.getLast?).map Token.type = some TokenType.EOF) ∧
    tokenize "" = .ok [⟨.EOF, .noneVal, 1, 1⟩] := by
  refine ⟨fun s => ?_, fun s toks h => tokenize_loop_last _ _ _ h, rfl⟩
  exact tokenize_loop_not_out _ _ (by simp [Lexer.init])

/-- C7 witness: the theorem applied to the one-digit source `"1"`. -/
theorem C7_tokenize_witness :
    tokenize "1" ≠ .out ∧
    (([⟨.INTEGER, .intVal 1, 1, 1⟩, ⟨.EOF, .noneVal, 1, 2⟩] : List Token) ≠ [] ∧
      (([⟨.INTEGER, .intVal 1, 1, 1⟩, ⟨.EOF, .noneVal, 1, 2⟩] : List Token).getLast?).map
        Token.type = some TokenType.EOF) :=
  ⟨C7_tokenize_terminates_last_eof.1 "1",
   C7_tokenize_terminates_last_eof.2.1 "1" _ (by rfl)⟩

/-- The string scan raises exactly when no unescaped closing quote occurs
before end of input. -/
theorem read_string_go_err_iff :
    ∀ (fuel : Nat) (l : Lexer) (q : Char) (acc : String),
      l.source.length - l.position + 1 ≤ fuel →
      ((∃ e, read_string_go fuel l q acc = .err e) ↔
        closedFrom (l.source.drop l.position) q = false) := by
  intro fuel
  induction fuel with
  | zero => intro l q acc h; omega
  | succ f ih =>
      intro l q acc hb
      simp only [read_string_go]
      rcases hc : l.current_char with _ | c
      · have hge : l.source.length ≤ l.position := by
          by_contra hlt
          push_neg at hlt
          rw [Lexer.current_char, List.get?_eq_get hlt] at hc
          simp at hc
        rw [List.drop_eq_nil_of_le hge]
        simp [hc, closedFrom]
      · have hlt : l.position < l.source.length := (List.get?_eq_some.mp hc).1
        have hget : l.source.get ⟨l.position, hlt⟩ = c := by
          have h5 := List.get?_eq_get hlt
          rw [Lexer.current_char, h5] at hc
          exact Option.some_injective _ hc
        have hdrop : l.source.drop l.position = c :: l.source.drop (l.position + 1) := by
          rw [List.drop_eq_get_cons hlt, hget]
        rw [hdrop]
        simp only [hc, closedFrom]
        by_cases h1 : c = q
        · simp [if_pos h1, closedFrom, h1]
        · simp only [if_neg h1]
          by_cases h2 : c = '\\'
          · simp only [if_pos h2]
            rcases hc2 : (l.advance).current_char with _ | e2
            · have hge2 : l.source.length ≤ l.position + 1 := by
                by_contra hlt2
                push_neg at hlt2
                rw [Lexer.current_char, advance_source, advance_position,
                  List.get?_eq_get hlt2] at hc2
                simp at hc2
              rw [List.drop_eq_nil_of_le hge2]
              simp [hc2, closedFrom, closedFromEsc, h1, h2]
            · have hc2a : l.source.get? (l.position + 1) = some e2 := by
                rw [Lexer.current_char, advance_source, advance_position] at hc2
                exact hc2
              have hlt2 : l.position + 1 < l.source.length :=
                (List.get?_eq_some.mp hc2a).1
              have hget2 : l.source.get ⟨l.position + 1, hlt2⟩ = e2 := by
                have h7 := List.get?_eq_get hlt2
                rw [h7] at hc2a
                exact Option.some_injective _ hc2a
              have hdrop2 :
                  l.source.drop (l.position + 1) =
                    e2 :: l.source.drop (l.position + 2) := by
                rw [List.drop_eq_get_cons hlt2, hget2]
              simp only [hdrop2, hc2, closedFromEsc]
              have hih := ih (l.advance.advance) q (acc.push (escape_char e2)) (by
                rw [advance_source, advance_source, advance_position,
                  advance_position]
                omega)
              rw [advance_source, advance_source, advance_position,
                advance_position] at hih
              exact hih
          · simp only [if_neg h2]
            have hih := ih l.advance q (acc.push c) (by
              rw [advance_source, advance_position]
              omega)
            rw [advance_source, advance_position] at hih
            exact hih

/-- Every error `next_token` can raise is the unterminated-string
error. -/
theorem next_token_err_msg :
    ∀ (fuel : Nat) (l : Lexer) (e : LexError),
      next_token fuel l = .err e → e.message = "字符串未闭合" := by
  intro fuel
  induction fuel with
  | zero => intro l e h; simp [next_token] at h
  | succ f ih =>
      intro l e h
      simp only [next_token] at h
      rcases hc : l.current_char with _ | c
      · simp only [hc] at h
        simp at h
      · simp only [hc] at h
        by_cases hsp : pyIsSpace c ∧ c ≠ '\n'
        · rw [if_pos hsp] at h
          rcases hsw : l.skip_whitespace with _ | l2
          all_goals rw [hsw] at h
          · simp at h
          · exact ih _ _ h
        · rw [if_neg hsp] at h
          by_cases hnl : c = '\n'
          · rw [if_pos hnl] at h
            simp at h
          · rw [if_neg hnl] at h
            by_cases hdg : pyIsDigit c
            · rw [if_pos hdg] at h
              rcases hrn : l.read_number with _ | r
              all_goals rw [hrn] at h
              all_goals simp at h
            · rw [if_neg hdg] at h
              by_cases hq : c = '"' ∨ c = '\''
              · rw [if_pos hq] at h
                exact read_string_msg l e h
              · rw [if_neg hq] at h
                by_cases hal : pyIsAlpha c ∨ c = '_'
                · rw [if_pos hal] at h
                  rcases hri : l.read_identifier with _ | r
                  all_goals rw [hri] at h
                  all_goals simp at h
                · rw [if_neg hal] at h
                  by_cases hcm : c = '/' ∧ l.peek = some '/'
                  · rw [if_pos hcm] at h
                    rcases hsl : l.skip_line_comment with _ | l2
                    all_goals rw [hsl] at h
                    · simp at h
                    · exact ih _ _ h
                  · rw [if_neg hcm] at h
                    by_cases h2 : c = '=' ∧ l.peek = some '='
                    · rw [if_pos h2] at h; simp at h
                    · rw [if_neg h2] at h
                      by_cases h3 : c = '!' ∧ l.peek = some '='
                      · rw [if_pos h3] at h; simp at h
                      · rw [if_neg h3] at h
                        by_cases h4 : c = '<' ∧ l.peek = some '='
                        · rw [if_pos h4] at h; simp at h
                        · rw [if_neg h4] at h
                          by_cases h5 : c = '>' ∧ l.peek = some '='
                          · rw [if_pos h5] at h; simp at h
                          · rw [if_neg h5] at h
                            by_cases h6 : c = '&' ∧ l.peek = some '&'
                            · rw [if_pos h6] at h; simp at h
                            · rw [if_neg h6] at h
                              by_cases h7 : c = '|' ∧ l.peek = some '|'
                              · rw [if_pos h7] at h; simp at h
                              · rw [if_neg h7] at h
                                rcases hsc : single_char_token c with _ | tt
                                all_goals simp only [hsc] at h
                                all_goals simp at h

/-- Every error `tokenize` can raise is the unterminated-string error. -/
theorem tokenize_loop_err_msg :
    ∀ (fuel : Nat) (l : Lexer) (e : LexError),
      tokenize_loop fuel l = .err e → e.message = "字符串未闭合" := by
  intro fuel
  induction fuel with
  | zero => intro l e h; simp [tokenize_loop] at h
  | succ f ih =>
      intro l e h
      simp only [tokenize_loop] at h
      rcases ho : next_token (next_token_fuel l) l with ⟨t, l1⟩ | e2 | _
      all_goals simp only [ho] at h
      · by_cases ht : t.type = .EOF
        · rw [if_pos ht] at h
          simp at h
        · rw [if_neg ht] at h
          rcases hr : tokenize_loop f l1 with ts | e2 | _
          all_goals simp only [hr] at h
          · simp at h
          · cases h
            exact ih _ _ hr
          · simp at h
      · cases h
        exact next_token_err_msg _ _ _ ho
      · simp at h

/-- At a quote character, `next_token` (which cannot take a `continue`
branch there) raises if and only if the literal opened by that quote never
closes before end of input. -/
theorem next_token_string_err_iff (fuel : Nat) (l : Lexer) (q : Char)
    (hc : l.current_char = some q) (hq : q = '"' ∨ q = '\'') :
    ((∃ e, next_token (fuel + 1) l = .err e) ↔
      closedFrom (l.source.drop (l.position + 1)) q = false) := by
  have hb : (l.advance).source.length - (l.advance).position + 1 ≤
      scan_fuel l.advance := by simp [scan_fuel]
  have hiff := read_string_go_err_iff (scan_fuel l.advance) l.advance q "" hb
  rw [advance_source, advance_position] at hiff
  have hread : (∃ e, l.read_string = .err e) ↔
      closedFrom (l.source.drop (l.position + 1)) q = false := by
    rw [← hiff]
    unfold Lexer.read_string
    rw [hc]
    simp only [Option.getD]
    rcases hgo : read_string_go (scan_fuel l.advance) l.advance q "" with r | e | _
    all_goals simp [hgo]
  rw [← hread]
  simp only [next_token, hc]
  rcases hq with rfl | rfl
  · rw [if_neg (by decide), if_neg (by decide), if_neg (by decide),
      if_pos (by decide : ('"' : Char) = '"' ∨ ('"' : Char) = '\'')]
  · rw [if_neg (by decide), if_neg (by decide), if_neg (by decide),
      if_pos (by decide : ('\'' : Char) = '"' ∨ ('\'' : Char) = '\'')]

/-- A character matching none of the lexing rules never raises: it becomes
an Error-kind token carrying the offending character, and scanning
continues right after it. -/
theorem next_token_unknown_char (fuel : Nat) (l : Lexer) (c : Char)
    (hc : l.current_char = some c)
    (h1 : ¬ (pyIsSpace c ∧ c ≠ '\n')) (h2 : c ≠ '\n') (h3 : ¬ pyIsDigit c)
    (h4 : ¬ (c = '"' ∨ c = '\'')) (h5 : ¬ (pyIsAlpha c ∨ c = '_'))
    (h6 : ¬ (c = '/' ∧ l.peek = some '/'))
    (h7 : ¬ (c = '=' ∧ l.peek = some '='))
    (h8 : ¬ (c = '!' ∧ l.peek = some '='))
    (h9 : ¬ (c = '<' ∧ l.peek = some '='))
    (h10 : ¬ (c = '>' ∧ l.peek = some '='))
    (h11 : ¬ (c = '&' ∧ l.peek = some '&'))
    (h12 : ¬ (c = '|' ∧ l.peek = some '|'))
    (h13 : single_char_token c = none) :
    next_token (fuel + 1) l =
      .ok (⟨.ERROR, .strVal c.toString, l.line, l.column⟩, l.advance) := by
  simp only [next_token, hc]
  rw [if_neg h1, if_neg h2, if_neg h3, if_neg h4, if_neg h5, if_neg h6,
    if_neg h7, if_neg h8, if_neg h9, if_neg h10, if_neg h11, if_neg h12, h13]

/-- C6: `tokenize` can fail only with the unterminated-string `LexError`
(which carries a line and column by construction); at a quote character
the failure happens exactly when the literal is unterminated at end of
input; any character matching no lexing rule never raises and instead
yields an Error-kind token carrying the offending character; and the
concrete dangling string `"abc` fails with that error at 1:5. -/
theorem C6_lex_error_characterization :
    (∀ (s : String) (e : LexError), tokenize s = .err e →
      e.message = "字符串未闭合") ∧
    (∀ (fuel : Nat) (l : Lexer) (q : Char), l.current_char = some q →
      (q = '"' ∨ q = '\'') →
      ((∃ e, next_token (fuel + 1) l = .err e) ↔
        closedFrom (l.source.drop (l.position + 1)) q = false)) ∧
    (∀ (fuel : Nat) (l : Lexer) (c : Char), l.current_char = some c →
      ¬ (pyIsSpace c ∧ c ≠ '\n') → c ≠ '\n' → ¬ pyIsDigit c →
      ¬ (c = '"' ∨ c = '\'') → ¬ (pyIsAlpha c ∨ c = '_') →
      ¬ (c = '/' ∧ l.peek = some '/') → ¬ (c = '=' ∧ l.peek = some '=') →
      ¬ (c = '!' ∧ l.peek = some '=') → ¬ (c = '<' ∧ l.peek = some '=') →
      ¬ (c = '>' ∧ l.peek = some '=') → ¬ (c = '&' ∧ l.peek = some '&') →
      ¬ (c = '|' ∧ l.peek = some '|') → single_char_token c = none →
      next_token (fuel + 1) l =
        .ok (⟨.ERROR, .strVal c.toString, l.line, l.column⟩, l.advance)) ∧
    tokenize "\"abc" = .err ⟨"字符串未闭合", 1, 5⟩ := by
  exact ⟨fun s e h => tokenize_loop_err_msg _ _ _ h,
    next_token_string_err_iff, next_token_unknown_char, by rfl⟩

/-- C6 witness: at the opening quote of `"ab` the lexer raises (the
literal never closes); the lone character `@` matches no rule and becomes
an Error token; and the dangling-string failure message is the
unterminated-string message. -/
theorem C6_lex_error_witness :
    (∃ e, next_token 1 (Lexer.init "\"ab") = .err e) ∧
    next_token 1 (Lexer.init "@") =
      .ok (⟨.ERROR, .strVal "@", 1, 1⟩, (Lexer.init "@").advance) ∧
    ({ message := "字符串未闭合", line := 1, column := 5 } : LexError).message =
      "字符串未闭合" :=
  ⟨(C6_lex_error_characterization.2.1 0 (Lexer.init "\"ab") '"' (by rfl)
      (Or.inl rfl)).mpr (by decide),
   C6_lex_error_characterization.2.2.1 0 (Lexer.init "@") '@' (by rfl)
     (by decide) (by decide) (by decide) (by decide) (by decide) (by decide)
     (by decide) (by decide) (by decide) (by decide) (by decide) (by decide)
     (by decide),
   C6_lex_error_characterization.1 "\"abc" ⟨"字符串未闭合", 1, 5⟩ (by rfl)⟩

/-- Sequencing preserves the parser-method guarantee. -/
theorem Mono.bind_mono {α β : Type} {r : PRes α} {p : Parser}
    {g : α → Parser → PRes β}
    (h1 : Mono r p) (h2 : ∀ a q, r = .ok a q → Mono (g a q) q) :
    Mono (r.bind g) p := by
  intro q hq
  cases r with
  | ok a m =>
      have hm := h1 m rfl
      have hg := h2 a m rfl q (by simpa [PRes.bind] using hq)
      exact ⟨by rw [hg.1, hm.1], le_trans hm.2 hg.2⟩
  | err e m =>
      simp only [PRes.bind, PRes.state?, Option.some_inj] at hq
      subst hq
      exact h1 m rfl
  | out => simp [PRes.bind, PRes.state?] at hq

/-- A pure return at the current state is monotone. -/
theorem mono_ok_self {α : Type} (a : α) (p : Parser) : Mono (.ok a p) p := by
  intro q hq
  simp only [PRes.state?, Option.some_inj] at hq
  subst hq
  exact ⟨rfl, le_refl _⟩

/-- A raise at the current state is monotone. -/
theorem mono_err_self {α : Type} (e : ParseError) (p : Parser) :
    Mono (.err e p : PRes α) p := by
  intro q hq
  simp only [PRes.state?, Option.some_inj] at hq
  subst hq
  exact ⟨rfl, le_refl _⟩

/-- `advance` keeps the token list. -/
theorem advance_tokens (p : Parser) : ((p.advance).2).tokens = p.tokens := by
  simp only [Parser.advance]
  split <;> rfl

/-- `advance` never moves left. -/
theorem advance_current_le (p : Parser) : p.current ≤ ((p.advance).2).current := by
  simp only [Parser.advance]
  split
  · simp
  · simp

/-- When the cursor is inside the list, `advance` moves right by one. -/
theorem advance_current_lt (p : Parser) (h : p.current < p.tokens.length) :
    ((p.advance).2).current = p.current + 1 := by
  simp only [Parser.advance, if_pos h]

/-- A return at the advanced state is monotone. -/
theorem mono_ok_advance {α : Type} (a : α) (p : Parser) :
    Mono (.ok a (p.advance).2) p := by
  intro q hq
  simp only [PRes.state?, Option.some_inj] at hq
  subst hq
  exact ⟨advance_tokens p, advance_current_le p⟩

/-- `consume` is monotone. -/
theorem mono_consume (p : Parser) (tt : TokenType) (m : String) :
    Mono (p.consume tt m) p := by
  unfold Parser.consume
  split
  · exact mono_ok_advance _ _
  · exact mono_err_self _ _

/-- `skip_newlines` is monotone. -/
theorem mono_skip_newlines :
    ∀ (fuel : Nat) (p : Parser), Mono (skip_newlines fuel p) p
  | 0, p => by intro q hq; simp [skip_newlines, PRes.state?] at hq
  | fuel+1, p => by
      simp only [skip_newlines]
      split
      · intro q hq
        have := mono_skip_newlines fuel (p.advance).2 q hq
        exact ⟨by rw [this.1, advance_tokens], le_trans (advance_current_le p) this.2⟩
      · exact mono_ok_self _ _

/-- The synchronize scan is monotone. -/
theorem mono_synchronize_loop :
    ∀ (fuel : Nat) (p : Parser), Mono (synchronize_loop fuel p) p
  | 0, p => by intro q hq; simp [synchronize_loop, PRes.state?] at hq
  | fuel+1, p => by
      simp only [synchronize_loop]
      split
      · exact mono_ok_self _ _
      · split
        · exact mono_ok_self _ _
        · split
          · exact mono_ok_self _ _
          · intro q hq
            have := mono_synchronize_loop fuel (p.advance).2 q hq
            exact ⟨by rw [this.1, advance_tokens],
              le_trans (advance_current_le p) this.2⟩

/-- `synchronize` is monotone. -/
theorem mono_synchronize (fuel : Nat) (p : Parser) :
    Mono (synchronize fuel p) p := by
  unfold synchronize
  intro q hq
  have := mono_synchronize_loop fuel (p.advance).2 q hq
  exact ⟨by rw [this.1, advance_tokens], le_trans (advance_current_le p) this.2⟩

/-- Weaken a guarantee through an earlier monotone step. -/
theorem Mono.trans_state {α : Type} {r : PRes α} {p m : Parser}
    (h : Mono r m) (hm : m.tokens = p.tokens ∧ p.current ≤ m.current) :
    Mono r p := by
  intro q hq
  have := h q hq
  exact ⟨by rw [this.1, hm.1], le_trans hm.2 this.2⟩

/-- Weaken a guarantee over one `advance`. -/
theorem Mono.over_advance {α : Type} {p : Parser} {r : PRes α}
    (h : Mono r (p.advance).2) : Mono r p :=
  Mono.trans_state h ⟨advance_tokens p, advance_current_le p⟩

/-- Unfolding equation for `parse_statement` at positive fuel, through
the named dispatch. -/
theorem parse_statement_succ (fuel : Nat) (p : Parser) :
    parse_statement (fuel+1) p =
      match parse_statement_dispatch fuel p with
      | .ok s p1 => .ok (some s) p1
      | .err _e q => (synchronize fuel q).bind fun _ q1 => .ok none q1
      | .out => .out := rfl

/-- The catch-and-synchronize wrapper preserves the parser-method
guarantee. -/
theorem mono_catch {r : PRes Stmt} {p : Parser} (hr : Mono r p) (fuel : Nat) :
    Mono (match r with
          | .ok s p1 => (.ok (some s) p1 : PRes (Option Stmt))
          | .err _e q => (synchronize fuel q).bind fun _ q1 => .ok none q1
          | .out => .out) p := by
  cases r with
  | ok s p1 =>
      intro q hq
      simp only [PRes.state?, Option.some_inj] at hq
      subst hq
      exact hr p1 rfl
  | err e m =>
      have h1 : Mono ((synchronize fuel m).bind fun _ q1 =>
          (.ok none q1 : PRes (Option Stmt))) m :=
        Mono.bind_mono (mono_synchronize fuel m) (fun _ q1 _ => mono_ok_self _ _)
      exact Mono.trans_state h1 (hr m rfl)
  | out => intro q hq; simp [PRes.state?] at hq

mutual

/-- The program-statement loop is monotone. -/
theorem mono_parse_program_loop :
    ∀ (fuel : Nat) (p : Parser), Mono (parse_program_loop fuel p) p
  | 0, p => by intro q hq; simp [parse_program_loop, PRes.state?] at hq
  | fuel+1, p => by
      simp only [parse_program_loop]
      split
      · exact mono_ok_self _ _
      · exact Mono.bind_mono (mono_parse_statement fuel p) (fun _ q _ =>
          Mono.bind_mono (mono_skip_newlines fuel q) (fun _ q2 _ =>
            Mono.bind_mono (mono_parse_program_loop fuel q2) (fun _ q3 _ =>
              mono_ok_self _ _)))

/-- `parse_statement` is monotone. -/
theorem mono_parse_statement :
    ∀ (fuel : Nat) (p : Parser), Mono (parse_statement fuel p) p
  | 0, p => by intro q hq; simp [parse_statement, PRes.state?] at hq
  | fuel+1, p => by
      rw [parse_statement_succ]
      exact mono_catch (mono_parse_statement_dispatch fuel p) fuel

/-- The statement dispatch is monotone. -/
theorem mono_parse_statement_dispatch (fuel : Nat) (p : Parser) :
    Mono (parse_statement_dispatch fuel p) p := by
  unfold parse_statement_dispatch
  split
  · exact mono_parse_function_declaration fuel p
  · split
    · exact mono_parse_if_statement fuel p
    · split
      · exact mono_parse_while_statement fuel p
      · split
        · exact mono_parse_return_statement fuel p
        · split
          · exact mono_parse_block_statement fuel p
          · exact mono_parse_expression_statement fuel p

/-- `parse_function_declaration` is monotone. -/
theorem mono_parse_function_declaration :
    ∀ (fuel : Nat) (p : Parser), Mono (parse_function_declaration fuel p) p
  | 0, p => by intro q hq; simp [parse_function_declaration, PRes.state?] at hq
  | fuel+1, p => by
      simp only [parse_function_declaration]
      refine Mono.bind_mono (mono_consume _ _ _) (fun _ p1 _ => ?_)
      refine Mono.bind_mono (mono_consume _ _ _) (fun _ p2 _ => ?_)
      refine Mono.bind_mono (mono_consume _ _ _) (fun _ p3 _ => ?_)
      refine Mono.bind_mono ?_ (fun _ p5 _ => ?_)
      · split
        · exact mono_ok_self _ _
        · exact Mono.bind_mono (mono_consume _ _ _) (fun _ p4 _ =>
            mono_parse_params_loop fuel _ p4)
      · refine Mono.bind_mono (mono_consume _ _ _) (fun _ p6 _ => ?_)
        exact Mono.bind_mono (mono_parse_block_statement fuel p6)
          (fun _ p7 _ => mono_ok_self _ _)

/-- The parameter loop is monotone. -/
theorem mono_parse_params_loop :
    ∀ (fuel : Nat) (acc : List String) (p : Parser),
      Mono (parse_params_loop fuel acc p) p
  | 0, _, p => by intro q hq; simp [parse_params_loop, PRes.state?] at hq
  | fuel+1, acc, p => by
      simp only [parse_params_loop]
      split
      · refine Mono.over_advance ?_
        exact Mono.bind_mono (mono_consume _ _ _) (fun _ p2 _ =>
          mono_parse_params_loop fuel _ p2)
      · exact mono_ok_self _ _

/-- `parse_if_statement` is monotone. -/
theorem mono_parse_if_statement :
    ∀ (fuel : Nat) (p : Parser), Mono (parse_if_statement fuel p) p
  | 0, p => by intro q hq; simp [parse_if_statement, PRes.state?] at hq
  | fuel+1, p => by
      simp only [parse_if_statement]
      refine Mono.bind_mono (mono_consume _ _ _) (fun _ p1 _ => ?_)
      refine Mono.bind_mono (mono_consume _ _ _) (fun _ p2 _ => ?_)
      refine Mono.bind_mono (mono_parse_expression fuel p2) (fun _ p3 _ => ?_)
      refine Mono.bind_mono (mono_consume _ _ _) (fun _ p4 _ => ?_)
      refine Mono.bind_mono (mono_parse_statement fuel p4) (fun thenOpt p5 _ => ?_)
      split
      · exact mono_err_self _ _
      · split
        · refine Mono.over_advance ?_
          exact Mono.bind_mono (mono_parse_statement fuel (p5.advance).2)
            (fun _ p7 _ => mono_ok_self _ _)
        · exact mono_ok_self _ _

/-- `parse_while_statement` is monotone. -/
theorem mono_parse_while_statement :
    ∀ (fuel : Nat) (p : Parser), Mono (parse_while_statement fuel p) p
  | 0, p => by intro q hq; simp [parse_while_statement, PRes.state?] at hq
  | fuel+1, p => by
      simp only [parse_while_statement]
      refine Mono.bind_mono (mono_consume _ _ _) (fun _ p1 _ => ?_)
      refine Mono.bind_mono (mono_consume _ _ _) (fun _ p2 _ => ?_)
      refine Mono.bind_mono (mono_parse_expression fuel p2) (fun _ p3 _ => ?_)
      refine Mono.bind_mono (mono_consume _ _ _) (fun _ p4 _ => ?_)
      refine Mono.bind_mono (mono_parse_statement fuel p4) (fun bodyOpt p5 _ => ?_)
      split
      · exact mono_err_self _ _
      · exact mono_ok_self _ _

/-- `parse_return_statement` is monotone. -/
theorem mono_parse_return_statement :
    ∀ (fuel : Nat) (p : Parser), Mono (parse_return_statement fuel p) p
  | 0, p => by intro q hq; simp [parse_return_statement, PRes.state?] at hq
  | fuel+1, p => by
      simp only [parse_return_statement]
      refine Mono.bind_mono (mono_consume _ _ _) (fun _ p1 _ => ?_)
      refine Mono.bind_mono ?_ (fun _ p3 _ => ?_)
      · split
        · exact mono_ok_self _ _
        · exact Mono.bind_mono (mono_parse_expression fuel p1)
            (fun _ p2 _ => mono_ok_self _ _)
      · exact Mono.bind_mono (mono_consume _ _ _) (fun _ p4 _ => mono_ok_self _ _)

/-- `parse_block_statement` is monotone. -/
theorem mono_parse_block_statement :
    ∀ (fuel : Nat) (p : Parser), Mono (parse_block_statement fuel p) p
  | 0, p => by intro q hq; simp [parse_block_statement, PRes.state?] at hq
  | fuel+1, p => by
      simp only [parse_block_statement]
      refine Mono.bind_mono (mono_consume _ _ _) (fun _ p1 _ => ?_)
      refine Mono.bind_mono (mono_skip_newlines fuel p1) (fun _ p2 _ => ?_)
      refine Mono.bind_mono (mono_parse_block_loop fuel p2) (fun _ p3 _ => ?_)
      exact Mono.bind_mono (mono_consume _ _ _) (fun _ p4 _ => mono_ok_self _ _)

/-- The block-statement loop is monotone. -/
theorem mono_parse_block_loop :
    ∀ (fuel : Nat) (p : Parser), Mono (parse_block_loop fuel p) p
  | 0, p => by intro q hq; simp [parse_block_loop, PRes.state?] at hq
  | fuel+1, p => by
      simp only [parse_block_loop]
      split
      · exact mono_ok_self _ _
      · exact Mono.bind_mono (mono_parse_statement fuel p) (fun _ q _ =>
          Mono.bind_mono (mono_skip_newlines fuel q) (fun _ q2 _ =>
            Mono.bind_mono (mono_parse_block_loop fuel q2) (fun _ q3 _ =>
              mono_ok_self _ _)))

/-- `parse_expression_statement` is monotone. -/
theorem mono_parse_expression_statement :
    ∀ (fuel : Nat) (p : Parser), Mono (parse_expression_statement fuel p) p
  | 0, p => by intro q hq; simp [parse_expression_statement, PRes.state?] at hq
  | fuel+1, p => by
      simp only [parse_expression_statement]
      refine Mono.bind_mono (mono_parse_expression fuel p) (fun _ p1 _ => ?_)
      exact Mono.bind_mono (mono_consume _ _ _) (fun _ p2 _ => mono_ok_self _ _)

/-- `parse_expression` is monotone. -/
theorem mono_parse_expression :
    ∀ (fuel : Nat) (p : Parser), Mono (parse_expression fuel p) p
  | 0, p => by intro q hq; simp [parse_expression, PRes.state?] at hq
  | fuel+1, p => by
      simp only [parse_expression]
      exact mono_parse_assignment fuel p

/-- `parse_assignment` is monotone. -/
theorem mono_parse_assignment :
    ∀ (fuel : Nat) (p : Parser), Mono (parse_assignment fuel p) p
  | 0, p => by intro q hq; simp [parse_assignment, PRes.state?] at hq
  | fuel+1, p => by
      simp only [parse_assignment]
      refine Mono.bind_mono (mono_parse_bin fuel .logical_or p) (fun _ p1 _ => ?_)
      split
      · refine Mono.over_advance ?_
        exact Mono.bind_mono (mono_parse_assignment fuel (p1.advance).2)
          (fun _ p3 _ => mono_ok_self _ _)
      · exact mono_ok_self _ _

/-- `parse_binary_left` (entry) is monotone. -/
theorem mono_parse_bin :
    ∀ (fuel : Nat) (lvl : BinLevel) (p : Parser), Mono (parse_bin fuel lvl p) p
  | 0, _, p => by intro q hq; simp [parse_bin, PRes.state?] at hq
  | fuel+1, lvl, p => by
      simp only [parse_bin]
      refine Mono.bind_mono ?_ (fun e p1 _ => mono_parse_bin_loop fuel lvl e p1)
      cases lvl.next? with
      | some nxt => exact mono_parse_bin fuel nxt p
      | none => exact mono_parse_unary fuel p

/-- `parse_binary_left` (operator loop) is monotone. -/
theorem mono_parse_bin_loop :
    ∀ (fuel : Nat) (lvl : BinLevel) (e : Expr) (p : Parser),
      Mono (parse_bin_loop fuel lvl e p) p
  | 0, _, _, p => by intro q hq; simp [parse_bin_loop, PRes.state?] at hq
  | fuel+1, lvl, e, p => by
      simp only [parse_bin_loop]
      split
      · refine Mono.over_advance ?_
        refine Mono.bind_mono ?_ (fun r p2 _ => mono_parse_bin_loop fuel lvl _ p2)
        cases lvl.next? with
        | some nxt => exact mono_parse_bin fuel nxt (p.advance).2
        | none => exact mono_parse_unary fuel (p.advance).2
      · exact mono_ok_self _ _

/-- `parse_unary` is monotone. -/
theorem mono_parse_unary :
    ∀ (fuel : Nat) (p : Parser), Mono (parse_unary fuel p) p
  | 0, p => by intro q hq; simp [parse_unary, PRes.state?] at hq
  | fuel+1, p => by
      simp only [parse_unary]
      split
      · refine Mono.over_advance ?_
        exact Mono.bind_mono (mono_parse_unary fuel (p.advance).2)
          (fun _ p2 _ => mono_ok_self _ _)
      · exact mono_parse_call fuel p

/-- `parse_call` (entry) is monotone. -/
theorem mono_parse_call :
    ∀ (fuel : Nat) (p : Parser), Mono (parse_call fuel p) p
  | 0, p => by intro q hq; simp [parse_call, PRes.state?] at hq
  | fuel+1, p => by
      simp only [parse_call]
      exact Mono.bind_mono (mono_parse_primary fuel p)
        (fun e p1 _ => mono_parse_call_loop fuel e p1)

/-- The call-suffix loop is monotone. -/
theorem mono_parse_call_loop :
    ∀ (fuel : Nat) (e : Expr) (p : Parser), Mono (parse_call_loop fuel e p) p
  | 0, _, p => by intro q hq; simp [parse_call_loop, PRes.state?] at hq
  | fuel+1, e, p => by
      simp only [parse_call_loop]
      split
      · exact Mono.bind_mono (mono_finish_call fuel e p)
          (fun e1 p1 _ => mono_parse_call_loop fuel e1 p1)
      · exact mono_ok_self _ _

/-- `finish_call` is monotone. -/
theorem mono_finish_call :
    ∀ (fuel : Nat) (e : Expr) (p : Parser), Mono (finish_call fuel e p) p
  | 0, _, p => by intro q hq; simp [finish_call, PRes.state?] at hq
  | fuel+1, callee, p => by
      simp only [finish_call]
      refine Mono.bind_mono (mono_consume _ _ _) (fun _ p1 _ => ?_)
      refine Mono.bind_mono ?_ (fun _ p3 _ => ?_)
      · split
        · exact mono_ok_self _ _
        · exact Mono.bind_mono (mono_parse_expression fuel p1)
            (fun a p2 _ => mono_parse_args_loop fuel _ p2)
      · exact Mono.bind_mono (mono_consume _ _ _) (fun _ p4 _ => mono_ok_self _ _)

/-- The argument loop is monotone. -/
theorem mono_parse_args_loop :
    ∀ (fuel : Nat) (acc : List Expr) (p : Parser),
      Mono (parse_args_loop fuel acc p) p
  | 0, _, p => by intro q hq; simp [parse_args_loop, PRes.state?] at hq
  | fuel+1, acc, p => by
      simp only [parse_args_loop]
      split
      · refine Mono.over_advance ?_
        exact Mono.bind_mono (mono_parse_expression fuel (p.advance).2)
          (fun a p2 _ => mono_parse_args_loop fuel _ p2)
      · exact mono_ok_self _ _

/-- `parse_primary` is monotone. -/
theorem mono_parse_primary :
    ∀ (fuel : Nat) (p : Parser), Mono (parse_primary fuel p) p
  | 0, p => by intro q hq; simp [parse_primary, PRes.state?] at hq
  | fuel+1, p => by
      simp only [parse_primary]
      split
      · exact mono_ok_advance _ _
      · split
        · exact mono_ok_advance _ _
        · split
          · exact mono_ok_advance _ _
          · split
            · refine Mono.over_advance ?_
              refine Mono.bind_mono (mono_parse_expression fuel (p.advance).2)
                (fun e p2 _ => ?_)
              exact Mono.bind_mono (mono_consume _ _ _)
                (fun _ p3 _ => mono_ok_self _ _)
            · exact mono_err_self _ _

end

/-- Extract the guarantee from a successful outcome. -/
theorem mono_of_ok {α : Type} {r : PRes α} {p : Parser} (hm : Mono r p)
    {a : α} {q : Parser} (h : r = .ok a q) :
    q.tokens = p.tokens ∧ p.current ≤ q.current :=
  hm q (by rw [h]; rfl)

/-- Extract the guarantee from a raising outcome. -/
theorem mono_of_err {α : Type} {r : PRes α} {p : Parser} (hm : Mono r p)
    {e : ParseError} {q : Parser} (h : r = .err e q) :
    q.tokens = p.tokens ∧ p.current ≤ q.current :=
  hm q (by rw [h]; rfl)

/-- Past the end of an EOF-terminated list, `peek` yields the EOF token. -/
theorem peek_eof_of_ge {p : Parser} (hE : EOFtoks p.tokens)
    (hge : p.tokens.length ≤ p.current) : p.peek.type = .EOF := by
  simp only [Parser.peek, if_pos hge]
  exact hE.2

/-- On an EOF-terminated list, a non-EOF current token means the cursor
is strictly inside the list. -/
theorem lt_of_peek_ne {p : Parser} (hE : EOFtoks p.tokens)
    (hne : p.peek.type ≠ .EOF) : p.current < p.tokens.length := by
  by_contra hc
  exact hne (peek_eof_of_ge hE (by omega))

/-- The token list stays EOF-terminated across any step that keeps it. -/
theorem EOFtoks.transfer {p q : Parser} (hE : EOFtoks p.tokens)
    (h : q.tokens = p.tokens) : EOFtoks q.tokens := by
  rw [h]; exact hE

/-- A successful `consume` of a non-EOF kind moves the cursor right by
exactly one, from strictly inside the list. -/
theorem consume_ok_spec {p q : Parser} {tt : TokenType} {msg : String}
    {tk : Token} (hE : EOFtoks p.tokens) (htt : tt ≠ .EOF)
    (h : p.consume tt msg = .ok tk q) :
    q.tokens = p.tokens ∧ q.current = p.current + 1 ∧
      p.current < p.tokens.length := by
  unfold Parser.consume at h
  split at h
  · rename_i hpeek
    have hlt : p.current < p.tokens.length :=
      lt_of_peek_ne hE (by rw [hpeek]; exact htt)
    simp only [Parser.advance, if_pos hlt] at h
    cases h
    exact ⟨rfl, rfl, hlt⟩
  · simp at h

/-- `consume` either returns or raises at the same state. -/
theorem consume_cases (p : Parser) (tt : TokenType) (msg : String) :
    (∃ tk q, p.consume tt msg = .ok tk q) ∨
    (∃ e, p.consume tt msg = .err e p) := by
  unfold Parser.consume
  split
  · exact .inl ⟨_, _, rfl⟩
  · exact .inr ⟨_, rfl⟩

/-- With fuel at least the remaining token count, `skip_newlines`
returns. -/
theorem skip_newlines_suff :
    ∀ (fuel : Nat) (p : Parser), EOFtoks p.tokens →
      p.tokens.length - p.current + 1 ≤ fuel →
      ∃ q, skip_newlines fuel p = .ok () q
  | 0, p, _, hb => by omega
  | fuel+1, p, hE, hb => by
      simp only [skip_newlines]
      split
      · rename_i hnl
        have hlt : p.current < p.tokens.length :=
          lt_of_peek_ne hE (by rw [hnl]; decide)
        have hadv := advance_current_lt p hlt
        exact skip_newlines_suff fuel (p.advance).2
          (hE.transfer (advance_tokens p))
          (by rw [advance_tokens, hadv]; omega)
      · exact ⟨p, rfl⟩

/-- At end of input `skip_newlines` returns at once. -/
theorem skip_newlines_at_end {p : Parser} (h : p.peek.type = .EOF)
    (fuel : Nat) : skip_newlines (fuel+1) p = .ok () p := by
  simp [skip_newlines, h]

/-- With fuel at least the remaining token count, the synchronize scan
returns, at a legitimate stopping point. -/
theorem synchronize_loop_suff :
    ∀ (fuel : Nat) (p : Parser), EOFtoks p.tokens →
      p.tokens.length - p.current + 1 ≤ fuel →
      ∃ q, synchronize_loop fuel p = .ok () q ∧ sync_stop q
  | 0, p, _, hb => by omega
  | fuel+1, p, hE, hb => by
      simp only [synchronize_loop]
      split
      · exact ⟨p, rfl, .inl ‹_›⟩
      · split
        · exact ⟨p, rfl, .inr (.inl ‹_›)⟩
        · split
          · exact ⟨p, rfl, .inr (.inr ‹_›)⟩
          · rename_i hat _ _
            have hne : p.peek.type ≠ .EOF := by
              simpa [Parser.at_end] using hat
            have hlt := lt_of_peek_ne hE hne
            have hadv := advance_current_lt p hlt
            exact synchronize_loop_suff fuel (p.advance).2
              (hE.transfer (advance_tokens p))
              (by rw [advance_tokens, hadv]; omega)

/-- Every return of the synchronize scan is at a stopping point. -/
theorem synchronize_loop_ok_stop :
    ∀ (fuel : Nat) (p : Parser) (u : Unit) (r : Parser),
      synchronize_loop fuel p = .ok u r → sync_stop r
  | 0, p, u, r => by intro h; simp [synchronize_loop] at h
  | fuel+1, p, u, r => by
      simp only [synchronize_loop]
      split
      · intro h; cases h; exact .inl ‹_›
      · split
        · intro h; cases h; exact .inr (.inl ‹_›)
        · split
          · intro h; cases h; exact .inr (.inr ‹_›)
          · exact synchronize_loop_ok_stop fuel (p.advance).2 u r

/-- Every return of `synchronize` is at a stopping point. -/
theorem synchronize_ok_stop (fuel : Nat) (p : Parser) (u : Unit) (r : Parser)
    (h : synchronize fuel p = .ok u r) : sync_stop r :=
  synchronize_loop_ok_stop fuel (p.advance).2 u r h

/-- `skip_newlines` never raises. -/
theorem skip_newlines_ne_err :
    ∀ (fuel : Nat) (p : Parser) (e : ParseError) (q : Parser),
      skip_newlines fuel p ≠ .err e q
  | 0, p, e, q => by simp [skip_newlines]
  | fuel+1, p, e, q => by
      simp only [skip_newlines]
      split
      · exact skip_newlines_ne_err fuel _ e q
      · simp

/-- The synchronize scan never raises. -/
theorem synchronize_loop_ne_err :
    ∀ (fuel : Nat) (p : Parser) (e : ParseError) (q : Parser),
      synchronize_loop fuel p ≠ .err e q
  | 0, p, e, q => by simp [synchronize_loop]
  | fuel+1, p, e, q => by
      simp only [synchronize_loop]
      split
      · simp
      · split
        · simp
        · split
          · simp
          · exact synchronize_loop_ne_err fuel _ e q

/-- `synchronize` never raises. -/
theorem synchronize_ne_err (fuel : Nat) (p : Parser) (e : ParseError)
    (q : Parser) : synchronize fuel p ≠ .err e q :=
  synchronize_loop_ne_err fuel (p.advance).2 e q

/-- `parse_statement` never raises: the dispatch error is caught. -/
theorem parse_statement_ne_err (fuel : Nat) (p : Parser) (e : ParseError)
    (q : Parser) : parse_statement fuel p ≠ .err e q := by
  cases fuel with
  | zero => simp [parse_statement]
  | succ f =>
      rw [parse_statement_succ]
      rcases hd : parse_statement_dispatch f p with ⟨s, p1⟩ | ⟨e0, m⟩ | _
      · simp
      · rcases hs : synchronize f m with ⟨u, r⟩ | ⟨e1, r⟩ | _
        · simp [hs, PRes.bind]
        · exact absurd hs (synchronize_ne_err f m e1 r)
        · simp [hs, PRes.bind]
      · simp

/-- The program-statement loop never raises. -/
theorem parse_program_loop_ne_err :
    ∀ (fuel : Nat) (p : Parser) (e : ParseError) (q : Parser),
      parse_program_loop fuel p ≠ .err e q
  | 0, p, e, q => by simp [parse_program_loop]
  | fuel+1, p, e, q => by
      simp only [parse_program_loop]
      split
      · simp
      · rcases h1 : parse_statement fuel p with ⟨o, p1⟩ | ⟨e1, p1⟩ | _
        · rcases h2 : skip_newlines fuel p1 with ⟨u, p2⟩ | ⟨e2, p2⟩ | _
          · rcases h3 : parse_program_loop fuel p2 with ⟨l, p3⟩ | ⟨e3, p3⟩ | _
            · simp [h1, h2, h3, PRes.bind]
            · exact absurd h3 (parse_program_loop_ne_err fuel p2 e3 p3)
            · simp [h1, h2, h3, PRes.bind]
          · exact absurd h2 (skip_newlines_ne_err fuel p1 e2 p2)
          · simp [h1, h2, PRes.bind]
        · exact absurd h1 (parse_statement_ne_err fuel p e1 p1)
        · simp [h1, PRes.bind]

/-- `parse` never raises: no `ParseError` escapes to the caller. -/
theorem parse_ne_err (fuel : Nat) (p : Parser) (e : ParseError)
    (q : Parser) : parse fuel p ≠ .err e q := by
  unfold parse
  rcases h1 : skip_newlines fuel p with ⟨u, p1⟩ | ⟨e1, p1⟩ | _
  · rcases h2 : parse_program_loop fuel p1 with ⟨l, p2⟩ | ⟨e2, p2⟩ | _
    · simp [h1, h2, PRes.bind]
    · exact absurd h2 (parse_program_loop_ne_err fuel p1 e2 p2)
    · simp [h1, h2, PRes.bind]
  · exact absurd h1 (skip_newlines_ne_err fuel p e1 p1)
  · simp [h1, PRes.bind]

/-- EOF is not an operator of any precedence level. -/
theorem eof_not_in_ops : ∀ lvl : BinLevel, TokenType.EOF ∉ lvl.ops := by
  intro lvl; cases lvl <;> decide

/-- A level with no next level is `multiplication`, of rank 0. -/
theorem rank_of_next_none : ∀ lvl : BinLevel, lvl.next? = none → lvl.rank = 0 := by
  intro lvl h
  cases lvl <;> first | rfl | simp [BinLevel.next?] at h

/-- Stepping to the next level decreases the rank by one. -/
theorem rank_of_next_some :
    ∀ lvl nxt : BinLevel, lvl.next? = some nxt → nxt.rank + 1 = lvl.rank := by
  intro lvl nxt h
  cases lvl <;> simp [BinLevel.next?] at h <;> subst h <;> decide

mutual

/-- `parse_primary` returns or raises under linear fuel; success consumes
at least one token. -/
theorem suff_parse_primary :
    ∀ (fuel : Nat) (p : Parser), EOFtoks p.tokens →
      40 * (p.tokens.length - p.current) + 4 ≤ fuel →
      (∃ a q, parse_primary fuel p = .ok a q ∧ p.current < q.current ∧
        p.current < p.tokens.length) ∨
      (∃ e q, parse_primary fuel p = .err e q)
  | 0, p, _, hb => by omega
  | fuel+1, p, hE, hb => by
      simp only [parse_primary]
      split
      · rename_i hmem
        have hne : p.peek.type ≠ .EOF := by
          intro hc; rw [hc] at hmem; exact absurd hmem (by decide)
        have hlt := lt_of_peek_ne hE hne
        refine .inl ⟨_, _, rfl, ?_, hlt⟩
        rw [advance_current_lt p hlt]; omega
      · split
        · rename_i hmem
          have hne : p.peek.type ≠ .EOF := by
            intro hc; rw [hc] at hmem; exact absurd hmem (by decide)
          have hlt := lt_of_peek_ne hE hne
          refine .inl ⟨_, _, rfl, ?_, hlt⟩
          rw [advance_current_lt p hlt]; omega
        · split
          · rename_i hid
            have hne : p.peek.type ≠ .EOF := by rw [hid]; decide
            have hlt := lt_of_peek_ne hE hne
            refine .inl ⟨_, _, rfl, ?_, hlt⟩
            rw [advance_current_lt p hlt]; omega
          · split
            · rename_i hlp
              have hne : p.peek.type ≠ .EOF := by rw [hlp]; decide
              have hlt := lt_of_peek_ne hE hne
              have hadv := advance_current_lt p hlt
              have hEa : EOFtoks ((p.advance).2).tokens :=
                hE.transfer (advance_tokens p)
              rcases suff_parse_expression fuel (p.advance).2 hEa
                  (by rw [advance_tokens, hadv]; omega) with
                ⟨e, p2, hok, hlt2, _⟩ | ⟨er, q, herr⟩
              · simp only [hok, PRes.bind]
                have hm := mono_of_ok (mono_parse_expression fuel (p.advance).2) hok
                rcases consume_cases p2 .RIGHT_PAREN "期望 ')'" with
                  ⟨tk, p3, hc⟩ | ⟨er, hc⟩
                · simp only [hc, PRes.bind]
                  have hs := consume_ok_spec (hEa.transfer hm.1) (by decide) hc
                  refine .inl ⟨e, p3, rfl, ?_, hlt⟩
                  omega
                · simp only [hc, PRes.bind]
                  exact .inr ⟨_, _, rfl⟩
              · simp only [herr, PRes.bind]
                exact .inr ⟨_, _, rfl⟩
            · exact .inr ⟨_, _, rfl⟩

/-- `finish_call` returns or raises under linear fuel. -/
theorem suff_finish_call :
    ∀ (fuel : Nat) (callee : Expr) (p : Parser), EOFtoks p.tokens →
      40 * (p.tokens.length - p.current) + 4 ≤ fuel →
      (∃ a q, finish_call fuel callee p = .ok a q ∧ p.current < q.current ∧
        p.current < p.tokens.length) ∨
      (∃ e q, finish_call fuel callee p = .err e q)
  | 0, _, p, _, hb => by omega
  | fuel+1, callee, p, hE, hb => by
      simp only [finish_call]
      rcases consume_cases p .LEFT_PAREN "期望 '('" with ⟨tk, p1, hc1⟩ | ⟨er, hc1⟩
      · simp only [hc1, PRes.bind]
        have hs1 := consume_ok_spec hE (by decide) hc1
        have hE1 := hE.transfer hs1.1
        by_cases hrp : p1.peek.type = .RIGHT_PAREN
        · simp only [if_pos hrp, PRes.bind]
          rcases consume_cases p1 .RIGHT_PAREN "期望 ')'" with
            ⟨tk2, p4, hc2⟩ | ⟨er, hc2⟩
          · simp only [hc2, PRes.bind]
            have hs2 := consume_ok_spec hE1 (by decide) hc2
            refine .inl ⟨_, _, rfl, ?_, hs1.2.2⟩
            omega
          · simp only [hc2, PRes.bind]
            exact .inr ⟨_, _, rfl⟩
        · simp only [if_neg hrp]
          rcases suff_parse_expression fuel p1 hE1
              (by rw [hs1.1]; omega) with ⟨a, p2, hok, hlt2, _⟩ | ⟨er, q, herr⟩
          · simp only [hok, PRes.bind]
            have hm2 := mono_of_ok (mono_parse_expression fuel p1) hok
            have hE2 := hE1.transfer hm2.1
            rcases suff_parse_args_loop fuel [a] p2 hE2
                (by rw [hm2.1, hs1.1]; omega) with ⟨args, p3, hok3⟩ | ⟨er, q, herr3⟩
            · simp only [hok3, PRes.bind]
              have hm3 := mono_of_ok (mono_parse_args_loop fuel [a] p2) hok3
              have hE3 := hE2.transfer hm3.1
              rcases consume_cases p3 .RIGHT_PAREN "期望 ')'" with
                ⟨tk2, p4, hc2⟩ | ⟨er, hc2⟩
              · simp only [hc2, PRes.bind]
                have hs2 := consume_ok_spec hE3 (by decide) hc2
                refine .inl ⟨_, _, rfl, ?_, hs1.2.2⟩
                omega
              · simp only [hc2, PRes.bind]
                exact .inr ⟨_, _, rfl⟩
            · simp only [herr3, PRes.bind]
              exact .inr ⟨_, _, rfl⟩
          · simp only [herr, PRes.bind]
            exact .inr ⟨_, _, rfl⟩
      · simp only [hc1, PRes.bind]
        exact .inr ⟨_, _, rfl⟩

/-- The argument loop returns or raises under linear fuel. -/
theorem suff_parse_args_loop :
    ∀ (fuel : Nat) (acc : List Expr) (p : Parser), EOFtoks p.tokens →
      40 * (p.tokens.length - p.current) + 5 ≤ fuel →
      (∃ a q, parse_args_loop fuel acc p = .ok a q) ∨
      (∃ e q, parse_args_loop fuel acc p = .err e q)
  | 0, _, p, _, hb => by omega
  | fuel+1, acc, p, hE, hb => by
      simp only [parse_args_loop]
      split
      · rename_i hcm
        have hne : p.peek.type ≠ .EOF := by rw [hcm]; decide
        have hlt := lt_of_peek_ne hE hne
        have hadv := advance_current_lt p hlt
        have hEa := hE.transfer (advance_tokens p)
        rcases suff_parse_expression fuel (p.advance).2 hEa
            (by rw [advance_tokens, hadv]; omega) with
          ⟨a, p2, hok, hlt2, _⟩ | ⟨er, q, herr⟩
        · simp only [hok, PRes.bind]
          have hm := mono_of_ok (mono_parse_expression fuel (p.advance).2) hok
          exact suff_parse_args_loop fuel (acc ++ [a]) p2 (hEa.transfer hm.1)
            (by rw [hm.1, advance_tokens]; omega)
        · simp only [herr, PRes.bind]
          exact .inr ⟨_, _, rfl⟩
      · exact .inl ⟨_, _, rfl⟩

/-- The call-suffix loop returns or raises under linear fuel. -/
theorem suff_parse_call_loop :
    ∀ (fuel : Nat) (e : Expr) (p : Parser), EOFtoks p.tokens →
      40 * (p.tokens.length - p.current) + 5 ≤ fuel →
      (∃ a q, parse_call_loop fuel e p = .ok a q) ∨
      (∃ er q, parse_call_loop fuel e p = .err er q)
  | 0, _, p, _, hb => by omega
  | fuel+1, e, p, hE, hb => by
      simp only [parse_call_loop]
      split
      · rename_i hlp
        have hne : p.peek.type ≠ .EOF := by rw [hlp]; decide
        have hlt := lt_of_peek_ne hE hne
        rcases suff_finish_call fuel e p hE (by omega) with
          ⟨e1, p1, hok, hlt1, _⟩ | ⟨er, q, herr⟩
        · simp only [hok, PRes.bind]
          have hm := mono_of_ok (mono_finish_call fuel e p) hok
          exact suff_parse_call_loop fuel e1 p1 (hE.transfer hm.1)
            (by rw [hm.1]; omega)
        · simp only [herr, PRes.bind]
          exact .inr ⟨_, _, rfl⟩
      · exact .inl ⟨_, _, rfl⟩

/-- `parse_call` returns or raises under linear fuel; success consumes at
least one token. -/
theorem suff_parse_call :
    ∀ (fuel : Nat) (p : Parser), EOFtoks p.tokens →
      40 * (p.tokens.length - p.current) + 6 ≤ fuel →
      (∃ a q, parse_call fuel p = .ok a q ∧ p.current < q.current ∧
        p.current < p.tokens.length) ∨
      (∃ e q, parse_call fuel p = .err e q)
  | 0, p, _, hb => by omega
  | fuel+1, p, hE, hb => by
      simp only [parse_call]
      rcases suff_parse_primary fuel p hE (by omega) with
        ⟨e, p1, hok1, hlt1, hin1⟩ | ⟨er, q, herr⟩
      · simp only [hok1, PRes.bind]
        have hm1 := mono_of_ok (mono_parse_primary fuel p) hok1
        rcases suff_parse_call_loop fuel e p1 (hE.transfer hm1.1)
            (by rw [hm1.1]; omega) with ⟨a, q, hok2⟩ | ⟨er, q, herr2⟩
        · simp only [hok2]
          have hm2 := mono_of_ok (mono_parse_call_loop fuel e p1) hok2
          refine .inl ⟨a, q, rfl, ?_, hin1⟩
          omega
        · simp only [herr2]
          exact .inr ⟨_, _, rfl⟩
      · simp only [herr, PRes.bind]
        exact .inr ⟨_, _, rfl⟩

/-- `parse_unary` returns or raises under linear fuel; success consumes
at least one token. -/
theorem suff_parse_unary :
    ∀ (fuel : Nat) (p : Parser), EOFtoks p.tokens →
      40 * (p.tokens.length - p.current) + 7 ≤ fuel →
      (∃ a q, parse_unary fuel p = .ok a q ∧ p.current < q.current ∧
        p.current < p.tokens.length) ∨
      (∃ e q, parse_unary fuel p = .err e q)
  | 0, p, _, hb => by omega
  | fuel+1, p, hE, hb => by
      simp only [parse_unary]
      split
      · rename_i hmem
        have hne : p.peek.type ≠ .EOF := by
          intro hc; rw [hc] at hmem; exact absurd hmem (by decide)
        have hlt := lt_of_peek_ne hE hne
        have hadv := advance_current_lt p hlt
        rcases suff_parse_unary fuel (p.advance).2 (hE.transfer (advance_tokens p))
            (by rw [advance_tokens, hadv]; omega) with
          ⟨r, p2, hok, hlt2, _⟩ | ⟨er, q, herr⟩
        · simp only [hok, PRes.bind]
          refine .inl ⟨_, _, rfl, ?_, hlt⟩
          omega
        · simp only [herr, PRes.bind]
          exact .inr ⟨_, _, rfl⟩
      · exact suff_parse_call fuel p hE (by omega)

/-- `parse_binary_left` (entry) returns or raises under linear fuel;
success consumes at least one token. -/
theorem suff_parse_bin :
    ∀ (fuel : Nat) (lvl : BinLevel) (p : Parser), EOFtoks p.tokens →
      40 * (p.tokens.length - p.current) + 8 + lvl.rank ≤ fuel →
      (∃ a q, parse_bin fuel lvl p = .ok a q ∧ p.current < q.current ∧
        p.current < p.tokens.length) ∨
      (∃ e q, parse_bin fuel lvl p = .err e q)
  | 0, _, p, _, hb => by omega
  | fuel+1, lvl, p, hE, hb => by
      simp only [parse_bin]
      rcases hn : lvl.next? with _ | nxt
      · have hr0 := rank_of_next_none lvl hn
        rw [hr0] at hb
        simp only [hn]
        rcases suff_parse_unary fuel p hE (by omega) with
          ⟨e, p1, hok, hlt1, hin1⟩ | ⟨er, q, herr⟩
        · simp only [hok, PRes.bind]
          have hm := mono_of_ok (mono_parse_unary fuel p) hok
          rcases suff_parse_bin_loop fuel lvl e p1 (hE.transfer hm.1)
              (by rw [hm.1, hr0]; omega) with ⟨a, q, hok2⟩ | ⟨er, q, herr2⟩
          · simp only [hok2]
            have hm2 := mono_of_ok (mono_parse_bin_loop fuel lvl e p1) hok2
            refine .inl ⟨a, q, rfl, ?_, hin1⟩
            omega
          · simp only [herr2]
            exact .inr ⟨_, _, rfl⟩
        · simp only [herr, PRes.bind]
          exact .inr ⟨_, _, rfl⟩
      · have hrk := rank_of_next_some lvl nxt hn
        simp only [hn]
        rcases suff_parse_bin fuel nxt p hE (by omega) with
          ⟨e, p1, hok, hlt1, hin1⟩ | ⟨er, q, herr⟩
        · simp only [hok, PRes.bind]
          have hm := mono_of_ok (mono_parse_bin fuel nxt p) hok
          rcases suff_parse_bin_loop fuel lvl e p1 (hE.transfer hm.1)
              (by rw [hm.1]; omega) with ⟨a, q, hok2⟩ | ⟨er, q, herr2⟩
          · simp only [hok2]
            have hm2 := mono_of_ok (mono_parse_bin_loop fuel lvl e p1) hok2
            refine .inl ⟨a, q, rfl, ?_, hin1⟩
            omega
          · simp only [herr2]
            exact .inr ⟨_, _, rfl⟩
        · simp only [herr, PRes.bind]
          exact .inr ⟨_, _, rfl⟩

/-- The binary-operator loop returns or raises under linear fuel. -/
theorem suff_parse_bin_loop :
    ∀ (fuel : Nat) (lvl : BinLevel) (e : Expr) (p : Parser), EOFtoks p.tokens →
      40 * (p.tokens.length - p.current) + 8 + lvl.rank ≤ fuel →
      (∃ a q, parse_bin_loop fuel lvl e p = .ok a q) ∨
      (∃ er q, parse_bin_loop fuel lvl e p = .err er q)
  | 0, _, _, p, _, hb => by omega
  | fuel+1, lvl, e, p, hE, hb => by
      simp only [parse_bin_loop]
      split
      · rename_i hmem
        have hne : p.peek.type ≠ .EOF := by
          intro hc; rw [hc] at hmem; exact eof_not_in_ops lvl hmem
        have hlt := lt_of_peek_ne hE hne
        have hadv := advance_current_lt p hlt
        have hEa := hE.transfer (advance_tokens p)
        rcases hn : lvl.next? with _ | nxt
        · have hr0 := rank_of_next_none lvl hn
          rw [hr0] at hb
          simp only [hn]
          rcases suff_parse_unary fuel (p.advance).2 hEa
              (by rw [advance_tokens, hadv]; omega) with
            ⟨r, p2, hok, hlt2, _⟩ | ⟨er, q, herr⟩
          · simp only [hok, PRes.bind]
            have hm := mono_of_ok (mono_parse_unary fuel (p.advance).2) hok
            exact suff_parse_bin_loop fuel lvl _ p2 (hEa.transfer hm.1)
              (by rw [hm.1, advance_tokens, hr0]; omega)
          · simp only [herr, PRes.bind]
            exact .inr ⟨_, _, rfl⟩
        · have hrk := rank_of_next_some lvl nxt hn
          simp only [hn]
          rcases suff_parse_bin fuel nxt (p.advance).2 hEa
              (by rw [advance_tokens, hadv]; omega) with
            ⟨r, p2, hok, hlt2, _⟩ | ⟨er, q, herr⟩
          · simp only [hok, PRes.bind]
            have hm := mono_of_ok (mono_parse_bin fuel nxt (p.advance).2) hok
            exact suff_parse_bin_loop fuel lvl _ p2 (hEa.transfer hm.1)
              (by rw [hm.1, advance_tokens]; omega)
          · simp only [herr, PRes.bind]
            exact .inr ⟨_, _, rfl⟩
      · exact .inl ⟨_, _, rfl⟩

/-- `parse_assignment` returns or raises under linear fuel; success
consumes at least one token. -/
theorem suff_parse_assignment :
    ∀ (fuel : Nat) (p : Parser), EOFtoks p.tokens →
      40 * (p.tokens.length - p.current) + 15 ≤ fuel →
      (∃ a q, parse_assignment fuel p = .ok a q ∧ p.current < q.current ∧
        p.current < p.tokens.length) ∨
      (∃ e q, parse_assignment fuel p = .err e q)
  | 0, p, _, hb => by omega
  | fuel+1, p, hE, hb => by
      simp only [parse_assignment]
      rcases suff_parse_bin fuel .logical_or p hE
          (by simp only [BinLevel.rank]; omega) with
        ⟨e, p1, hok, hlt1, hin1⟩ | ⟨er, q, herr⟩
      · simp only [hok, PRes.bind]
        have hm := mono_of_ok (mono_parse_bin fuel .logical_or p) hok
        have hE1 := hE.transfer hm.1
        split
        · rename_i has
          have hne : p1.peek.type ≠ .EOF := by rw [has]; decide
          have hlt1' := lt_of_peek_ne hE1 hne
          have hadv := advance_current_lt p1 hlt1'
          rcases suff_parse_assignment fuel (p1.advance).2
              (hE1.transfer (advance_tokens p1))
              (by rw [advance_tokens, hadv, hm.1]; omega) with
            ⟨v, p3, hok2, hlt2, _⟩ | ⟨er, q, herr2⟩
          · simp only [hok2, PRes.bind]
            refine .inl ⟨_, _, rfl, ?_, hin1⟩
            omega
          · simp only [herr2, PRes.bind]
            exact .inr ⟨_, _, rfl⟩
        · exact .inl ⟨e, p1, rfl, hlt1, hin1⟩
      · simp only [herr, PRes.bind]
        exact .inr ⟨_, _, rfl⟩

/-- `parse_expression` returns or raises under linear fuel; success
consumes at least one token. -/
theorem suff_parse_expression :
    ∀ (fuel : Nat) (p : Parser), EOFtoks p.tokens →
      40 * (p.tokens.length - p.current) + 16 ≤ fuel →
      (∃ a q, parse_expression fuel p = .ok a q ∧ p.current < q.current ∧
        p.current < p.tokens.length) ∨
      (∃ e q, parse_expression fuel p = .err e q)
  | 0, p, _, hb => by omega
  | fuel+1, p, hE, hb => by
      simp only [parse_expression]
      exact suff_parse_assignment fuel p hE (by omega)

end

/-- The parameter loop returns or raises under linear fuel. -/
theorem suff_parse_params_loop :
    ∀ (fuel : Nat) (acc : List String) (p : Parser), EOFtoks p.tokens →
      40 * (p.tokens.length - p.current) + 5 ≤ fuel →
      (∃ a q, parse_params_loop fuel acc p = .ok a q) ∨
      (∃ e q, parse_params_loop fuel acc p = .err e q)
  | 0, _, p, _, hb => by omega
  | fuel+1, acc, p, hE, hb => by
      simp only [parse_params_loop]
      split
      · rename_i hcm
        have hne : p.peek.type ≠ .EOF := by rw [hcm]; decide
        have hlt := lt_of_peek_ne hE hne
        have hadv := advance_current_lt p hlt
        have hEa := hE.transfer (advance_tokens p)
        rcases consume_cases (p.advance).2 .IDENTIFIER "期望参数名" with
          ⟨tk, p2, hc⟩ | ⟨er, hc⟩
        · simp only [hc, PRes.bind]
          have hs := consume_ok_spec hEa (by decide) hc
          exact suff_parse_params_loop fuel (acc ++ [value_text tk.value]) p2
            (hEa.transfer hs.1) (by rw [hs.1, advance_tokens]; omega)
        · simp only [hc, PRes.bind]
          exact .inr ⟨_, _, rfl⟩
      · exact .inl ⟨_, _, rfl⟩

/-- `parse_expression_statement` returns or raises under linear fuel;
success consumes at least one token. -/
theorem suff_parse_expression_statement :
    ∀ (fuel : Nat) (p : Parser), EOFtoks p.tokens →
      40 * (p.tokens.length - p.current) + 18 ≤ fuel →
      (∃ a q, parse_expression_statement fuel p = .ok a q ∧
        p.current < q.current ∧ p.current < p.tokens.length) ∨
      (∃ e q, parse_expression_statement fuel p = .err e q)
  | 0, p, _, hb => by omega
  | fuel+1, p, hE, hb => by
      simp only [parse_expression_statement]
      rcases suff_parse_expression fuel p hE (by omega) with
        ⟨e, p1, hok, hlt1, hin1⟩ | ⟨er, q, herr⟩
      · simp only [hok, PRes.bind]
        have hm := mono_of_ok (mono_parse_expression fuel p) hok
        rcases consume_cases p1 .SEMICOLON "期望 ';'" with ⟨tk, p2, hc⟩ | ⟨er, hc⟩
        · simp only [hc, PRes.bind]
          have hs := consume_ok_spec (hE.transfer hm.1) (by decide) hc
          refine .inl ⟨_, _, rfl, ?_, hin1⟩
          omega
        · simp only [hc, PRes.bind]
          exact .inr ⟨_, _, rfl⟩
      · simp only [herr, PRes.bind]
        exact .inr ⟨_, _, rfl⟩

/-- `parse_return_statement` returns or raises under linear fuel;
success consumes at least one token. -/
theorem suff_parse_return_statement :
    ∀ (fuel : Nat) (p : Parser), EOFtoks p.tokens →
      40 * (p.tokens.length - p.current) + 19 ≤ fuel →
      (∃ a q, parse_return_statement fuel p = .ok a q ∧
        p.current < q.current ∧ p.current < p.tokens.length) ∨
      (∃ e q, parse_return_statement fuel p = .err e q)
  | 0, p, _, hb => by omega
  | fuel+1, p, hE, hb => by
      simp only [parse_return_statement]
      rcases consume_cases p .RETURN "期望 'return'" with ⟨tk, p1, hc1⟩ | ⟨er, hc1⟩
      · simp only [hc1, PRes.bind]
        have hs1 := consume_ok_spec hE (by decide) hc1
        have hE1 := hE.transfer hs1.1
        by_cases hterm : p1.peek.type ∈ [TokenType.SEMICOLON, .NEWLINE, .EOF]
        · simp only [if_pos hterm, PRes.bind]
          rcases consume_cases p1 .SEMICOLON "期望 ';'" with
            ⟨tk2, p4, hc2⟩ | ⟨er, hc2⟩
          · simp only [hc2, PRes.bind]
            have hs2 := consume_ok_spec hE1 (by decide) hc2
            refine .inl ⟨_, _, rfl, ?_, hs1.2.2⟩
            omega
          · simp only [hc2, PRes.bind]
            exact .inr ⟨_, _, rfl⟩
        · simp only [if_neg hterm]
          rcases suff_parse_expression fuel p1 hE1 (by rw [hs1.1]; omega) with
            ⟨e, p2, hok, hlt2, _⟩ | ⟨er, q, herr⟩
          · simp only [hok, PRes.bind]
            have hm := mono_of_ok (mono_parse_expression fuel p1) hok
            rcases consume_cases p2 .SEMICOLON "期望 ';'" with
              ⟨tk2, p4, hc2⟩ | ⟨er, hc2⟩
            · simp only [hc2, PRes.bind]
              have hs2 := consume_ok_spec (hE1.transfer hm.1) (by decide) hc2
              refine .inl ⟨_, _, rfl, ?_, hs1.2.2⟩
              omega
            · simp only [hc2, PRes.bind]
              exact .inr ⟨_, _, rfl⟩
          · simp only [herr, PRes.bind]
            exact .inr ⟨_, _, rfl⟩
      · simp only [hc1, PRes.bind]
        exact .inr ⟨_, _, rfl⟩

mutual

/-- `parse_while_statement` returns or raises under linear fuel;
success consumes at least one token. -/
theorem suff_parse_while_statement :
    ∀ (fuel : Nat) (p : Parser), EOFtoks p.tokens →
      40 * (p.tokens.length - p.current) + 19 ≤ fuel →
      (∃ a q, parse_while_statement fuel p = .ok a q ∧
        p.current < q.current ∧ p.current < p.tokens.length) ∨
      (∃ e q, parse_while_statement fuel p = .err e q)
  | 0, p, _, hb => by omega
  | fuel+1, p, hE, hb => by
      simp only [parse_while_statement]
      rcases consume_cases p .WHILE "期望 'while'" with ⟨tk, p1, hc1⟩ | ⟨er, hc1⟩
      · simp only [hc1, PRes.bind]
        have hs1 := consume_ok_spec hE (by decide) hc1
        have hE1 := hE.transfer hs1.1
        rcases consume_cases p1 .LEFT_PAREN "期望 '('" with ⟨tk2, p2, hc2⟩ | ⟨er, hc2⟩
        · simp only [hc2, PRes.bind]
          have hs2 := consume_ok_spec hE1 (by decide) hc2
          have hE2 := hE1.transfer hs2.1
          rcases suff_parse_expression fuel p2 hE2 (by rw [hs2.1, hs1.1]; omega) with
            ⟨cond, p3, hok3, hlt3, _⟩ | ⟨er, q, herr⟩
          · simp only [hok3, PRes.bind]
            have hm3 := mono_of_ok (mono_parse_expression fuel p2) hok3
            have hE3 := hE2.transfer hm3.1
            rcases consume_cases p3 .RIGHT_PAREN "期望 ')'" with
              ⟨tk3, p4, hc4⟩ | ⟨er, hc4⟩
            · simp only [hc4, PRes.bind]
              have hs4 := consume_ok_spec hE3 (by decide) hc4
              have hE4 := hE3.transfer hs4.1
              obtain ⟨bodyOpt, p5, hok5, _⟩ := suff_parse_statement fuel p4 hE4
                (by rw [hs4.1, hm3.1, hs2.1, hs1.1]; omega)
              simp only [hok5, PRes.bind]
              have hm5 := mono_of_ok (mono_parse_statement fuel p4) hok5
              split
              · exact .inr ⟨_, _, rfl⟩
              · refine .inl ⟨_, _, rfl, ?_, hs1.2.2⟩
                omega
            · simp only [hc4, PRes.bind]
              exact .inr ⟨_, _, rfl⟩
          · simp only [herr, PRes.bind]
            exact .inr ⟨_, _, rfl⟩
        · simp only [hc2, PRes.bind]
          exact .inr ⟨_, _, rfl⟩
      · simp only [hc1, PRes.bind]
        exact .inr ⟨_, _, rfl⟩

/-- `parse_if_statement` returns or raises under linear fuel; success
consumes at least one token. -/
theorem suff_parse_if_statement :
    ∀ (fuel : Nat) (p : Parser), EOFtoks p.tokens →
      40 * (p.tokens.length - p.current) + 19 ≤ fuel →
      (∃ a q, parse_if_statement fuel p = .ok a q ∧
        p.current < q.current ∧ p.current < p.tokens.length) ∨
      (∃ e q, parse_if_statement fuel p = .err e q)
  | 0, p, _, hb => by omega
  | fuel+1, p, hE, hb => by
      simp only [parse_if_statement]
      rcases consume_cases p .IF "期望 'if'" with ⟨tk, p1, hc1⟩ | ⟨er, hc1⟩
      · simp only [hc1, PRes.bind]
        have hs1 := consume_ok_spec hE (by decide) hc1
        have hE1 := hE.transfer hs1.1
        rcases consume_cases p1 .LEFT_PAREN "期望 '('" with ⟨tk2, p2, hc2⟩ | ⟨er, hc2⟩
        · simp only [hc2, PRes.bind]
          have hs2 := consume_ok_spec hE1 (by decide) hc2
          have hE2 := hE1.transfer hs2.1
          rcases suff_parse_expression fuel p2 hE2 (by rw [hs2.1, hs1.1]; omega) with
            ⟨cond, p3, hok3, hlt3, _⟩ | ⟨er, q, herr⟩
          · simp only [hok3, PRes.bind]
            have hm3 := mono_of_ok (mono_parse_expression fuel p2) hok3
            have hE3 := hE2.transfer hm3.1
            rcases consume_cases p3 .RIGHT_PAREN "期望 ')'" with
              ⟨tk3, p4, hc4⟩ | ⟨er, hc4⟩
            · simp only [hc4, PRes.bind]
              have hs4 := consume_ok_spec hE3 (by decide) hc4
              have hE4 := hE3.transfer hs4.1
              obtain ⟨thenOpt, p5, hok5, _⟩ := suff_parse_statement fuel p4 hE4
                (by rw [hs4.1, hm3.1, hs2.1, hs1.1]; omega)
              simp only [hok5, PRes.bind]
              have hm5 := mono_of_ok (mono_parse_statement fuel p4) hok5
              have hE5 := hE4.transfer hm5.1
              split
              · exact .inr ⟨_, _, rfl⟩
              · split
                · rename_i hlse
                  have hne : p5.peek.type ≠ .EOF := by rw [hlse]; decide
                  have hlt5 := lt_of_peek_ne hE5 hne
                  have hadv5 := advance_current_lt p5 hlt5
                  obtain ⟨elseOpt, p7, hok7, _⟩ :=
                    suff_parse_statement fuel (p5.advance).2
                      (hE5.transfer (advance_tokens p5))
                      (by rw [advance_tokens, hadv5, hm5.1, hs4.1, hm3.1,
                            hs2.1, hs1.1]; omega)
                  simp only [hok7, PRes.bind]
                  have hm7 := mono_of_ok
                    (mono_parse_statement fuel (p5.advance).2) hok7
                  refine .inl ⟨_, _, rfl, ?_, hs1.2.2⟩
                  omega
                · refine .inl ⟨_, _, rfl, ?_, hs1.2.2⟩
                  omega
            · simp only [hc4, PRes.bind]
              exact .inr ⟨_, _, rfl⟩
          · simp only [herr, PRes.bind]
            exact .inr ⟨_, _, rfl⟩
        · simp only [hc2, PRes.bind]
          exact .inr ⟨_, _, rfl⟩
      · simp only [hc1, PRes.bind]
        exact .inr ⟨_, _, rfl⟩

/-- `parse_function_declaration` returns or raises under linear fuel;
success consumes at least one token. -/
theorem suff_parse_function_declaration :
    ∀ (fuel : Nat) (p : Parser), EOFtoks p.tokens →
      40 * (p.tokens.length - p.current) + 19 ≤ fuel →
      (∃ a q, parse_function_declaration fuel p = .ok a q ∧
        p.current < q.current ∧ p.current < p.tokens.length) ∨
      (∃ e q, parse_function_declaration fuel p = .err e q)
  | 0, p, _, hb => by omega
  | fuel+1, p, hE, hb => by
      simp only [parse_function_declaration]
      rcases consume_cases p .FUNCTION "期望 'func'" with ⟨tk, p1, hc1⟩ | ⟨er, hc1⟩
      · simp only [hc1, PRes.bind]
        have hs1 := consume_ok_spec hE (by decide) hc1
        have hE1 := hE.transfer hs1.1
        rcases consume_cases p1 .IDENTIFIER "期望函数名" with ⟨tk2, p2, hc2⟩ | ⟨er, hc2⟩
        · simp only [hc2, PRes.bind]
          have hs2 := consume_ok_spec hE1 (by decide) hc2
          have hE2 := hE1.transfer hs2.1
          rcases consume_cases p2 .LEFT_PAREN "期望 '('" with ⟨tk3, p3, hc3⟩ | ⟨er, hc3⟩
          · simp only [hc3, PRes.bind]
            have hs3 := consume_ok_spec hE2 (by decide) hc3
            have hE3 := hE2.transfer hs3.1
            by_cases hrp : p3.peek.type = .RIGHT_PAREN
            · simp only [if_pos hrp, PRes.bind]
              rcases consume_cases p3 .RIGHT_PAREN "期望 ')'" with
                ⟨tk4, p6, hc6⟩ | ⟨er, hc6⟩
              · simp only [hc6, PRes.bind]
                have hs6 := consume_ok_spec hE3 (by decide) hc6
                rcases suff_parse_block_statement fuel p6 (hE3.transfer hs6.1)
                    (by rw [hs6.1, hs3.1, hs2.1, hs1.1]; omega) with
                  ⟨body, p7, hok7, hlt7, _⟩ | ⟨er, q, herr7⟩
                · simp only [hok7, PRes.bind]
                  refine .inl ⟨_, _, rfl, ?_, hs1.2.2⟩
                  omega
                · simp only [herr7, PRes.bind]
                  exact .inr ⟨_, _, rfl⟩
              · simp only [hc6, PRes.bind]
                exact .inr ⟨_, _, rfl⟩
            · simp only [if_neg hrp]
              rcases consume_cases p3 .IDENTIFIER "期望参数名" with
                ⟨tkp, p4, hc4⟩ | ⟨er, hc4⟩
              · simp only [hc4, PRes.bind]
                have hs4 := consume_ok_spec hE3 (by decide) hc4
                have hE4 := hE3.transfer hs4.1
                rcases suff_parse_params_loop fuel [value_text tkp.value] p4 hE4
                    (by rw [hs4.1, hs3.1, hs2.1, hs1.1]; omega) with
                  ⟨params, p5, hok5⟩ | ⟨er, q, herr5⟩
                · simp only [hok5, PRes.bind]
                  have hm5 := mono_of_ok (mono_parse_params_loop fuel _ p4) hok5
                  have hE5 := hE4.transfer hm5.1
                  rcases consume_cases p5 .RIGHT_PAREN "期望 ')'" with
                    ⟨tk6, p6, hc6⟩ | ⟨er, hc6⟩
                  · simp only [hc6, PRes.bind]
                    have hs6 := consume_ok_spec hE5 (by decide) hc6
                    rcases suff_parse_block_statement fuel p6 (hE5.transfer hs6.1)
                        (by rw [hs6.1, hm5.1, hs4.1, hs3.1,
                              hs2.1, hs1.1]; omega) with
                      ⟨body, p7, hok7, hlt7, _⟩ | ⟨er, q, herr7⟩
                    · simp only [hok7, PRes.bind]
                      refine .inl ⟨_, _, rfl, ?_, hs1.2.2⟩
                      omega
                    · simp only [herr7, PRes.bind]
                      exact .inr ⟨_, _, rfl⟩
                  · simp only [hc6, PRes.bind]
                    exact .inr ⟨_, _, rfl⟩
                · simp only [herr5, PRes.bind]
                  exact .inr ⟨_, _, rfl⟩
              · simp only [hc4, PRes.bind]
                exact .inr ⟨_, _, rfl⟩
          · simp only [hc3, PRes.bind]
            exact .inr ⟨_, _, rfl⟩
        · simp only [hc2, PRes.bind]
          exact .inr ⟨_, _, rfl⟩
      · simp only [hc1, PRes.bind]
        exact .inr ⟨_, _, rfl⟩

/-- `parse_block_statement` returns or raises under linear fuel; success
consumes at least one token. -/
theorem suff_parse_block_statement :
    ∀ (fuel : Nat) (p : Parser), EOFtoks p.tokens →
      40 * (p.tokens.length - p.current) + 19 ≤ fuel →
      (∃ a q, parse_block_statement fuel p = .ok a q ∧
        p.current < q.current ∧ p.current < p.tokens.length) ∨
      (∃ e q, parse_block_statement fuel p = .err e q)
  | 0, p, _, hb => by omega
  | fuel+1, p, hE, hb => by
      simp only [parse_block_statement]
      rcases consume_cases p .LEFT_BRACE "期望 '\x7b'" with ⟨tk, p1, hc1⟩ | ⟨er, hc1⟩
      · simp only [hc1, PRes.bind]
        have hs1 := consume_ok_spec hE (by decide) hc1
        have hE1 := hE.transfer hs1.1
        obtain ⟨p2, hok2⟩ := skip_newlines_suff fuel p1 hE1 (by rw [hs1.1]; omega)
        simp only [hok2, PRes.bind]
        have hm2 := mono_of_ok (mono_skip_newlines fuel p1) hok2
        have hE2 := hE1.transfer hm2.1
        obtain ⟨stmts, p3, hok3⟩ := suff_parse_block_loop fuel p2 hE2
          (by rw [hm2.1, hs1.1]; omega)
        simp only [hok3, PRes.bind]
        have hm3 := mono_of_ok (mono_parse_block_loop fuel p2) hok3
        rcases consume_cases p3 .RIGHT_BRACE "期望 '\x7d'" with
          ⟨tk4, p4, hc4⟩ | ⟨er, hc4⟩
        · simp only [hc4, PRes.bind]
          have hs4 := consume_ok_spec (hE2.transfer hm3.1) (by decide) hc4
          refine .inl ⟨_, _, rfl, ?_, hs1.2.2⟩
          omega
        · simp only [hc4, PRes.bind]
          exact .inr ⟨_, _, rfl⟩
      · simp only [hc1, PRes.bind]
        exact .inr ⟨_, _, rfl⟩

/-- The block-statement loop always returns under linear fuel. -/
theorem suff_parse_block_loop :
    ∀ (fuel : Nat) (p : Parser), EOFtoks p.tokens →
      40 * (p.tokens.length - p.current) + 22 ≤ fuel →
      ∃ l q, parse_block_loop fuel p = .ok l q
  | 0, p, _, hb => by omega
  | fuel+1, p, hE, hb => by
      simp only [parse_block_loop]
      split
      · exact ⟨[], p, rfl⟩
      · rename_i hcond
        have hnae : ¬(p.at_end = true) := fun h => hcond (Or.inr h)
        have hne : p.peek.type ≠ .EOF := by simpa [Parser.at_end] using hnae
        have hlt := lt_of_peek_ne hE hne
        obtain ⟨o, p1, hok1, hdisj⟩ := suff_parse_statement fuel p hE (by omega)
        simp only [hok1, PRes.bind]
        have hm1 := mono_of_ok (mono_parse_statement fuel p) hok1
        have hE1 := hE.transfer hm1.1
        rcases hdisj with hstrict | hend
        · obtain ⟨p2, hok2⟩ := skip_newlines_suff fuel p1 hE1 (by rw [hm1.1]; omega)
          simp only [hok2, PRes.bind]
          have hm2 := mono_of_ok (mono_skip_newlines fuel p1) hok2
          obtain ⟨rest, p3, hok3⟩ := suff_parse_block_loop fuel p2
            (hE1.transfer hm2.1) (by rw [hm2.1, hm1.1]; omega)
          simp only [hok3, PRes.bind]
          exact ⟨_, p3, rfl⟩
        · have hpeek1 : p1.peek.type = .EOF := by
            simpa [Parser.at_end] using hend
          obtain ⟨f1, rfl⟩ : ∃ f1, fuel = f1 + 1 := ⟨fuel - 1, by omega⟩
          rw [skip_newlines_at_end hpeek1 f1]
          simp only [PRes.bind]
          simp only [parse_block_loop]
          rw [if_pos (Or.inr hend)]
          simp only [PRes.bind]
          exact ⟨_, p1, rfl⟩

/-- The statement dispatch returns or raises under linear fuel; success
consumes at least one token. -/
theorem suff_parse_statement_dispatch (fuel : Nat) (p : Parser)
    (hE : EOFtoks p.tokens)
    (hb : 40 * (p.tokens.length - p.current) + 20 ≤ fuel) :
    (∃ a q, parse_statement_dispatch fuel p = .ok a q ∧
      p.current < q.current ∧ p.current < p.tokens.length) ∨
    (∃ e q, parse_statement_dispatch fuel p = .err e q) := by
  unfold parse_statement_dispatch
  split
  · exact suff_parse_function_declaration fuel p hE (by omega)
  · split
    · exact suff_parse_if_statement fuel p hE (by omega)
    · split
      · exact suff_parse_while_statement fuel p hE (by omega)
      · split
        · exact suff_parse_return_statement fuel p hE (by omega)
        · split
          · exact suff_parse_block_statement fuel p hE (by omega)
          · exact suff_parse_expression_statement fuel p hE (by omega)

/-- `parse_statement` always returns under linear fuel, and either
consumed at least one token or stopped at end of input. -/
theorem suff_parse_statement :
    ∀ (fuel : Nat) (p : Parser), EOFtoks p.tokens →
      40 * (p.tokens.length - p.current) + 21 ≤ fuel →
      ∃ o q, parse_statement fuel p = .ok o q ∧
        (p.current < q.current ∨ q.at_end = true)
  | 0, p, _, hb => by omega
  | fuel+1, p, hE, hb => by
      rw [parse_statement_succ]
      rcases suff_parse_statement_dispatch fuel p hE (by omega) with
        ⟨s, p1, hok, hlt1, _⟩ | ⟨e0, m, herr⟩
      · simp only [hok]
        exact ⟨some s, p1, rfl, .inl hlt1⟩
      · simp only [herr]
        have hm := mono_of_err (mono_parse_statement_dispatch fuel p) herr
        have hEm := hE.transfer hm.1
        by_cases hc : m.current < m.tokens.length
        · have hadv := advance_current_lt m hc
          have hEa := hEm.transfer (advance_tokens m)
          obtain ⟨r, hokr, hstop⟩ := synchronize_loop_suff fuel (m.advance).2 hEa
            (by rw [advance_tokens, hadv, hm.1]; omega)
          have hmr := mono_of_ok (mono_synchronize_loop fuel (m.advance).2) hokr
          simp only [synchronize, hokr, PRes.bind]
          refine ⟨none, r, rfl, .inl ?_⟩
          omega
        · have hadv2 : (m.advance).2 = m := by
            simp only [Parser.advance, if_neg hc]
          have hpeekm : m.peek.type = .EOF := peek_eof_of_ge hEm (by omega)
          have hatm : m.at_end = true := by simp [Parser.at_end, hpeekm]
          obtain ⟨f1, rfl⟩ : ∃ f1, fuel = f1 + 1 := ⟨fuel - 1, by omega⟩
          refine ⟨none, m, ?_, .inr hatm⟩
          simp [synchronize, hadv2, synchronize_loop, hatm, PRes.bind]

end

/-- The program-statement loop always returns under linear fuel. -/
theorem suff_parse_program_loop :
    ∀ (fuel : Nat) (p : Parser), EOFtoks p.tokens →
      40 * (p.tokens.length - p.current) + 22 ≤ fuel →
      ∃ l q, parse_program_loop fuel p = .ok l q
  | 0, p, _, hb => by omega
  | fuel+1, p, hE, hb => by
      simp only [parse_program_loop]
      split
      · exact ⟨[], p, rfl⟩
      · rename_i hnae
        have hne : p.peek.type ≠ .EOF := by simpa [Parser.at_end] using hnae
        have hlt := lt_of_peek_ne hE hne
        obtain ⟨o, p1, hok1, hdisj⟩ := suff_parse_statement fuel p hE (by omega)
        simp only [hok1, PRes.bind]
        have hm1 := mono_of_ok (mono_parse_statement fuel p) hok1
        have hE1 := hE.transfer hm1.1
        rcases hdisj with hstrict | hend
        · obtain ⟨p2, hok2⟩ := skip_newlines_suff fuel p1 hE1 (by rw [hm1.1]; omega)
          simp only [hok2, PRes.bind]
          have hm2 := mono_of_ok (mono_skip_newlines fuel p1) hok2
          obtain ⟨rest, p3, hok3⟩ := suff_parse_program_loop fuel p2
            (hE1.transfer hm2.1) (by rw [hm2.1, hm1.1]; omega)
          simp only [hok3, PRes.bind]
          exact ⟨_, p3, rfl⟩
        · have hpeek1 : p1.peek.type = .EOF := by simpa [Parser.at_end] using hend
          obtain ⟨f1, rfl⟩ : ∃ f1, fuel = f1 + 1 := ⟨fuel - 1, by omega⟩
          rw [skip_newlines_at_end hpeek1 f1]
          simp only [PRes.bind]
          simp only [parse_program_loop]
          rw [if_pos hend]
          simp only [PRes.bind]
          exact ⟨_, p1, rfl⟩

/-- `parse` with the canonical fuel returns a `Program` on every
EOF-terminated token list. -/
theorem suff_parse (toks : List Token) (hE : EOFtoks toks) :
    ∃ prog q, parse (parse_fuel toks) (Parser.mk toks 0) = .ok prog q := by
  unfold parse parse_fuel
  obtain ⟨p1, h1⟩ := skip_newlines_suff (40 * (toks.length + 1) + 40)
    (Parser.mk toks 0) hE
    (by show toks.length - 0 + 1 ≤ 40 * (toks.length + 1) + 40; omega)
  simp only [h1, PRes.bind]
  have hm1 := mono_of_ok
    (mono_skip_newlines (40 * (toks.length + 1) + 40) (Parser.mk toks 0)) h1
  obtain ⟨stmts, p2, h2⟩ := suff_parse_program_loop (40 * (toks.length + 1) + 40)
    p1 (EOFtoks.transfer hE hm1.1)
    (by rw [hm1.1]
        show 40 * (toks.length - p1.current) + 22 ≤ 40 * (toks.length + 1) + 40
        omega)
  simp only [h2, PRes.bind]
  exact ⟨⟨stmts⟩, p2, rfl⟩

/-- C4: a `ParseError` raised while parsing a statement never escapes:
`parse` and `parse_statement` never return a raise at any fuel, the
panic-mode `synchronize` only stops past a semicolon, at a
statement-start keyword (`func`/`if`/`while`/`return`), or at end of
input, and on every EOF-terminated token sequence `parse` (at its
canonical fuel) returns a `Program`. -/
theorem C4_parse_recovers_from_errors :
    (∀ (fuel : Nat) (p : Parser) (e : ParseError) (q : Parser),
        parse fuel p ≠ .err e q) ∧
    (∀ (fuel : Nat) (p : Parser) (e : ParseError) (q : Parser),
        parse_statement fuel p ≠ .err e q) ∧
    (∀ (fuel : Nat) (p : Parser) (u : Unit) (r : Parser),
        synchronize fuel p = .ok u r → sync_stop r) ∧
    (∀ toks : List Token, EOFtoks toks →
        ∃ prog q, parse (parse_fuel toks) (Parser.mk toks 0) = .ok prog q) :=
  ⟨parse_ne_err, parse_statement_ne_err, synchronize_ok_stop, suff_parse⟩

/-- Witness: the recovery theorem applied to the concrete token stream of
`1 + ; x ;`, whose first statement is malformed. -/
theorem C4_parse_recovers_witness :
    ∃ prog q, parse (parse_fuel C4_sample_tokens)
      (Parser.mk C4_sample_tokens 0) = .ok prog q :=
  C4_parse_recovers_from_errors.2.2.2 C4_sample_tokens
    (by unfold EOFtoks; decide)

end Compiler
